import Mathlib

/-!
# libfss: two-party function secret sharing for point functions

A shallow embedding of the Go package `libfss` (files `fss_util.go`,
`fss_initialize.go`, `fss_2party_pf.go`) and theorems about it.

Conventions of the embedding

* `byte` is `Fin 256`; its `*` wraps modulo 256 as in Go, `^^^` is bitwise xor.
* `uint` is a natural number below `2 ^ W`, where `W` (32 or 64 in Go) is the
  width of the platform word; every `uint` operation that can wrap is written
  with an explicit `% 2 ^ W`.
* `int` is an integer in `[-2 ^ (W-1), 2 ^ (W-1))`; every `int` operation is
  wrapped with `wrapInt W`, the two's complement reduction.
* a slice is a `List`; reads and writes outside its length are run-time panics,
  modelled by `Except Panic`.  Distinct buffers are assumed not to alias (they
  are separately allocated by `ClientInitialize` and `ServerInitialize`).
* `make` with a length computed at run time (`f.NumBits` in `GenerateTreePF`,
  `numBlocks * 16` in `prf`) panics with `makeslice: len out of range` when
  the length fails the test of the run-time system (`MakesliceOk`); a length
  that passes is allocated: exhaustion of the available memory is not modelled.
* `crypto/rand` is a stream `rnd : Nat → Byte` of drawn bytes, read in order.
* `cipher.Block` is an arbitrary function on 16-byte blocks; `aes.NewCipher`
  is an arbitrary map from keys of valid length to such functions.
* `fmt.Println` appends to a list of printed records.
-/

namespace Libfss

/-! ## Machine types -/

/-- Go `byte`. -/
abbrev Byte := Fin 256

/-- Run-time failures (Go panics) that the modelled code can raise. -/
inductive Panic where
  | indexOutOfRange
  | sliceBoundsOutOfRange
  | nilDereference
  | inputNotFullBlock
  | outputNotFullBlock
  | keySizeError (n : Nat)
  | makesliceLenOutOfRange
  deriving DecidableEq, Repr

/-- Two's complement reduction of an integer to a `W`-bit Go `int`. -/
def wrapInt (W : Nat) (z : Int) : Int := Int.bmod z (2 ^ W)

/-- Go `uint` addition. -/
def uadd (W a b : Nat) : Nat := (a + b) % 2 ^ W

/-- Go `uint` subtraction (wraps below zero). -/
def usub (W a b : Nat) : Nat := (a + 2 ^ W - b % 2 ^ W) % 2 ^ W

/-- Go `uint` multiplication. -/
def umul (W a b : Nat) : Nat := (a * b) % 2 ^ W

/-- Go `uint` left shift: bits shifted past the width are lost, so a count of
`W` or more gives 0. -/
def ushl (W a s : Nat) : Nat := (a <<< s) % 2 ^ W

/-- Slice read `l[i]`. -/
def index {α : Type} (l : List α) (i : Nat) : Except Panic α :=
  match l[i]? with
  | some v => .ok v
  | none => .error .indexOutOfRange

/-- Slice write `l[i] = v`. -/
def store {α : Type} (l : List α) (i : Nat) (v : α) : Except Panic (List α) :=
  if i < l.length then .ok (l.set i v) else .error .indexOutOfRange

/-- Nested slice write `l[i][j] = v`. -/
def store2 {α : Type} (l : List (List α)) (i j : Nat) (v : α) :
    Except Panic (List (List α)) :=
  match index l i with
  | .error e => .error e
  | .ok row =>
    match store row j v with
    | .error e => .error e
    | .ok row1 => store l i row1

/-- Go `copy(dst, src)`: overwrites the first `min (len dst) (len src)` bytes
of `dst`. -/
def copy {α : Type} (dst src : List α) : List α :=
  src.take dst.length ++ dst.drop src.length

/-- Go `make([]byte, n)`. -/
def makeBytes (n : Nat) : List Byte := List.replicate n 0

/-- Slice expression `l[:n]` (length equals capacity for every buffer here). -/
def sliceTo {α : Type} (l : List α) (n : Nat) : Except Panic (List α) :=
  if n ≤ l.length then .ok (l.take n) else .error .sliceBoundsOutOfRange

/-- Slice expression `l[lo:hi]`. -/
def slice {α : Type} (l : List α) (lo hi : Nat) : Except Panic (List α) :=
  if lo ≤ hi ∧ hi ≤ l.length then .ok ((l.take hi).drop lo)
  else .error .sliceBoundsOutOfRange

/-- Loop `for i := lo; i < lo + n; i++ { body }` over a state, stopping at the
first panic. -/
def forLoop {σ : Type} (body : Nat → σ → Except Panic σ) :
    Nat → Nat → σ → Except Panic σ
  | 0, _, s => .ok s
  | n + 1, i, s =>
    match body i s with
    | .error e => .error e
    | .ok s1 => forLoop body n (i + 1) s1

/-! ## runtime (Go run-time system): `make` with a run-time length -/

/-- Size in bytes of a slice header (data pointer, length, capacity), the
element type of `[][]byte`: three words, 12 bytes on a 32-bit platform and 24
on a 64-bit one. -/
def sliceHeaderBytes (W : Nat) : Nat := if W ≤ 32 then 12 else 24

/-- Constant `runtime.maxAlloc`, the largest size of one allocation:
`2^32 - 1` bytes on a 32-bit platform, and `2^48` bytes on a 64-bit one, whose
heap addresses have 48 bits (`W - 16`). -/
def maxAlloc (W : Nat) : Nat := if W ≤ 32 then 2 ^ 32 - 1 else 2 ^ (W - 16)

/-- The test of `runtime.makeslice` on `make([]T, n)` for a `uint` `n` and
elements of `elemSize` bytes: `n` converted to `int` is not negative, and the
size `elemSize * n` neither overflows `uintptr` nor exceeds `maxAlloc`.
Whether that much memory is in fact available is not modelled. -/
def MakesliceOk (W elemSize n : Nat) : Prop :=
  n < 2 ^ (W - 1) ∧ elemSize * n < 2 ^ W ∧ elemSize * n ≤ maxAlloc W

instance (W elemSize n : Nat) : Decidable (MakesliceOk W elemSize n) := by
  unfold MakesliceOk; infer_instance

/-- Call `make([]T, n)` with a length `n` computed at run time: `n` zero
values, or the panic `makeslice: len out of range`.  (The other `make` calls
of the package have constant lengths of at most 64 and cannot fail this
test.) -/
def makeslice {α : Type} (W elemSize n : Nat) (zero : α) : Except Panic (List α) :=
  if MakesliceOk W elemSize n then .ok (List.replicate n zero)
  else .error .makesliceLenOutOfRange

/-! ## fss_util.go -/

/-- Constant `aes.BlockSize`. -/
def BlockSize : Nat := 16

/-- Interface `cipher.Block`, restricted to what the package uses: the
encryption of one 16-byte block. -/
structure Block where
  enc : List Byte → List Byte
  enc_length : ∀ x, (enc x).length = 16

/-- Method `Encrypt(dst, src)` of `crypto/aes`: panics unless both slices hold a
full block, then overwrites the first block of `dst`. -/
def Block.Encrypt (c : Block) (dst src : List Byte) : Except Panic (List Byte) :=
  if src.length < BlockSize then .error .inputNotFullBlock
  else if dst.length < BlockSize then .error .outputNotFullBlock
  else .ok (c.enc (src.take BlockSize) ++ dst.drop BlockSize)

/-- Struct `Fss`. An entry of `FixedBlocks` is `none` for a nil interface. -/
structure Fss where
  PrfKeys : List (List Byte)
  FixedBlocks : List (Option Block)
  M : Nat
  N : Nat
  NumBits : Nat
  Temp : List Byte
  Out : List Byte

/-- Constant `initPRFLen`. -/
def initPRFLen : Nat := 4

/-- Function `getBit(n, pos, N)`. -/
def getBit (W n pos N : Nat) : Byte :=
  let val := n &&& ushl W 1 (usub W N pos)
  if val > 0 then 1 else 0

/-- Method call `aesBlocks[i].Encrypt(temp, x)` on a slice of interfaces. -/
def encryptAt (aesBlocks : List (Option Block)) (i : Nat) (temp x : List Byte) :
    Except Panic (List Byte) :=
  match index aesBlocks i with
  | .error e => .error e
  | .ok none => .error .nilDereference
  | .ok (some blk) => blk.Encrypt temp x

/-- Body of the inner loop of `prf`: `out[i*16 + j] = temp[j] ^ x[j]`. -/
def prfInner (W : Nat) (x temp : List Byte) (i j : Nat) (out : List Byte) :
    Except Panic (List Byte) :=
  match index temp j with
  | .error e => .error e
  | .ok tj =>
    match index x j with
    | .error e => .error e
    | .ok xj => store out (uadd W (umul W i BlockSize) j) (tj ^^^ xj)

/-- Body of the outer loop of `prf`, on the pair `(temp, out)`. -/
def prfOuter (W : Nat) (x : List Byte) (aesBlocks : List (Option Block)) (i : Nat)
    (st : List Byte × List Byte) : Except Panic (List Byte × List Byte) :=
  match encryptAt aesBlocks i st.1 x with
  | .error e => .error e
  | .ok temp =>
    match forLoop (prfInner W x temp i) temp.length 0 st.2 with
    | .error e => .error e
    | .ok out => .ok (temp, out)

/-- Function `prf(x, aesBlocks, numBlocks, temp, out)`. Returns the contents of
the caller's `temp` and `out` after the call.  When `numBlocks > initPRFLen`
the function allocates a fresh local slice of `numBlocks * 16` bytes, writes
to it, and the caller's `out` is left as it was. -/
def prf (W : Nat) (x : List Byte) (aesBlocks : List (Option Block)) (numBlocks : Nat)
    (temp out : List Byte) : Except Panic (List Byte × List Byte) :=
  if numBlocks > initPRFLen then
    match makeslice W 1 (umul W numBlocks BlockSize) (0 : Byte) with
    | .error e => .error e
    | .ok fresh =>
      match forLoop (prfOuter W x aesBlocks) numBlocks 0 (temp, fresh) with
      | .error e => .error e
      | .ok st => .ok (st.1, out)
  else
    forLoop (prfOuter W x aesBlocks) numBlocks 0 (temp, out)

/-! ## encoding/binary (Go standard library) -/

/-- Loop of `binary.Uvarint` from Go's standard library, transcribed from the
library source: `i` is the index of the byte read, `x` the accumulated value
(a `uint64`) and `s` the current shift.  Returns the value and the byte count
(zero or negative on failure). -/
def uvarintLoop : List Byte → Nat → Nat → Nat → Nat × Int
  | [], _, _, _ => (0, 0)
  | b :: rest, i, x, s =>
    if i = 10 then (0, -((i : Int) + 1))
    else if b.val < 128 then
      if i = 9 ∧ b.val > 1 then (0, -((i : Int) + 1))
      else (x ||| (b.val <<< s) % 2 ^ 64, (i : Int) + 1)
    else uvarintLoop rest (i + 1) (x ||| ((b.val &&& 127) <<< s) % 2 ^ 64) (s + 7)

/-- Function `binary.Uvarint` of Go's standard library. -/
def Uvarint (buf : List Byte) : Nat × Int := uvarintLoop buf 0 0 0

/-- Function `binary.Varint` of Go's standard library: zig-zag decoding of
`Uvarint`; the result is an `int64`. -/
def Varint (buf : List Byte) : Int × Int :=
  let r := Uvarint buf
  let x : Int := Int.bmod ((r.1 >>> 1 : Nat) : Int) (2 ^ 64)
  (if r.1 &&& 1 ≠ 0 then -x - 1 else x, r.2)

/-! ## crypto/rand and crypto/aes -/

/-- Call `rand.Read(buf)` on a buffer of `n` bytes, when `pos` bytes of the
random stream have been consumed: the next `n` bytes of the stream. -/
def randRead (rnd : Nat → Byte) (pos n : Nat) : List Byte :=
  (List.range n).map (fun j => rnd (pos + j))

/-- Function `aes.NewCipher(key)`: rejects a key whose length is not 16, 24
or 32; `aes` stands for the cipher that AES derives from an accepted key. -/
def NewCipher (aes : List Byte → Block) (key : List Byte) : Except Panic Block :=
  if key.length = 16 ∨ key.length = 24 ∨ key.length = 32 then .ok (aes key)
  else .error (.keySizeError key.length)

/-! ## fss_initialize.go -/

/-- The test `var x uint64 = 1 << 32; if uint(x) == 0` that selects `f.N`. -/
def wordBits (W : Nat) : Nat := if 2 ^ 32 % 2 ^ W = 0 then 32 else 64

/-- Body of the loop of `ClientInitialize`, on `(PrfKeys, FixedBlocks)`. -/
def clientInitBody (aes : List Byte → Block) (rnd : Nat → Byte) (i : Nat)
    (st : List (List Byte) × List (Option Block)) :
    Except Panic (List (List Byte) × List (Option Block)) := do
  let keys ← store st.1 i (makeBytes BlockSize)
  let keys ← store keys i (randRead rnd (BlockSize * i) BlockSize)
  let key ← index keys i
  let block ← NewCipher aes key
  let blocks ← store st.2 i (some block)
  pure (keys, blocks)

/-- Function `ClientInitialize(numBits)`. -/
def ClientInitialize (W : Nat) (aes : List Byte → Block) (rnd : Nat → Byte)
    (numBits : Nat) : Except Panic Fss := do
  let st ← forLoop (clientInitBody aes rnd) initPRFLen 0
    (List.replicate initPRFLen [], List.replicate initPRFLen none)
  pure { PrfKeys := st.1, FixedBlocks := st.2, M := 4, N := wordBits W,
         NumBits := numBits, Temp := makeBytes BlockSize,
         Out := makeBytes (BlockSize * initPRFLen) }

/-- Body of the loop of `ServerInitialize`, on `(PrfKeys, FixedBlocks)`. -/
def serverInitBody (aes : List Byte → Block) (prfKeys : List (List Byte)) (i : Nat)
    (st : List (List Byte) × List (Option Block)) :
    Except Panic (List (List Byte) × List (Option Block)) := do
  let keys ← store st.1 i (makeBytes BlockSize)
  let dst ← index keys i
  let src ← index prfKeys i
  let keys ← store keys i (copy dst src)
  let key ← index keys i
  let block ← NewCipher aes key
  let blocks ← store st.2 i (some block)
  pure (keys, blocks)

/-- Function `ServerInitialize(prfKeys, numBits)`. -/
def ServerInitialize (W : Nat) (aes : List Byte → Block) (prfKeys : List (List Byte))
    (numBits : Nat) : Except Panic Fss := do
  let st ← forLoop (serverInitBody aes prfKeys) prfKeys.length 0
    (List.replicate initPRFLen [], List.replicate initPRFLen none)
  pure { PrfKeys := st.1, FixedBlocks := st.2, M := 4, N := wordBits W,
         NumBits := numBits, Temp := makeBytes BlockSize,
         Out := makeBytes (BlockSize * initPRFLen) }

/-! ## fss_2party_pf.go -/

/-- Struct `FssKeyEq2P`. -/
structure FssKeyEq2P where
  SInit : List Byte
  TInit : Byte
  CW : List (List Byte)
  FinalCW : Int

/-- Local variables of `GenerateTreePF` that live across the iterations of its
main loop, with the contents of the scratch buffers `f.Temp` and `f.Out`. -/
structure GenState where
  sCurr0 : List Byte
  sCurr1 : List Byte
  tCurr0 : Byte
  tCurr1 : Byte
  CW0 : List (List Byte)
  CW1 : List (List Byte)
  Temp : List Byte
  Out : List Byte

/-- Result of `GenerateTreePF`: the two keys `fssKeys[0]`, `fssKeys[1]` and the
contents in which the call leaves the scratch buffers of the context. -/
structure GenResult where
  key0 : FssKeyEq2P
  key1 : FssKeyEq2P
  Temp : List Byte
  Out : List Byte

/-- Loop of `GenerateTreePF` that allocates the correction words. -/
def genAllocBody (i : Nat) (st : List (List Byte) × List (List Byte)) :
    Except Panic (List (List Byte) × List (List Byte)) := do
  let cw0 ← store st.1 i (makeBytes (BlockSize + 2))
  let cw1 ← store st.2 i (makeBytes (BlockSize + 2))
  pure (cw0, cw1)

/-- First inner loop of `GenerateTreePF`: seed part of the correction word. -/
def genCWBody (prfOut0 prfOut1 : List Byte) (lose i j : Nat)
    (st : List (List Byte) × List (List Byte)) :
    Except Panic (List (List Byte) × List (List Byte)) := do
  let v0 ← index prfOut0 (lose + j)
  let v1 ← index prfOut1 (lose + j)
  let cw0 ← store2 st.1 i j (v0 ^^^ v1)
  let row ← index cw0 i
  let c ← index row j
  let cw1 ← store2 st.2 i j c
  pure (cw0, cw1)

/-- Second inner loop of `GenerateTreePF`: next seeds of the two parties. -/
def genSeedBody (prfOut0 prfOut1 : List Byte) (tCurr0 tCurr1 : Byte)
    (CW0 : List (List Byte)) (keep i j : Nat) (st : List Byte × List Byte) :
    Except Panic (List Byte × List Byte) := do
  let p0 ← index prfOut0 (keep + j)
  let row ← index CW0 i
  let c ← index row j
  let s0 ← store st.1 j (p0 ^^^ (tCurr0 * c))
  let p1 ← index prfOut1 (keep + j)
  let row ← index CW0 i
  let c ← index row j
  let s1 ← store st.2 j (p1 ^^^ (tCurr1 * c))
  pure (s0, s1)

/-- Body of the main loop of `GenerateTreePF` (tree level `i`). -/
def genBody (W : Nat) (f : Fss) (a : Nat) (i : Nat) (st : GenState) :
    Except Panic GenState := do
  let leftStart := 0
  let rightStart := BlockSize + 1
  let r ← prf W st.sCurr0 f.FixedBlocks 3 st.Temp st.Out
  let prfOut0 := copy (makeBytes (BlockSize * 3)) (← sliceTo r.2 (BlockSize * 3))
  let r ← prf W st.sCurr1 f.FixedBlocks 3 r.1 r.2
  let prfOut1 := copy (makeBytes (BlockSize * 3)) (← sliceTo r.2 (BlockSize * 3))
  let t0Left := (← index prfOut0 BlockSize) % 2
  let t0Right := (← index prfOut0 (BlockSize * 2 + 1)) % 2
  let t1Left := (← index prfOut1 BlockSize) % 2
  let t1Right := (← index prfOut1 (BlockSize * 2 + 1)) % 2
  let aBit := getBit W a (uadd W (uadd W (usub W f.N f.NumBits) i) 1) f.N
  let keep := if aBit = 0 then leftStart else rightStart
  let lose := if aBit = 0 then rightStart else leftStart
  let cws ← forLoop (genCWBody prfOut0 prfOut1 lose i) BlockSize 0 (st.CW0, st.CW1)
  let cw0 ← store2 cws.1 i BlockSize (t0Left ^^^ t1Left ^^^ aBit ^^^ 1)
  let c ← index (← index cw0 i) BlockSize
  let cw1 ← store2 cws.2 i BlockSize c
  let cw0 ← store2 cw0 i (BlockSize + 1) (t0Right ^^^ t1Right ^^^ aBit)
  let c ← index (← index cw0 i) (BlockSize + 1)
  let cw1 ← store2 cw1 i (BlockSize + 1) c
  let ss ← forLoop (genSeedBody prfOut0 prfOut1 st.tCurr0 st.tCurr1 cw0 keep i)
    BlockSize 0 (st.sCurr0, st.sCurr1)
  let mut tCWKeep ← index (← index cw0 i) BlockSize
  if keep = rightStart then
    tCWKeep ← index (← index cw0 i) (BlockSize + 1)
  let k0 ← index prfOut0 (keep + BlockSize)
  let tCurr0 := (k0 % 2) ^^^ (tCWKeep * st.tCurr0)
  let k1 ← index prfOut1 (keep + BlockSize)
  let tCurr1 := (k1 % 2) ^^^ (tCWKeep * st.tCurr1)
  pure { sCurr0 := ss.1, sCurr1 := ss.2, tCurr0 := tCurr0, tCurr1 := tCurr1,
         CW0 := cw0, CW1 := cw1, Temp := r.1, Out := r.2 }

/-- Method `GenerateTreePF(a, b)`; `rnd` is the stream read by `rand.Read`.
The two calls `make([][]byte, f.NumBits)` can panic; the loop that follows
allocates the 18 bytes of each correction word. -/
def GenerateTreePF (W : Nat) (f : Fss) (rnd : Nat → Byte) (a b : Nat) :
    Except Panic GenResult := do
  let tempRand1 := randRead rnd 0 (BlockSize + 1)
  let SInit0 ← sliceTo tempRand1 BlockSize
  let TInit0 := (← index tempRand1 BlockSize) % 2
  let SInit1 := randRead rnd (BlockSize + 1) BlockSize
  let TInit1 := TInit0 ^^^ 1
  let sCurr0 := copy (makeBytes BlockSize) SInit0
  let sCurr1 := copy (makeBytes BlockSize) SInit1
  let CW0 ← makeslice W (sliceHeaderBytes W) f.NumBits ([] : List Byte)
  let CW1 ← makeslice W (sliceHeaderBytes W) f.NumBits ([] : List Byte)
  let cws ← forLoop genAllocBody f.NumBits 0 (CW0, CW1)
  let st ← forLoop (genBody W f a) f.NumBits 0
    { sCurr0 := sCurr0, sCurr1 := sCurr1, tCurr0 := TInit0, tCurr1 := TInit1,
      CW0 := cws.1, CW1 := cws.2, Temp := f.Temp, Out := f.Out }
  let sFinal0 := (Varint (← sliceTo st.sCurr0 8)).1
  let sFinal1 := (Varint (← sliceTo st.sCurr1 8)).1
  let FinalCW := wrapInt W (wrapInt W (wrapInt W (b : Int) - wrapInt W sFinal0)
    + wrapInt W sFinal1)
  let FinalCW := if st.tCurr1 = 1 then wrapInt W (FinalCW * -1) else FinalCW
  pure { key0 := { SInit := SInit0, TInit := TInit0, CW := st.CW0, FinalCW := FinalCW },
         key1 := { SInit := SInit1, TInit := TInit1, CW := st.CW1, FinalCW := FinalCW },
         Temp := st.Temp, Out := st.Out }

/-- A record written to standard output by `fmt.Println`. -/
inductive Printed where
  | xBit (b : Byte)
  | fOut (out : List Byte)
  deriving DecidableEq, Repr

/-- Local variables of `EvaluatePF` that live across the iterations of its
main loop, with the scratch buffers and the records printed so far. -/
structure EvalState where
  sCurr : List Byte
  tCurr : Byte
  Temp : List Byte
  Out : List Byte
  printed : List Printed

/-- Result of `EvaluatePF`: the returned share, the contents in which the call
leaves the scratch buffers, and what it printed. -/
structure EvalResult where
  value : Int
  Temp : List Byte
  Out : List Byte
  printed : List Printed

/-- Inner loop of `EvaluatePF` on `(count, f.Out)`:
`f.Out[j] = f.Out[j] ^ (tCurr * k.CW[i][count])`. -/
def evalInner (tCurr : Byte) (CW : List (List Byte)) (i j : Nat)
    (st : Nat × List Byte) : Except Panic (Nat × List Byte) := do
  let count :=
    if j = BlockSize + 1 then 0
    else if j = BlockSize * 2 + 1 then BlockSize + 1
    else st.1
  let o ← index st.2 j
  let row ← index CW i
  let c ← index row count
  let out ← store st.2 j (o ^^^ (tCurr * c))
  pure (count + 1, out)

/-- Body of the main loop of `EvaluatePF` (tree level `i`). -/
def evalBody (W : Nat) (f : Fss) (k : FssKeyEq2P) (x : Nat) (i : Nat)
    (st : EvalState) : Except Panic EvalState := do
  let r ← prf W st.sCurr f.FixedBlocks 3 st.Temp st.Out
  let c ← forLoop (evalInner st.tCurr k.CW i) (BlockSize * 2 + 2) 0 (0, r.2)
  let out := c.2
  let xBit := getBit W x (uadd W (uadd W (usub W f.N f.NumBits) i) 1) f.N
  let printed := st.printed ++ [Printed.xBit xBit, Printed.fOut out]
  if xBit = 0 then
    let sCurr := copy st.sCurr (← sliceTo out BlockSize)
    let tCurr := (← index out BlockSize) % 2
    pure { sCurr := sCurr, tCurr := tCurr, Temp := r.1, Out := out, printed := printed }
  else
    let sCurr := copy st.sCurr (← slice out (BlockSize + 1) (BlockSize * 2 + 1))
    let tCurr := (← index out (BlockSize * 2 + 1)) % 2
    pure { sCurr := sCurr, tCurr := tCurr, Temp := r.1, Out := out, printed := printed }

/-- Method `EvaluatePF(serverNum, k, x)`. -/
def EvaluatePF (W : Nat) (f : Fss) (serverNum : Byte) (k : FssKeyEq2P) (x : Nat) :
    Except Panic EvalResult := do
  let sCurr := copy (makeBytes BlockSize) k.SInit
  let st ← forLoop (evalBody W f k x) f.NumBits 0
    { sCurr := sCurr, tCurr := k.TInit, Temp := f.Temp, Out := f.Out, printed := [] }
  let sFinal := (Varint (← sliceTo st.sCurr 8)).1
  let share := wrapInt W (wrapInt W sFinal
    + wrapInt W (wrapInt W ((st.tCurr.val : Nat) : Int) * k.FinalCW))
  let value := if serverNum = 0 then share else wrapInt W (-1 * share)
  pure { value := value, Temp := st.Temp, Out := st.Out, printed := st.printed }

/-! ## Predicates -/

/-- A byte that holds a single bit. -/
def IsBit (b : Byte) : Prop := b = 0 ∨ b = 1

/-- What the methods need from the platform and the context: a word of at
least 32 bits, scratch buffers of the allocated sizes (any contents) and three
non-nil cipher instances (any functions). -/
def Fss.WellFormed (W : Nat) (f : Fss) : Prop :=
  32 ≤ W ∧ f.Temp.length = 16 ∧ 48 ≤ f.Out.length ∧
    ∀ i, i < 3 → (f.FixedBlocks.getD i none).isSome = true

instance (W : Nat) (f : Fss) : Decidable (f.WellFormed W) := by
  unfold Fss.WellFormed; infer_instance

/-- The context's `NumBits` passes the length test of the two calls
`make([][]byte, f.NumBits)` in `GenerateTreePF`; every `NumBits` up to the
width of the word does. -/
def Fss.Allocatable (W : Nat) (f : Fss) : Prop :=
  MakesliceOk W (sliceHeaderBytes W) f.NumBits

instance (W : Nat) (f : Fss) : Decidable (f.Allocatable W) := by
  unfold Fss.Allocatable; infer_instance

/-- A key share that `EvaluatePF` can walk under `numBits` levels: it has a
correction word of at least 18 bytes for each level. -/
def FssKeyEq2P.WellFormed (k : FssKeyEq2P) (numBits : Nat) : Prop :=
  numBits ≤ k.CW.length ∧ ∀ p, p < numBits → 18 ≤ (k.CW.getD p []).length

instance (k : FssKeyEq2P) (numBits : Nat) : Decidable (k.WellFormed numBits) := by
  unfold FssKeyEq2P.WellFormed; infer_instance

/-- Two contexts hold the same cipher instances, `NumBits` and `N` (their
scratch buffers may differ). -/
def Fss.SameConfig (g f : Fss) : Prop :=
  g.FixedBlocks = f.FixedBlocks ∧ g.NumBits = f.NumBits ∧ g.N = f.N

/-- Two runs agree: both panic with the same panic, or both return and the
results are related by `R`. -/
def ExceptRel {α β : Type} (R : α → β → Prop) : Except Panic α → Except Panic β → Prop
  | .ok a, .ok b => R a b
  | .error e, .error e1 => e = e1
  | .ok _, .error _ => False
  | .error _, .ok _ => False

/-- The integer returned by a call of `EvaluatePF`, or its panic. -/
def valueOf (r : Except Panic EvalResult) : Except Panic Int :=
  match r with
  | .ok v => .ok v.value
  | .error e => .error e

/-! ## Closed forms used in the proofs -/

/-- Byte `p` of the Matyas-Meyer-Oseas expansion of the block `x` under the
cipher functions `bs`: block `p / 16` encrypts `x`, and the result is xored
with `x`. -/
def mmoByte (bs : List (Option Block)) (x : List Byte) (p : Nat) : Byte :=
  match bs[p / 16]? with
  | some (some b) => (b.enc (x.take 16)).getD (p % 16) 0 ^^^ x.getD (p % 16) 0
  | _ => 0

/-- Index of the correction-word byte that `EvaluatePF` combines with byte `p`
of the expansion. -/
def cwIndex (p : Nat) : Nat := if p < 17 then p else if p < 33 then p - 17 else 17

/-- Byte `p` of the expansion of seed `s` after the correction word `row` has
been applied under control bit `t`. -/
def corrByte (bs : List (Option Block)) (s : List Byte) (t : Byte) (row : List Byte)
    (p : Nat) : Byte :=
  mmoByte bs s p ^^^ (t * row.getD (cwIndex p) 0)

/-- One tree level of evaluation on `(seed, control bit)`, in closed form. -/
def evalNext (bs : List (Option Block)) (row : List Byte) (xBit : Byte)
    (st : List Byte × Byte) : List Byte × Byte :=
  if xBit = 0 then
    ((List.range 16).map (fun j => corrByte bs st.1 st.2 row j),
      corrByte bs st.1 st.2 row 16 % 2)
  else
    ((List.range 16).map (fun j => corrByte bs st.1 st.2 row (17 + j)),
      corrByte bs st.1 st.2 row 33 % 2)

/-- The argument `N - NumBits + i + 1` passed to `getBit` at level `i`. -/
def levelPos (W : Nat) (f : Fss) (i : Nat) : Nat :=
  uadd W (uadd W (usub W f.N f.NumBits) i) 1

/-- The bit of `v` that `GenerateTreePF` and `EvaluatePF` read at level `j`. -/
def bitsOf (W : Nat) (f : Fss) (v : Nat) : Nat → Byte :=
  fun j => getBit W v (levelPos W f j) f.N

/-- Correction word that `GenerateTreePF` stores at a level where the two
parties hold the seeds `s0`, `s1` and the bit of `a` is `aBit`, in closed
form. -/
def genRow (bs : List (Option Block)) (aBit : Byte) (s0 s1 : List Byte) : List Byte :=
  (List.range 16).map (fun j =>
      mmoByte bs s0 ((if aBit = 0 then 17 else 0) + j)
        ^^^ mmoByte bs s1 ((if aBit = 0 then 17 else 0) + j))
    ++ [mmoByte bs s0 16 % 2 ^^^ mmoByte bs s1 16 % 2 ^^^ aBit ^^^ 1,
        mmoByte bs s0 33 % 2 ^^^ mmoByte bs s1 33 % 2 ^^^ aBit]

/-- One tree level of key generation for one party on `(seed, control bit)`,
in closed form; `row` is the correction word of the level. -/
def genNext (bs : List (Option Block)) (row : List Byte) (aBit : Byte)
    (st : List Byte × Byte) : List Byte × Byte :=
  ((List.range 16).map (fun j =>
      mmoByte bs st.1 ((if aBit = 0 then 0 else 17) + j) ^^^ (st.2 * row.getD j 0)),
    (mmoByte bs st.1 ((if aBit = 0 then 0 else 17) + 16) % 2)
      ^^^ (row.getD (if aBit = 0 then 16 else 17) 0 * st.2))

/-- Levels `i, i+1, ..., i+n-1` of key generation in closed form: the
correction words produced, and the final `(seed, control bit)` of each party.
`bits j` is the bit of `a` read at level `j`. -/
def genRun (bs : List (Option Block)) (bits : Nat → Byte) :
    Nat → Nat → (List Byte × Byte) × (List Byte × Byte) →
      List (List Byte) × ((List Byte × Byte) × (List Byte × Byte))
  | 0, _, st => ([], st)
  | n + 1, i, st =>
    let row := genRow bs (bits i) st.1.1 st.2.1
    let r := genRun bs bits n (i + 1)
      (genNext bs row (bits i) st.1, genNext bs row (bits i) st.2)
    (row :: r.1, r.2)

/-- Evaluation in closed form over the correction words `rows`, the first of
which belongs to level `i`; `bits j` is the bit of `x` read at level `j`. -/
def evalRun (bs : List (Option Block)) (bits : Nat → Byte) :
    List (List Byte) → Nat → List Byte × Byte → List Byte × Byte
  | [], _, st => st
  | row :: rows, i, st => evalRun bs bits rows (i + 1) (evalNext bs row (bits i) st)

/-- Initial `(seed, control bit)` of the two parties, from the random stream. -/
def genInit (rnd : Nat → Byte) : (List Byte × Byte) × (List Byte × Byte) :=
  (((randRead rnd 0 17).take 16, rnd 16 % 2), (randRead rnd 17 16, rnd 16 % 2 ^^^ 1))

/-- The value `EvaluatePF` returns when its loop ends in `st`, in closed form. -/
def shareOf (W : Nat) (serverNum : Byte) (st : List Byte × Byte) (finalCW : Int) : Int :=
  if serverNum = 0 then
    wrapInt W (wrapInt W (Varint (st.1.take 8)).1
      + wrapInt W (wrapInt W ((st.2.val : Nat) : Int) * finalCW))
  else
    wrapInt W (-1 * wrapInt W (wrapInt W (Varint (st.1.take 8)).1
      + wrapInt W (wrapInt W ((st.2.val : Nat) : Int) * finalCW)))

/-- The `FinalCW` that `GenerateTreePF` stores when its loop ends with the
parties in `fin`, in closed form. -/
def genFinalCW (W : Nat) (b : Nat) (fin : (List Byte × Byte) × (List Byte × Byte)) : Int :=
  if fin.2.2 = 1 then
    wrapInt W (wrapInt W (wrapInt W (wrapInt W (b : Int) - wrapInt W (Varint (fin.1.1.take 8)).1)
      + wrapInt W (Varint (fin.2.1.take 8)).1) * -1)
  else
    wrapInt W (wrapInt W (wrapInt W (b : Int) - wrapInt W (Varint (fin.1.1.take 8)).1)
      + wrapInt W (Varint (fin.2.1.take 8)).1)

/-- The 16-byte buffer into which `ServerInitialize` copies a supplied key:
the key truncated to 16 bytes, or padded with zeros. -/
def padKey (key : List Byte) : List Byte :=
  key.take 16 ++ List.replicate (16 - key.length) 0

/-! ## Sample data for concrete evaluations -/

/-- A toy block function: every byte of the block is incremented. -/
def incBlock : Block where
  enc := fun x => (List.range 16).map (fun j => x.getD j 0 + 1)
  enc_length := by intro x; simp

/-- A sample key schedule: every key yields the toy block function. -/
def sampleAes : List Byte → Block := fun _ => incBlock

/-- A context as the initialisers allocate it, with three toy ciphers. -/
def sampleCtx (numBits : Nat) : Fss :=
  { PrfKeys := List.replicate 4 (makeBytes 16),
    FixedBlocks := List.replicate 4 (some incBlock),
    M := 4, N := 64, NumBits := numBits,
    Temp := makeBytes 16, Out := makeBytes 64 }

/-- A sample random stream. -/
def sampleRnd : Nat → Byte := fun n => Fin.ofNat (37 * n + 11)

/-- A sample key share for a one-level tree: zero seed, control bit 0, one
zero correction word, final correction 7. -/
def sampleKey : FssKeyEq2P :=
  { SInit := makeBytes 16, TInit := 0, CW := [makeBytes 18], FinalCW := 7 }

/-! ## Intermediate states and ranges -/

/-- State of `GenerateTreePF(a, b)` on entering tree level `i`: the function
run up to its main loop, and the main loop stopped after `i` iterations. -/
def genEnter (W : Nat) (f : Fss) (rnd : Nat → Byte) (a i : Nat) : Except Panic GenState := do
  let tempRand1 := randRead rnd 0 (BlockSize + 1)
  let SInit0 ← sliceTo tempRand1 BlockSize
  let TInit0 := (← index tempRand1 BlockSize) % 2
  let SInit1 := randRead rnd (BlockSize + 1) BlockSize
  let TInit1 := TInit0 ^^^ 1
  let sCurr0 := copy (makeBytes BlockSize) SInit0
  let sCurr1 := copy (makeBytes BlockSize) SInit1
  let CW0 ← makeslice W (sliceHeaderBytes W) f.NumBits ([] : List Byte)
  let CW1 ← makeslice W (sliceHeaderBytes W) f.NumBits ([] : List Byte)
  let cws ← forLoop genAllocBody f.NumBits 0 (CW0, CW1)
  forLoop (genBody W f a) i 0
    { sCurr0 := sCurr0, sCurr1 := sCurr1, tCurr0 := TInit0, tCurr1 := TInit1,
      CW0 := cws.1, CW1 := cws.2, Temp := f.Temp, Out := f.Out }

/-- State of `EvaluatePF(serverNum, k, x)` on entering tree level `i`: the
loop of the function stopped after `i` iterations (`serverNum` is read only
after the loop). -/
def evalEnter (W : Nat) (f : Fss) (k : FssKeyEq2P) (x i : Nat) : Except Panic EvalState :=
  forLoop (evalBody W f k x) i 0
    { sCurr := copy (makeBytes BlockSize) k.SInit, tCurr := k.TInit, Temp := f.Temp,
      Out := f.Out, printed := [] }

/-- The value lies in the range of `int64`. -/
def InInt64 (z : Int) : Prop := -2 ^ 63 ≤ z ∧ z < 2 ^ 63

instance (z : Int) : Decidable (InInt64 z) := by
  unfold InInt64
  infer_instance

/-- The integer `binary.Varint(s[:8])` that `GenerateTreePF` and `EvaluatePF`
decode from a final seed `s`. -/
def sFinalOf (s : List Byte) : Int := (Varint (s.take 8)).1

/-! # Theorems -/

/-! ## Bytes -/

theorem xor_val (a b : Byte) : (a ^^^ b).val = a.val ^^^ b.val := by
  have h : a.val ^^^ b.val < 2 ^ 8 := Nat.xor_lt_two_pow a.isLt b.isLt
  show (a.val ^^^ b.val) % 256 = _
  exact Nat.mod_eq_of_lt h

theorem bxor_self (a : Byte) : a ^^^ a = 0 := by
  apply Fin.ext; simp [xor_val]

theorem bxor_zero (a : Byte) : a ^^^ 0 = a := by
  apply Fin.ext; simp [xor_val]

theorem zero_bxor (a : Byte) : 0 ^^^ a = a := by
  apply Fin.ext; simp [xor_val]

theorem bxor_comm (a b : Byte) : a ^^^ b = b ^^^ a := by
  apply Fin.ext; simp [xor_val, Nat.xor_comm]

theorem bxor_assoc (a b c : Byte) : a ^^^ b ^^^ c = a ^^^ (b ^^^ c) := by
  apply Fin.ext; simp [xor_val, Nat.xor_assoc]

theorem bxor_cancel_left (a b : Byte) : a ^^^ (a ^^^ b) = b := by
  rw [← bxor_assoc, bxor_self, zero_bxor]

theorem mod_val (a : Byte) : (a % 2).val = a.val % 2 := rfl

theorem xor_mod_two (a b : Byte) : (a ^^^ b) % 2 = a % 2 ^^^ b % 2 := by
  apply Fin.ext
  rw [mod_val, xor_val, xor_val, mod_val, mod_val, Nat.xor_mod_two_eq]
  have ha := Nat.mod_two_eq_zero_or_one a.val
  have hb := Nat.mod_two_eq_zero_or_one b.val
  rcases ha with ha | ha <;> rcases hb with hb | hb <;> rw [Nat.add_mod, ha, hb] <;> rfl

set_option maxRecDepth 100000 in
theorem isBit_mod_two (a : Byte) : IsBit (a % 2) := by
  revert a; unfold IsBit; decide

theorem IsBit.mod_two {b : Byte} (h : IsBit b) : b % 2 = b := by
  rcases h with h | h <;> subst h <;> rfl

theorem IsBit.xor {a b : Byte} (ha : IsBit a) (hb : IsBit b) : IsBit (a ^^^ b) := by
  rcases ha with h | h <;> rcases hb with h' | h' <;> subst h <;> subst h' <;> unfold IsBit <;> decide

theorem IsBit.mul {a b : Byte} (ha : IsBit a) (hb : IsBit b) : IsBit (a * b) := by
  rcases ha with h | h <;> rcases hb with h' | h' <;> subst h <;> subst h' <;> unfold IsBit <;> decide

theorem isBit_one : IsBit 1 := Or.inr rfl

theorem isBit_zero : IsBit 0 := Or.inl rfl

/-- Complementary control bits are `(0, 1)` or `(1, 0)`. -/
theorem compl_cases {t0 t1 : Byte} (h0 : IsBit t0) (h1 : IsBit t1) (h : t0 ^^^ t1 = 1) :
    (t0 = 0 ∧ t1 = 1) ∨ (t0 = 1 ∧ t1 = 0) := by
  rcases h0 with h0 | h0 <;> rcases h1 with h1 | h1 <;> subst h0 <;> subst h1
  · exact absurd h (by decide)
  · exact Or.inl ⟨rfl, rfl⟩
  · exact Or.inr ⟨rfl, rfl⟩
  · exact absurd h (by decide)

theorem seed_collapse (p0 p1 t0 t1 : Byte) (h0 : IsBit t0) (h1 : IsBit t1)
    (h : t0 ^^^ t1 = 1) : p0 ^^^ t0 * (p0 ^^^ p1) = p1 ^^^ t1 * (p0 ^^^ p1) := by
  rcases compl_cases h0 h1 h with ⟨e0, e1⟩ | ⟨e0, e1⟩ <;> subst e0 <;> subst e1
  · rw [zero_mul, one_mul, bxor_zero, bxor_comm p0 p1, bxor_cancel_left]
  · rw [zero_mul, one_mul, bxor_zero, bxor_cancel_left]

theorem ctrl_step (m t c : Byte) (ht : IsBit t) (hc : IsBit c) :
    (m ^^^ t * c) % 2 = m % 2 ^^^ t * c := by
  rw [xor_mod_two, (ht.mul hc).mod_two]

theorem ctrl_collapse (a b t0 t1 e : Byte) (ha : IsBit a) (hb : IsBit b)
    (h0 : IsBit t0) (h1 : IsBit t1) (h : t0 ^^^ t1 = 1) (he : e = 0) :
    a ^^^ t0 * (a ^^^ b ^^^ e) = b ^^^ t1 * (a ^^^ b ^^^ e) := by
  subst he
  rcases compl_cases h0 h1 h with ⟨e0, e1⟩ | ⟨e0, e1⟩ <;> subst e0 <;> subst e1 <;>
    rcases ha with ha | ha <;> rcases hb with hb | hb <;> subst ha <;> subst hb <;> decide

theorem ctrl_keep (a b t0 t1 e : Byte) (ha : IsBit a) (hb : IsBit b)
    (h0 : IsBit t0) (h1 : IsBit t1) (h : t0 ^^^ t1 = 1) (he : e = 1) :
    (a ^^^ (a ^^^ b ^^^ e) * t0) ^^^ (b ^^^ (a ^^^ b ^^^ e) * t1) = 1 := by
  subst he
  rcases compl_cases h0 h1 h with ⟨e0, e1⟩ | ⟨e0, e1⟩ <;> subst e0 <;> subst e1 <;>
    rcases ha with ha | ha <;> rcases hb with hb | hb <;> subst ha <;> subst hb <;> decide

/-! ## Wrapping integer arithmetic -/

theorem wrapInt_cast (W : Nat) (z : Int) :
    ((wrapInt W z : Int) : ZMod (2 ^ W)) = (z : ZMod (2 ^ W)) := by
  rw [ZMod.intCast_eq_intCast_iff]
  unfold wrapInt
  exact Int.bmod_emod

theorem wrapInt_eq_of_cast (W : Nat) (a b : Int)
    (h : (a : ZMod (2 ^ W)) = (b : ZMod (2 ^ W))) : wrapInt W a = wrapInt W b := by
  rw [ZMod.intCast_eq_intCast_iff] at h
  unfold wrapInt
  rw [← Int.emod_bmod_congr a, ← Int.emod_bmod_congr b]
  have h' : a % ((2 ^ W : Nat) : Int) = b % ((2 ^ W : Nat) : Int) := h
  rw [h']

theorem wrapInt_zero (W : Nat) : wrapInt W 0 = 0 := by
  unfold wrapInt; simp

theorem wrapInt_three : wrapInt 64 ((3 : Nat) : Int) = 3 := by decide

/-! ## Allocation with a run-time length -/

theorem makeslice_ok {α : Type} (W elemSize n : Nat) (zero : α)
    (h : MakesliceOk W elemSize n) :
    makeslice W elemSize n zero = .ok (List.replicate n zero) := by
  unfold makeslice; rw [if_pos h]

theorem makeslice_error {α : Type} (W elemSize n : Nat) (zero : α)
    (h : ¬ MakesliceOk W elemSize n) :
    makeslice W elemSize n zero = .error .makesliceLenOutOfRange := by
  unfold makeslice; rw [if_neg h]

theorem heap_bound : ∀ k : Nat, 24 * (k + 33) ≤ 2 ^ (k + 17) := by
  intro k
  induction k with
  | zero => decide
  | succ k ih =>
    have e : 2 ^ (k + 1 + 17) = 2 * 2 ^ (k + 17) := by rw [Nat.add_right_comm, Nat.pow_succ]; omega
    rw [e]
    omega

/-- Slices of at most `W` slice headers can be allocated on every platform. -/
theorem makesliceOk_of_le (W n : Nat) (hW : 32 ≤ W) (hn : n ≤ W) :
    MakesliceOk W (sliceHeaderBytes W) n := by
  unfold MakesliceOk sliceHeaderBytes maxAlloc
  by_cases h32 : W ≤ 32
  · obtain rfl : W = 32 := by omega
    rw [if_pos (Nat.le_refl 32), if_pos (Nat.le_refl 32)]
    refine ⟨Nat.lt_of_le_of_lt hn (by decide), ?_, ?_⟩
    · omega
    · omega
  · rw [if_neg h32, if_neg h32]
    obtain ⟨k, rfl⟩ : ∃ k, W = k + 33 := ⟨W - 33, by omega⟩
    have hb := heap_bound k
    have e1 : k + 33 - 16 = k + 17 := by omega
    have e2 : k + 33 - 1 = (k + 17) + 15 := by omega
    have e3 : k + 33 = (k + 17) + 16 := by omega
    have p15 : (2 : Nat) ^ 15 = 32768 := by norm_num
    have p16 : (2 : Nat) ^ 16 = 65536 := by norm_num
    have h1 : 2 ^ (k + 33 - 1) = 2 ^ (k + 17) * 32768 := by rw [e2, Nat.pow_add, p15]
    have h2 : 2 ^ (k + 33) = 2 ^ (k + 17) * 65536 := by
      have := Nat.pow_add 2 (k + 17) 16
      rw [p16, ← e3] at this
      exact this
    have h3 : 2 ^ (k + 33 - 16) = 2 ^ (k + 17) := by rw [e1]
    rw [h1, h2, h3]
    generalize 2 ^ (k + 17) = P at hb ⊢
    refine ⟨?_, ?_, ?_⟩ <;> omega

/-- A context whose `NumBits` is at most the width of the word can allocate
its correction words. -/
theorem Fss.allocatable_of_le (W : Nat) (f : Fss) (hW : 32 ≤ W) (hn : f.NumBits ≤ W) :
    f.Allocatable W :=
  makesliceOk_of_le W f.NumBits hW hn

/-! ## Bit extraction -/

theorem isBit_getBit (W n pos N : Nat) : IsBit (getBit W n pos N) := by
  unfold getBit IsBit
  simp only
  split
  · right; rfl
  · left; rfl

theorem usub_eq (W a b : Nat) (hb : b ≤ a) (ha : a < 2 ^ W) : usub W a b = a - b := by
  unfold usub
  have h1 : b % 2 ^ W = b := Nat.mod_eq_of_lt (by omega)
  have h2 : a + 2 ^ W - b = (a - b) + 2 ^ W := by omega
  rw [h1, h2, Nat.add_mod_right, Nat.mod_eq_of_lt (by omega)]

theorem getBit_eq_testBit (W n pos N s : Nat) (hs : usub W N pos = s) (hsW : s < W) :
    getBit W n pos N = if n.testBit s then 1 else 0 := by
  unfold getBit ushl
  simp only [hs, Nat.one_shiftLeft]
  rw [Nat.mod_eq_of_lt (Nat.pow_lt_pow_right (by decide) hsW), Nat.and_two_pow]
  cases n.testBit s with
  | false => simp
  | true => simp [Nat.pos_pow_of_pos]

theorem getBit_eq_zero_of_le (W n pos N : Nat) (hs : W ≤ usub W N pos) :
    getBit W n pos N = 0 := by
  unfold getBit ushl
  have : 1 <<< usub W N pos % 2 ^ W = 0 := by
    rw [Nat.one_shiftLeft]
    exact Nat.mod_eq_zero_of_dvd (Nat.pow_dvd_pow 2 hs)
  simp only [this, Nat.and_zero, gt_iff_lt, Nat.lt_irrefl, if_false]

theorem levelPos_shift (W : Nat) (f : Fss) (i : Nat) (hN : f.NumBits ≤ f.N) (hW : f.N ≤ W)
    (hi : i < f.NumBits) : usub W f.N (levelPos W f i) = f.NumBits - 1 - i := by
  have hlt : f.N < 2 ^ W := Nat.lt_of_le_of_lt hW (Nat.lt_two_pow W)
  have e1 : usub W f.N f.NumBits = f.N - f.NumBits := usub_eq W _ _ hN hlt
  have e2 : levelPos W f i = f.N - f.NumBits + i + 1 := by
    unfold levelPos uadd
    have e3 : (f.N - f.NumBits + i) % 2 ^ W = f.N - f.NumBits + i :=
      Nat.mod_eq_of_lt (by omega)
    rw [e1, e3, Nat.mod_eq_of_lt (by omega)]
  rw [e2, usub_eq W _ _ (by omega) hlt]
  omega

theorem bitsOf_eq (W : Nat) (f : Fss) (v i : Nat) (hN : f.NumBits ≤ f.N) (hW : f.N ≤ W)
    (hi : i < f.NumBits) :
    bitsOf W f v i = if v.testBit (f.NumBits - 1 - i) then 1 else 0 := by
  unfold bitsOf
  exact getBit_eq_testBit W v _ f.N _ (levelPos_shift W f i hN hW hi) (by omega)

theorem isBit_bitsOf (W : Nat) (f : Fss) (v i : Nat) : IsBit (bitsOf W f v i) :=
  isBit_getBit W v _ f.N

theorem bitsOf_congr (W : Nat) (f g : Fss) (hn : g.NumBits = f.NumBits) (hN : g.N = f.N)
    (v : Nat) : bitsOf W g v = bitsOf W f v := by
  unfold bitsOf levelPos
  rw [hn, hN]

/-- The levels read exactly the `NumBits` low bits of the word. -/
theorem bits_agree_iff (W : Nat) (f : Fss) (a x : Nat) (hN : f.NumBits ≤ f.N) (hW : f.N ≤ W) :
    a % 2 ^ f.NumBits = x % 2 ^ f.NumBits ↔
      ∀ j, j < f.NumBits → bitsOf W f x j = bitsOf W f a j := by
  have h10 : ¬ ((1 : Byte) = 0) := by decide
  have h01 : ¬ ((0 : Byte) = 1) := by decide
  constructor
  · intro h j hj
    rw [bitsOf_eq W f x j hN hW hj, bitsOf_eq W f a j hN hW hj]
    have ha := Nat.testBit_mod_two_pow a f.NumBits (f.NumBits - 1 - j)
    have hx := Nat.testBit_mod_two_pow x f.NumBits (f.NumBits - 1 - j)
    rw [h] at ha
    rw [ha] at hx
    have hd : decide (f.NumBits - 1 - j < f.NumBits) = true := by
      simp only [decide_eq_true_eq]; omega
    rw [hd, Bool.true_and, Bool.true_and] at hx
    rw [hx]
  · intro h
    apply Nat.eq_of_testBit_eq
    intro i
    rw [Nat.testBit_mod_two_pow, Nat.testBit_mod_two_pow]
    by_cases hi : i < f.NumBits
    · have hj := h (f.NumBits - 1 - i) (by omega)
      rw [bitsOf_eq W f x _ hN hW (by omega), bitsOf_eq W f a _ hN hW (by omega)] at hj
      have e : f.NumBits - 1 - (f.NumBits - 1 - i) = i := by omega
      rw [e] at hj
      have : a.testBit i = x.testBit i := by
        cases ha : a.testBit i <;> cases hx : x.testBit i <;> rw [ha, hx] at hj <;>
          simp_all
      rw [this]
    · have hd : decide (i < f.NumBits) = false := by
        simp only [decide_eq_false_iff_not]; exact hi
      rw [hd, Bool.false_and, Bool.false_and]

/-! ## Slices and loops -/

theorem index_ok {α : Type} (l : List α) (i : Nat) (h : i < l.length) :
    index l i = .ok (l.get ⟨i, h⟩) := by
  unfold index
  rw [List.getElem?_eq_getElem h]
  rfl

theorem index_eq_ok {α : Type} (l : List α) (i : Nat) (v : α) (h : l[i]? = some v) :
    index l i = .ok v := by
  unfold index
  rw [h]

theorem index_error {α : Type} (l : List α) (i : Nat) (e : Panic) (h : index l i = .error e) :
    e = .indexOutOfRange := by
  unfold index at h
  cases hq : l[i]? with
  | none => rw [hq] at h; injection h with h; exact h.symm
  | some v => rw [hq] at h; exact absurd h (by simp)

theorem index_congr {α : Type} (l1 l2 : List α) (i : Nat) (h : l1[i]? = l2[i]?) :
    index l1 i = index l2 i := by
  unfold index; rw [h]

theorem store_ok {α : Type} (l : List α) (i : Nat) (v : α) (h : i < l.length) :
    store l i v = .ok (l.set i v) := by
  unfold store
  rw [if_pos h]

theorem store_length {α : Type} (l l1 : List α) (i : Nat) (v : α) (h : store l i v = .ok l1) :
    l1.length = l.length := by
  unfold store at h
  split at h
  · injection h with h; rw [← h, List.length_set]
  · exact absurd h (by simp)

theorem index_set_self {α : Type} (l : List α) (i : Nat) (v : α) (h : i < l.length) :
    index (l.set i v) i = .ok v := by
  apply index_eq_ok
  rw [List.getElem?_set, if_pos rfl, if_pos h]

theorem store2_set_ok {α : Type} (l : List (List α)) (i : Nat) (q : List α) (j : Nat)
    (v : α) (hi : i < l.length) (hj : j < q.length) :
    store2 (l.set i q) i j v = .ok (l.set i (q.set j v)) := by
  unfold store2
  rw [index_set_self l i q hi]
  simp only [store_ok q j v hj]
  rw [store_ok _ _ _ (by simpa using hi), List.set_set]

theorem set_self_of_getElem? {α : Type} (l : List α) (i : Nat) (v : α)
    (h : l[i]? = some v) : l.set i v = l := by
  apply List.ext_getElem?
  intro p
  rw [List.getElem?_set]
  by_cases hp : i = p
  · subst hp
    obtain ⟨hlt, _⟩ := List.getElem?_eq_some.mp h
    rw [if_pos rfl, if_pos hlt, h]
  · rw [if_neg hp]

theorem copy_full {α : Type} (dst src : List α) (h : src.length = dst.length) :
    copy dst src = src := by
  unfold copy
  rw [List.take_of_length_le (by omega), List.drop_of_length_le (by omega), List.append_nil]

theorem copy_length {α : Type} (dst src : List α) : (copy dst src).length = dst.length := by
  unfold copy
  simp only [List.length_append, List.length_take, List.length_drop]
  omega

theorem window_eq_map {α : Type} (l : List α) (g : Nat → α) (off n : Nat)
    (h : ∀ p, p < n → l[off + p]? = some (g p)) :
    (l.take (off + n)).drop off = (List.range n).map g := by
  apply List.ext_getElem?
  intro p
  rw [List.getElem?_drop, List.getElem?_take, List.getElem?_map]
  by_cases hp : p < n
  · rw [if_pos (by omega), h p hp, List.getElem?_range hp]; rfl
  · rw [if_neg (by omega), List.getElem?_eq_none (by simpa using hp)]; rfl

theorem take_eq_of_agree {α : Type} (o1 o2 : List α) (n K : Nat) (hn : n ≤ K)
    (hag : ∀ p, p < K → o1[p]? = o2[p]?) : o1.take n = o2.take n := by
  apply List.ext_getElem?
  intro p
  rw [List.getElem?_take, List.getElem?_take]
  by_cases hp : p < n
  · rw [if_pos hp, if_pos hp]; exact hag p (by omega)
  · rw [if_neg hp, if_neg hp]

theorem map_range_congr {α : Type} (n : Nat) (g h : Nat → α)
    (e : ∀ j, j < n → g j = h j) : (List.range n).map g = (List.range n).map h := by
  apply List.map_congr_left
  intro j hj
  exact e j (List.mem_range.mp hj)

theorem bind_ok {α β : Type} (a : Except Panic α) (f : α → Except Panic β) (b : β)
    (h : (a >>= f) = .ok b) : ∃ v, a = .ok v ∧ f v = .ok b := by
  cases a with
  | error e => exact absurd h (by simp [bind, Except.bind])
  | ok v => exact ⟨v, rfl, h⟩

theorem forLoop_inv {σ : Type} (body : Nat → σ → Except Panic σ) (I : Nat → σ → Prop) :
    ∀ (n lo : Nat) (s : σ), I lo s →
      (∀ i s, lo ≤ i → i < lo + n → I i s → ∃ s1, body i s = .ok s1 ∧ I (i + 1) s1) →
      ∃ s1, forLoop body n lo s = .ok s1 ∧ I (lo + n) s1 := by
  intro n
  induction n with
  | zero => intro lo s h _; exact ⟨s, rfl, h⟩
  | succ n ih =>
    intro lo s h hstep
    obtain ⟨s1, hb, h1⟩ := hstep lo s (Nat.le_refl _) (by omega) h
    obtain ⟨s2, hl, h2⟩ := ih (lo + 1) s1 h1 (fun i t hi hlt ht => hstep i t (by omega) (by omega) ht)
    refine ⟨s2, ?_, ?_⟩
    · simp only [forLoop, hb, hl]
    · have : lo + (n + 1) = lo + 1 + n := by omega
      rw [this]; exact h2

theorem forLoop_preserve {σ : Type} (body : Nat → σ → Except Panic σ) (P : σ → Prop)
    (h : ∀ i s s1, P s → body i s = .ok s1 → P s1) :
    ∀ (n lo : Nat) (s s1 : σ), P s → forLoop body n lo s = .ok s1 → P s1 := by
  intro n
  induction n with
  | zero =>
    intro lo s s1 hp hl
    simp only [forLoop] at hl
    injection hl with hl
    rw [← hl]; exact hp
  | succ n ih =>
    intro lo s s1 hp hl
    simp only [forLoop] at hl
    cases hb : body lo s with
    | error e => rw [hb] at hl; exact absurd hl (by simp)
    | ok s2 =>
      rw [hb] at hl
      exact ih (lo + 1) s2 s1 (h lo s s2 hp hb) hl

theorem randRead_length (rnd : Nat → Byte) (pos n : Nat) : (randRead rnd pos n).length = n := by
  simp [randRead]

theorem randRead_getElem? (rnd : Nat → Byte) (pos n j : Nat) (h : j < n) :
    (randRead rnd pos n)[j]? = some (rnd (pos + j)) := by
  unfold randRead
  rw [List.getElem?_map, List.getElem?_range h]; rfl

theorem blocks_of_isSome (bs : List (Option Block)) (n : Nat)
    (h : ∀ i, i < n → (bs.getD i none).isSome = true) :
    ∀ i, i < n → ∃ b, bs[i]? = some (some b) := by
  intro i hi
  have := h i hi
  rw [List.getD_eq_getElem?_getD] at this
  cases hq : bs[i]? with
  | none => rw [hq] at this; exact absurd this (by simp)
  | some o =>
    cases o with
    | none => rw [hq] at this; exact absurd this (by simp)
    | some b => exact ⟨b, rfl⟩

theorem Fss.WellFormed.blocks {W : Nat} {f : Fss} (h : f.WellFormed W) :
    ∀ i, i < 3 → ∃ b, f.FixedBlocks[i]? = some (some b) :=
  blocks_of_isSome f.FixedBlocks 3 h.2.2.2

theorem FssKeyEq2P.WellFormed.rows {k : FssKeyEq2P} {numBits : Nat}
    (h : k.WellFormed numBits) :
    ∀ p, p < numBits → ∃ r, k.CW[p]? = some r ∧ 18 ≤ r.length := by
  intro p hp
  have hlt : p < k.CW.length := Nat.lt_of_lt_of_le hp h.1
  have := h.2 p hp
  rw [List.getD_eq_getElem?_getD, List.getElem?_eq_getElem hlt, Option.getD_some] at this
  exact ⟨k.CW[p], List.getElem?_eq_getElem hlt, this⟩

/-! ## The expansion `prf` -/

theorem two_pow_ge (W : Nat) (h : 32 ≤ W) : 2 ^ 32 ≤ 2 ^ W :=
  Nat.pow_le_pow_right (by decide) h

theorem prfInner_loop (W : Nat) (hW : 32 ≤ W) (bs : List (Option Block)) (b : Block)
    (x temp out0 : List Byte) (i : Nat) (hi : i < 4) (hb : bs[i]? = some (some b))
    (hx : x.length = 16) (ht : temp.length = 16) (htemp : ∀ j, j < 16 → temp[j]? = some ((b.enc (x.take 16)).getD j 0))
    (out : List Byte) (hlen : out.length = out0.length) (ho : 16 * (i + 1) ≤ out0.length)
    (hout : ∀ p, out[p]? = if p < 16 * i then some (mmoByte bs x p) else out0[p]?) :
    ∃ out1, forLoop (prfInner W x temp i) temp.length 0 out = .ok out1 ∧
      out1.length = out0.length ∧
      ∀ p, out1[p]? = if p < 16 * (i + 1) then some (mmoByte bs x p) else out0[p]? := by
  have hP := two_pow_ge W hW
  have key := forLoop_inv (prfInner W x temp i)
    (fun j o => o.length = out0.length ∧
      ∀ p, o[p]? = if p < 16 * i + j then some (mmoByte bs x p) else out0[p]?)
    temp.length 0 out ⟨hlen, by simpa using hout⟩ ?_
  · obtain ⟨o1, h1, h2, h3⟩ := key
    refine ⟨o1, h1, h2, ?_⟩
    intro p
    rw [h3 p, ht]
    have : 16 * i + (0 + 16) = 16 * (i + 1) := by omega
    rw [this]
  · intro j o _ hj ⟨hol, hop⟩
    rw [ht] at hj
    have hj16 : j < 16 := by omega
    have hxj : j < x.length := by omega
    have hidx : uadd W (umul W i BlockSize) j = 16 * i + j := by
      unfold uadd umul BlockSize
      have e1 : i * 16 % 2 ^ W = i * 16 := Nat.mod_eq_of_lt (by omega)
      rw [e1, Nat.mod_eq_of_lt (by omega)]
      omega
    refine ⟨o.set (16 * i + j) ((b.enc (x.take 16)).getD j 0 ^^^ x.get ⟨j, hxj⟩), ?_, ?_, ?_⟩
    · unfold prfInner
      rw [index_eq_ok temp j _ (htemp j hj16), index_ok x j hxj, hidx]
      simp only
      rw [store_ok _ _ _ (by omega)]
    · simp [hol]
    · intro p
      rw [List.getElem?_set]
      by_cases hp : 16 * i + j = p
      · subst hp
        rw [if_pos rfl, if_pos (by omega), if_pos (by omega)]
        unfold mmoByte
        have e1 : (16 * i + j) / 16 = i := by omega
        have e2 : (16 * i + j) % 16 = j := by omega
        rw [e1, e2, hb]
        simp only [List.getD_eq_getElem?_getD, List.getElem?_eq_getElem hxj, Option.getD_some, List.get_eq_getElem]
      · rw [if_neg hp, hop p]
        by_cases hq : p < 16 * i + j
        · rw [if_pos hq, if_pos (by omega)]
        · rw [if_neg hq, if_neg (by omega)]

theorem encryptAt_ok (bs : List (Option Block)) (b : Block) (i : Nat)
    (hb : bs[i]? = some (some b)) (temp x : List Byte)
    (hx : x.length = 16) (ht : temp.length = 16) :
    encryptAt bs i temp x = .ok (b.enc (x.take 16) ++ temp.drop 16) := by
  unfold encryptAt
  rw [index_eq_ok bs i _ hb]
  simp only [Block.Encrypt, BlockSize, hx, ht, Nat.lt_irrefl, if_false]

theorem prfOuter_loop (W : Nat) (hW : 32 ≤ W) (bs : List (Option Block))
    (x temp out : List Byte) (n : Nat) (hn : n ≤ 4)
    (hx : x.length = 16) (ht : temp.length = 16) (ho : 16 * n ≤ out.length)
    (hbs : ∀ i, i < n → ∃ b, bs[i]? = some (some b)) :
    ∃ st, forLoop (prfOuter W x bs) n 0 (temp, out) = .ok st ∧
      st.1.length = 16 ∧ st.2.length = out.length ∧
      ∀ p, st.2[p]? = if p < 16 * n then some (mmoByte bs x p) else out[p]? := by
  have key := forLoop_inv (prfOuter W x bs)
    (fun i st => st.1.length = 16 ∧ st.2.length = out.length ∧
      ∀ p, st.2[p]? = if p < 16 * i then some (mmoByte bs x p) else out[p]?)
    n 0 (temp, out) ⟨ht, rfl, by simp⟩ ?_
  · obtain ⟨st, h1, h2, h3, h4⟩ := key
    refine ⟨st, h1, h2, h3, ?_⟩
    intro p
    rw [h4 p, Nat.zero_add]
  · intro i st _ hi ⟨h1, h2, h3⟩
    obtain ⟨b, hb⟩ := hbs i (by omega)
    have hlen : (b.enc (x.take 16) ++ st.1.drop 16).length = 16 := by
      simp [b.enc_length, h1]
    have hget : ∀ j, j < 16 →
        (b.enc (x.take 16) ++ st.1.drop 16)[j]? = some ((b.enc (x.take 16)).getD j 0) := by
      intro j hj
      have hj1 : j < (b.enc (x.take 16)).length := by rw [b.enc_length]; exact hj
      rw [List.getElem?_append_left hj1, List.getD_eq_getElem?_getD,
        List.getElem?_eq_getElem hj1, Option.getD_some]
    obtain ⟨o1, g1, g2, g3⟩ := prfInner_loop W hW bs b x _ out i (by omega) hb hx hlen hget
      st.2 h2 (by omega) h3
    refine ⟨(b.enc (x.take 16) ++ st.1.drop 16, o1), ?_, hlen, g2, g3⟩
    unfold prfOuter
    rw [encryptAt_ok bs b i hb st.1 x hx h1]
    simp only [g1]

/-- Closed form of `prf` on a context's buffers: it succeeds, leaves a 16-byte
`temp`, and overwrites bytes `[0, 16 * n)` of `out` with the expansion. -/
theorem prf_ok (W : Nat) (hW : 32 ≤ W) (bs : List (Option Block))
    (x temp out : List Byte) (n : Nat) (hn : n ≤ 4)
    (hx : x.length = 16) (ht : temp.length = 16) (ho : 16 * n ≤ out.length)
    (hbs : ∀ i, i < n → ∃ b, bs[i]? = some (some b)) :
    ∃ r, prf W x bs n temp out = .ok r ∧
      r.1.length = 16 ∧ r.2.length = out.length ∧
      ∀ p, r.2[p]? = if p < 16 * n then some (mmoByte bs x p) else out[p]? := by
  unfold prf
  rw [if_neg (by unfold initPRFLen; omega)]
  exact prfOuter_loop W hW bs x temp out n hn hx ht ho hbs

/-! ## One level of `EvaluatePF` and of `GenerateTreePF` -/

theorem evalInner_loop (bs : List (Option Block)) (s : List Byte) (t : Byte)
    (CW : List (List Byte)) (i : Nat) (row : List Byte) (hrow : CW[i]? = some row)
    (hrl : 18 ≤ row.length) (out0 : List Byte) (ho : 48 ≤ out0.length)
    (hout : ∀ p, p < 48 → out0[p]? = some (mmoByte bs s p)) :
    ∃ c, forLoop (evalInner t CW i) (BlockSize * 2 + 2) 0 (0, out0) = .ok c ∧
      c.2.length = out0.length ∧
      ∀ p, c.2[p]? = if p < 34 then some (corrByte bs s t row p) else out0[p]? := by
  have key := forLoop_inv (evalInner t CW i)
    (fun j c => c.1 = (if j ≤ 17 then j else if j ≤ 33 then j - 17 else 18) ∧
      c.2.length = out0.length ∧
      ∀ p, c.2[p]? = if p < j then some (corrByte bs s t row p) else out0[p]?)
    (BlockSize * 2 + 2) 0 (0, out0) ⟨rfl, rfl, by simp⟩ ?_
  · obtain ⟨c, h1, _, h3, h4⟩ := key
    exact ⟨c, h1, h3, by simpa [BlockSize] using h4⟩
  · intro j c _ hj ⟨h1, h2, h3⟩
    simp only [BlockSize] at hj
    have hcount : (if j = BlockSize + 1 then 0
        else if j = BlockSize * 2 + 1 then BlockSize + 1 else c.1) = cwIndex j := by
      rw [h1]; unfold cwIndex BlockSize
      split_ifs <;> omega
    have hcj : cwIndex j < row.length := by
      unfold cwIndex; split_ifs <;> omega
    have hoj : c.2[j]? = some (mmoByte bs s j) := by
      rw [h3 j, if_neg (Nat.lt_irrefl j), hout j (by omega)]
    refine ⟨(cwIndex j + 1, c.2.set j (corrByte bs s t row j)), ?_, ?_, ?_, ?_⟩
    · unfold evalInner
      simp only [hcount, bind, Except.bind, index_eq_ok _ _ _ hoj, index_eq_ok _ _ _ hrow,
        index_ok row _ hcj, store_ok c.2 j _ (by omega), pure, Except.pure]
      unfold corrByte
      simp only [List.getD_eq_getElem?_getD, List.getElem?_eq_getElem hcj, Option.getD_some,
        List.get_eq_getElem]
    · show cwIndex j + 1 = _
      unfold cwIndex; split_ifs <;> omega
    · simp [h2]
    · intro p
      show (c.2.set j _)[p]? = _
      rw [List.getElem?_set]
      by_cases hp : j = p
      · subst hp
        rw [if_pos rfl, if_pos (by omega), if_pos (by omega)]
      · rw [if_neg hp, h3 p]
        by_cases hq : p < j
        · rw [if_pos hq, if_pos (by omega)]
        · rw [if_neg hq, if_neg (by omega)]

theorem evalBody_ok (W : Nat) (hW : 32 ≤ W) (f : Fss) (k : FssKeyEq2P) (x i : Nat)
    (st : EvalState) (row : List Byte) (hrow : k.CW[i]? = some row)
    (hrl : 18 ≤ row.length) (hs : st.sCurr.length = 16) (ht : st.Temp.length = 16)
    (ho : 48 ≤ st.Out.length)
    (hbs : ∀ i, i < 3 → ∃ b, f.FixedBlocks[i]? = some (some b)) :
    ∃ st1, evalBody W f k x i st = .ok st1 ∧
      (st1.sCurr, st1.tCurr) =
        evalNext f.FixedBlocks row (getBit W x (levelPos W f i) f.N) (st.sCurr, st.tCurr) ∧
      st1.Temp.length = 16 ∧ st1.Out.length = st.Out.length ∧
      st1.printed = st.printed ++
        [Printed.xBit (getBit W x (levelPos W f i) f.N), Printed.fOut st1.Out] := by
  obtain ⟨r, hr, hr1, hr2, hr3⟩ :=
    prf_ok W hW f.FixedBlocks st.sCurr st.Temp st.Out 3 (by omega) hs ht (by omega) hbs
  obtain ⟨c, hc, hc1, hc2⟩ := evalInner_loop f.FixedBlocks st.sCurr st.tCurr k.CW i row hrow
    hrl r.2 (by omega) (fun p hp => by rw [hr3 p, if_pos (by omega)])
  have hc34 : ∀ p, p < 34 → c.2[p]? = some (corrByte f.FixedBlocks st.sCurr st.tCurr row p) :=
    fun p hp => by rw [hc2 p, if_pos hp]
  have hlen : 48 ≤ c.2.length := by omega
  unfold evalBody
  simp only [bind, Except.bind, hr, hc, pure, Except.pure]
  show ∃ st1, (if getBit W x (levelPos W f i) f.N = 0 then _ else _) = _ ∧ _
  by_cases hb : getBit W x (levelPos W f i) f.N = 0
  · rw [if_pos hb]
    have e1 : sliceTo c.2 16 = .ok ((List.range 16).map
        (fun j => corrByte f.FixedBlocks st.sCurr st.tCurr row j)) := by
      unfold sliceTo
      rw [if_pos (by omega)]
      have := window_eq_map c.2 (fun j => corrByte f.FixedBlocks st.sCurr st.tCurr row j) 0 16
        (fun p hp => by rw [Nat.zero_add]; exact hc34 p (by omega))
      simpa using this
    simp only [e1, index_eq_ok _ _ _ (hc34 16 (by omega)), BlockSize]
    refine ⟨_, rfl, ?_, hr1, by simp only [hc1, hr2], rfl⟩
    simp only [evalNext, hb, if_true]
    rw [copy_full _ _ (by simp [hs])]
  · rw [if_neg hb]
    have e1 : slice c.2 (16 + 1) (16 * 2 + 1) = .ok ((List.range 16).map
        (fun j => corrByte f.FixedBlocks st.sCurr st.tCurr row (17 + j))) := by
      unfold slice
      rw [if_pos ⟨by omega, by omega⟩]
      have := window_eq_map c.2
        (fun j => corrByte f.FixedBlocks st.sCurr st.tCurr row (17 + j)) 17 16
        (fun p hp => hc34 (17 + p) (by omega))
      simpa using this
    simp only [e1, index_eq_ok _ _ _ (hc34 33 (by omega)), BlockSize]
    refine ⟨_, rfl, ?_, hr1, by simp only [hc1, hr2], rfl⟩
    simp only [evalNext, hb, if_false]
    rw [copy_full _ _ (by simp [hs])]

theorem genCW_loop (prfOut0 prfOut1 : List Byte) (g0 g1 : Nat → Byte)
    (h0 : ∀ p, p < 48 → prfOut0[p]? = some (g0 p))
    (h1 : ∀ p, p < 48 → prfOut1[p]? = some (g1 p))
    (lose : Nat) (hl : lose ≤ 17) (i : Nat) (CW0 CW1 : List (List Byte))
    (hi0 : i < CW0.length) (hi1 : i < CW1.length) (r0 r1 : List Byte)
    (hr0 : r0.length = 18) (hr1 : r1.length = 18) :
    ∃ q0 q1, forLoop (genCWBody prfOut0 prfOut1 lose i) BlockSize 0
        (CW0.set i r0, CW1.set i r1) = .ok (CW0.set i q0, CW1.set i q1) ∧
      q0.length = 18 ∧ q1.length = 18 ∧
      (∀ p, p < 16 → q0[p]? = some (g0 (lose + p) ^^^ g1 (lose + p))) ∧
      (∀ p, p < 16 → q1[p]? = some (g0 (lose + p) ^^^ g1 (lose + p))) := by
  have key := forLoop_inv (genCWBody prfOut0 prfOut1 lose i)
    (fun j s => ∃ q0 q1, s = (CW0.set i q0, CW1.set i q1) ∧
      q0.length = 18 ∧ q1.length = 18 ∧
      (∀ p, p < j → q0[p]? = some (g0 (lose + p) ^^^ g1 (lose + p))) ∧
      (∀ p, p < j → q1[p]? = some (g0 (lose + p) ^^^ g1 (lose + p))))
    BlockSize 0 (CW0.set i r0, CW1.set i r1)
    ⟨r0, r1, rfl, hr0, hr1, fun p hp => absurd hp (Nat.not_lt_zero p),
      fun p hp => absurd hp (Nat.not_lt_zero p)⟩ ?_
  · obtain ⟨s, hs, q0, q1, e, a1, a2, a3, a4⟩ := key
    refine ⟨q0, q1, by rw [hs, e], a1, a2, ?_, ?_⟩
    · intro p hp; exact a3 p (by simp only [BlockSize]; omega)
    · intro p hp; exact a4 p (by simp only [BlockSize]; omega)
  · intro j s _ hj ⟨q0, q1, e, a1, a2, a3, a4⟩
    simp only [BlockSize] at hj
    subst e
    have upd : ∀ (q : List Byte) (v : Byte), q.length = 18 →
        (∀ p, p < j → q[p]? = some (g0 (lose + p) ^^^ g1 (lose + p))) →
        v = g0 (lose + j) ^^^ g1 (lose + j) →
        ∀ p, p < j + 1 → (q.set j v)[p]? = some (g0 (lose + p) ^^^ g1 (lose + p)) := by
      intro q v hq hqp hv p hp
      rw [List.getElem?_set]
      by_cases hjp : j = p
      · subst hjp; rw [if_pos rfl, if_pos (by omega), hv]
      · rw [if_neg hjp]; exact hqp p (by omega)
    refine ⟨(CW0.set i (q0.set j (g0 (lose + j) ^^^ g1 (lose + j))),
        CW1.set i (q1.set j (g0 (lose + j) ^^^ g1 (lose + j)))), ?_,
      _, _, rfl, by simp [a1], by simp [a2], upd q0 _ a1 a3 rfl, upd q1 _ a2 a4 rfl⟩
    unfold genCWBody
    simp only [bind, Except.bind, pure, Except.pure,
      index_eq_ok _ _ _ (h0 (lose + j) (by omega)),
      index_eq_ok _ _ _ (h1 (lose + j) (by omega)),
      store2_set_ok CW0 i q0 j _ hi0 (by omega),
      store2_set_ok CW1 i q1 j _ hi1 (by omega),
      index_set_self CW0 i _ hi0,
      index_set_self q0 j _ (by omega)]

theorem genSeed_loop (prfOut0 prfOut1 : List Byte) (g0 g1 : Nat → Byte)
    (h0 : ∀ p, p < 48 → prfOut0[p]? = some (g0 p))
    (h1 : ∀ p, p < 48 → prfOut1[p]? = some (g1 p))
    (t0 t1 : Byte) (CW0 : List (List Byte)) (keep i : Nat) (hk : keep ≤ 17)
    (row : List Byte) (hrow : CW0[i]? = some row) (hrl : row.length = 18)
    (s0 s1 : List Byte) (hs0 : s0.length = 16) (hs1 : s1.length = 16) :
    forLoop (genSeedBody prfOut0 prfOut1 t0 t1 CW0 keep i) BlockSize 0 (s0, s1) =
      .ok ((List.range 16).map (fun j => g0 (keep + j) ^^^ (t0 * row.getD j 0)),
           (List.range 16).map (fun j => g1 (keep + j) ^^^ (t1 * row.getD j 0))) := by
  have key := forLoop_inv (genSeedBody prfOut0 prfOut1 t0 t1 CW0 keep i)
    (fun j s => s.1.length = 16 ∧ s.2.length = 16 ∧
      (∀ p, p < j → s.1[p]? = some (g0 (keep + p) ^^^ (t0 * row.getD p 0))) ∧
      (∀ p, p < j → s.2[p]? = some (g1 (keep + p) ^^^ (t1 * row.getD p 0))))
    BlockSize 0 (s0, s1)
    ⟨hs0, hs1, fun p hp => absurd hp (Nat.not_lt_zero p),
      fun p hp => absurd hp (Nat.not_lt_zero p)⟩ ?_
  · obtain ⟨s, hs, a1, a2, a3, a4⟩ := key
    rw [hs]
    have e1 := window_eq_map s.1 (fun j => g0 (keep + j) ^^^ (t0 * row.getD j 0)) 0 16
      (fun p hp => by rw [Nat.zero_add]; exact a3 p (by simp only [BlockSize]; omega))
    have e2 := window_eq_map s.2 (fun j => g1 (keep + j) ^^^ (t1 * row.getD j 0)) 0 16
      (fun p hp => by rw [Nat.zero_add]; exact a4 p (by simp only [BlockSize]; omega))
    rw [Nat.zero_add, List.drop_zero, List.take_of_length_le (by omega)] at e1 e2
    rw [← e1, ← e2]
  · intro j s _ hj ⟨a1, a2, a3, a4⟩
    simp only [BlockSize] at hj
    have hjr : j < row.length := by omega
    have hget : row.getD j 0 = row.get ⟨j, hjr⟩ := by
      simp only [List.getD_eq_getElem?_getD, List.getElem?_eq_getElem hjr, Option.getD_some,
        List.get_eq_getElem]
    have upd : ∀ (q : List Byte) (g : Nat → Byte) (t v : Byte), q.length = 16 →
        (∀ p, p < j → q[p]? = some (g (keep + p) ^^^ (t * row.getD p 0))) →
        v = g (keep + j) ^^^ (t * row.getD j 0) →
        ∀ p, p < j + 1 → (q.set j v)[p]? = some (g (keep + p) ^^^ (t * row.getD p 0)) := by
      intro q g t v hq hqp hv p hp
      rw [List.getElem?_set]
      by_cases hjp : j = p
      · subst hjp; rw [if_pos rfl, if_pos (by omega), hv]
      · rw [if_neg hjp]; exact hqp p (by omega)
    refine ⟨(s.1.set j (g0 (keep + j) ^^^ (t0 * row.getD j 0)),
        s.2.set j (g1 (keep + j) ^^^ (t1 * row.getD j 0))), ?_,
      by simp [a1], by simp [a2], upd s.1 g0 t0 _ a1 a3 rfl, upd s.2 g1 t1 _ a2 a4 rfl⟩
    unfold genSeedBody
    simp only [bind, Except.bind, pure, Except.pure,
      index_eq_ok _ _ _ (h0 (keep + j) (by omega)),
      index_eq_ok _ _ _ (h1 (keep + j) (by omega)),
      index_eq_ok _ _ _ hrow, index_ok row j hjr,
      store_ok s.1 j _ (by omega), store_ok s.2 j _ (by omega), hget]

theorem prfOut_copy (out : List Byte) (g : Nat → Byte) (ho : 48 ≤ out.length)
    (h : ∀ p, p < 48 → out[p]? = some (g p)) :
    ∃ po, sliceTo out (BlockSize * 3) = .ok po ∧
      ∀ p, p < 48 → (copy (makeBytes (BlockSize * 3)) po)[p]? = some (g p) := by
  refine ⟨out.take 48, ?_, ?_⟩
  · unfold sliceTo BlockSize; rw [if_pos (by omega)]
  · intro p hp
    rw [copy_full _ _ (by simp [makeBytes, BlockSize]; omega), List.getElem?_take,
      if_pos hp, h p hp]

theorem genRow_eq (bs : List (Option Block)) (aBit : Byte) (s0 s1 q : List Byte)
    (hq : q.length = 18)
    (hp : ∀ p, p < 16 → q[p]? = some (mmoByte bs s0 ((if aBit = 0 then 17 else 0) + p)
      ^^^ mmoByte bs s1 ((if aBit = 0 then 17 else 0) + p))) :
    (q.set 16 (mmoByte bs s0 16 % 2 ^^^ mmoByte bs s1 16 % 2 ^^^ aBit ^^^ 1)).set 17
      (mmoByte bs s0 33 % 2 ^^^ mmoByte bs s1 33 % 2 ^^^ aBit) = genRow bs aBit s0 s1 := by
  apply List.ext_getElem?
  intro p
  unfold genRow
  rw [List.getElem?_set, List.getElem?_set, List.getElem?_append, List.length_set,
    List.length_map, List.length_range, List.getElem?_map]
  by_cases h17 : 17 = p
  · subst h17; simp [hq]
  · rw [if_neg h17]
    by_cases h16 : 16 = p
    · subst h16; simp [hq]
    · rw [if_neg h16]
      by_cases hlt : p < 16
      · rw [if_pos hlt, hp p hlt, List.getElem?_range hlt]; rfl
      · rw [if_neg hlt, List.getElem?_eq_none (by omega)]
        have : 2 ≤ p - 16 := by omega
        rw [List.getElem?_eq_none (by simpa using this)]

theorem genRow_length (bs : List (Option Block)) (aBit : Byte) (s0 s1 : List Byte) :
    (genRow bs aBit s0 s1).length = 18 := by
  simp [genRow]

theorem genBody_ok (W : Nat) (hW : 32 ≤ W) (f : Fss) (a i : Nat) (st : GenState)
    (r0 r1 : List Byte) (hr0 : st.CW0[i]? = some r0) (hr1 : st.CW1[i]? = some r1)
    (hl0 : r0.length = 18) (hl1 : r1.length = 18)
    (hs0 : st.sCurr0.length = 16) (hs1 : st.sCurr1.length = 16)
    (ht : st.Temp.length = 16) (ho : 48 ≤ st.Out.length)
    (hbs : ∀ i, i < 3 → ∃ b, f.FixedBlocks[i]? = some (some b)) :
    ∃ st1, genBody W f a i st = .ok st1 ∧
      st1.CW0 = st.CW0.set i
        (genRow f.FixedBlocks (getBit W a (levelPos W f i) f.N) st.sCurr0 st.sCurr1) ∧
      st1.CW1 = st.CW1.set i
        (genRow f.FixedBlocks (getBit W a (levelPos W f i) f.N) st.sCurr0 st.sCurr1) ∧
      (st1.sCurr0, st1.tCurr0) = genNext f.FixedBlocks
        (genRow f.FixedBlocks (getBit W a (levelPos W f i) f.N) st.sCurr0 st.sCurr1)
        (getBit W a (levelPos W f i) f.N) (st.sCurr0, st.tCurr0) ∧
      (st1.sCurr1, st1.tCurr1) = genNext f.FixedBlocks
        (genRow f.FixedBlocks (getBit W a (levelPos W f i) f.N) st.sCurr0 st.sCurr1)
        (getBit W a (levelPos W f i) f.N) (st.sCurr1, st.tCurr1) ∧
      st1.Temp.length = 16 ∧ st1.Out.length = st.Out.length := by
  obtain ⟨ra, hra, hra1, hra2, hra3⟩ :=
    prf_ok W hW f.FixedBlocks st.sCurr0 st.Temp st.Out 3 (by omega) hs0 ht (by omega) hbs
  obtain ⟨rb, hrb, hrb1, hrb2, hrb3⟩ :=
    prf_ok W hW f.FixedBlocks st.sCurr1 ra.1 ra.2 3 (by omega) hs1 hra1 (by omega) hbs
  obtain ⟨pa, hpa, hpa1⟩ := prfOut_copy ra.2 (mmoByte f.FixedBlocks st.sCurr0) (by omega)
    (fun p hp => by rw [hra3 p, if_pos (by omega)])
  obtain ⟨pb, hpb, hpb1⟩ := prfOut_copy rb.2 (mmoByte f.FixedBlocks st.sCurr1) (by omega)
    (fun p hp => by rw [hrb3 p, if_pos (by omega)])
  obtain ⟨hi0, _⟩ := List.getElem?_eq_some.mp hr0
  obtain ⟨hi1, _⟩ := List.getElem?_eq_some.mp hr1
  generalize hab : getBit W a (levelPos W f i) f.N = aBit
  have hab1 : getBit W a (uadd W (uadd W (usub W f.N f.NumBits) i) 1) f.N = aBit := hab
  obtain ⟨q0, q1, hq, hq0, hq1, hqp0, hqp1⟩ := genCW_loop _ _ _ _ hpa1 hpb1
    (if aBit = 0 then 17 else 0) (by split <;> omega) i st.CW0 st.CW1 hi0 hi1 r0 r1 hl0 hl1
  rw [set_self_of_getElem? _ _ _ hr0, set_self_of_getElem? _ _ _ hr1] at hq
  have e0 := genRow_eq f.FixedBlocks aBit st.sCurr0 st.sCurr1 q0 hq0 hqp0
  have e1 := genRow_eq f.FixedBlocks aBit st.sCurr0 st.sCurr1 q1 hq1 hqp1
  have hrl := genRow_length f.FixedBlocks aBit st.sCurr0 st.sCurr1
  have hseed := genSeed_loop _ _ _ _ hpa1 hpb1 st.tCurr0 st.tCurr1
    (st.CW0.set i (genRow f.FixedBlocks aBit st.sCurr0 st.sCurr1))
    (if aBit = 0 then 0 else 17) i (by split <;> omega)
    (genRow f.FixedBlocks aBit st.sCurr0 st.sCurr1)
    (by rw [List.getElem?_set, if_pos rfl, if_pos hi0]) hrl
    st.sCurr0 st.sCurr1 hs0 hs1
  have hg16 : (genRow f.FixedBlocks aBit st.sCurr0 st.sCurr1)[16]? =
      some (mmoByte f.FixedBlocks st.sCurr0 16 % 2 ^^^ mmoByte f.FixedBlocks st.sCurr1 16 % 2
        ^^^ aBit ^^^ 1) := by
    unfold genRow
    rw [List.getElem?_append_right (by simp)]
    simp
  have hg17 : (genRow f.FixedBlocks aBit st.sCurr0 st.sCurr1)[17]? =
      some (mmoByte f.FixedBlocks st.sCurr0 33 % 2 ^^^ mmoByte f.FixedBlocks st.sCurr1 33 % 2
        ^^^ aBit) := by
    unfold genRow
    rw [List.getElem?_append_right (by simp)]
    simp
  simp only [BlockSize, Nat.reduceMul, Nat.reduceAdd] at hpa hpb hpa1 hpb1 hq hseed
  unfold genBody
  simp only [bind, Except.bind, pure, Except.pure, BlockSize, Nat.reduceMul, Nat.reduceAdd,
    hra, hrb, hpa, hpb, hab1,
    index_eq_ok _ _ _ (hpa1 16 (by omega)), index_eq_ok _ _ _ (hpa1 33 (by omega)),
    index_eq_ok _ _ _ (hpb1 16 (by omega)), index_eq_ok _ _ _ (hpb1 33 (by omega)),
    hq, store2_set_ok st.CW0 i q0 16 _ hi0 (by omega),
    store2_set_ok st.CW1 i q1 16 _ hi1 (by omega),
    index_set_self st.CW0 i _ hi0, index_set_self q0 16 _ (by omega),
    store2_set_ok st.CW0 i (q0.set 16 _) 17 _ hi0 (by simp [hq0]),
    store2_set_ok st.CW1 i (q1.set 16 _) 17 _ hi1 (by simp [hq1]),
    e0, e1, index_eq_ok _ _ _ hg16, index_eq_ok _ _ _ hg17, hseed]
  have hd16 : (genRow f.FixedBlocks aBit st.sCurr0 st.sCurr1).getD 16 0 =
      mmoByte f.FixedBlocks st.sCurr0 16 % 2 ^^^ mmoByte f.FixedBlocks st.sCurr1 16 % 2
        ^^^ aBit ^^^ 1 := by
    rw [List.getD_eq_getElem?_getD, hg16, Option.getD_some]
  have hd17 : (genRow f.FixedBlocks aBit st.sCurr0 st.sCurr1).getD 17 0 =
      mmoByte f.FixedBlocks st.sCurr0 33 % 2 ^^^ mmoByte f.FixedBlocks st.sCurr1 33 % 2
        ^^^ aBit := by
    rw [List.getD_eq_getElem?_getD, hg17, Option.getD_some]
  by_cases hb : aBit = 0
  · subst hb
    simp only [if_true, Nat.zero_add, Nat.reduceEqDiff, if_false,
      index_eq_ok _ _ _ (hpa1 16 (by omega)), index_eq_ok _ _ _ (hpb1 16 (by omega))]
    refine ⟨_, rfl, rfl, rfl, ?_, ?_, hrb1, by simp only [hrb2, hra2]⟩
    · simp only [genNext, if_true, Nat.zero_add, hd16]
    · simp only [genNext, if_true, Nat.zero_add, hd16]
  · simp only [hb, if_false, if_true, Nat.reduceAdd,
      index_eq_ok _ _ _ (hpa1 33 (by omega)), index_eq_ok _ _ _ (hpb1 33 (by omega))]
    refine ⟨_, rfl, rfl, rfl, ?_, ?_, hrb1, by simp only [hrb2, hra2]⟩
    · simp only [genNext, hb, if_false, Nat.reduceAdd, hd17]
    · simp only [genNext, hb, if_false, Nat.reduceAdd, hd17]

theorem genAlloc_loop (n : Nat) :
    forLoop genAllocBody n 0 (List.replicate n [], List.replicate n []) =
      .ok (List.replicate n (makeBytes 18), List.replicate n (makeBytes 18)) := by
  have key := forLoop_inv genAllocBody
    (fun i st => st.1.length = n ∧ st.2.length = n ∧
      (∀ p, p < i → st.1[p]? = some (makeBytes 18)) ∧
      (∀ p, p < i → st.2[p]? = some (makeBytes 18)))
    n 0 (List.replicate n [], List.replicate n [])
    ⟨by simp, by simp, fun p hp => absurd hp (Nat.not_lt_zero p),
      fun p hp => absurd hp (Nat.not_lt_zero p)⟩ ?_
  · obtain ⟨st, hs, a1, a2, a3, a4⟩ := key
    rw [hs]
    have fill : ∀ l : List (List Byte), l.length = n →
        (∀ p, p < 0 + n → l[p]? = some (makeBytes 18)) →
        l = List.replicate n (makeBytes 18) := by
      intro l hl hp
      apply List.ext_getElem?
      intro p
      rw [List.getElem?_replicate]
      by_cases h : p < n
      · rw [if_pos h, hp p (by omega)]
      · rw [if_neg h, List.getElem?_eq_none (by omega)]
    exact congrArg Except.ok (Prod.ext (fill st.1 a1 a3) (fill st.2 a2 a4))
  · intro i st _ hi ⟨a1, a2, a3, a4⟩
    have upd : ∀ l : List (List Byte), l.length = n →
        (∀ p, p < i → l[p]? = some (makeBytes 18)) →
        ∀ p, p < i + 1 → (l.set i (makeBytes 18))[p]? = some (makeBytes 18) := by
      intro l hl hp p hlt
      rw [List.getElem?_set]
      by_cases h : i = p
      · rw [if_pos h, if_pos (by omega)]
      · rw [if_neg h]; exact hp p (by omega)
    refine ⟨(st.1.set i (makeBytes 18), st.2.set i (makeBytes 18)), ?_,
      by simp [a1], by simp [a2], upd st.1 a1 a3, upd st.2 a2 a4⟩
    unfold genAllocBody
    simp only [bind, Except.bind, pure, Except.pure, BlockSize,
      store_ok st.1 i _ (by omega), store_ok st.2 i _ (by omega)]

/-! ## Algebra of one level -/

theorem genRow_getD16 (bs : List (Option Block)) (aBit : Byte) (s0 s1 : List Byte) :
    (genRow bs aBit s0 s1).getD 16 0 =
      mmoByte bs s0 16 % 2 ^^^ mmoByte bs s1 16 % 2 ^^^ aBit ^^^ 1 := by
  unfold genRow
  rw [List.getD_eq_getElem?_getD, List.getElem?_append_right (by simp)]
  simp

theorem genRow_getD17 (bs : List (Option Block)) (aBit : Byte) (s0 s1 : List Byte) :
    (genRow bs aBit s0 s1).getD 17 0 =
      mmoByte bs s0 33 % 2 ^^^ mmoByte bs s1 33 % 2 ^^^ aBit := by
  unfold genRow
  rw [List.getD_eq_getElem?_getD, List.getElem?_append_right (by simp)]
  simp

theorem genRow_getD_lt (bs : List (Option Block)) (aBit : Byte) (s0 s1 : List Byte)
    (j : Nat) (hj : j < 16) :
    (genRow bs aBit s0 s1).getD j 0 =
      mmoByte bs s0 ((if aBit = 0 then 17 else 0) + j)
        ^^^ mmoByte bs s1 ((if aBit = 0 then 17 else 0) + j) := by
  unfold genRow
  rw [List.getD_eq_getElem?_getD, List.getElem?_append_left (by simpa using hj),
    List.getElem?_map, List.getElem?_range hj]
  rfl

theorem genRow_isBit16 (bs : List (Option Block)) (aBit : Byte) (s0 s1 : List Byte)
    (ha : IsBit aBit) : IsBit ((genRow bs aBit s0 s1).getD 16 0) := by
  have : (genRow bs aBit s0 s1).getD 16 0 =
      mmoByte bs s0 16 % 2 ^^^ mmoByte bs s1 16 % 2 ^^^ aBit ^^^ 1 := by
    unfold genRow
    rw [List.getD_eq_getElem?_getD, List.getElem?_append_right (by simp)]
    simp
  rw [this]
  exact (((isBit_mod_two _).xor (isBit_mod_two _)).xor ha).xor isBit_one

theorem genRow_isBit17 (bs : List (Option Block)) (aBit : Byte) (s0 s1 : List Byte)
    (ha : IsBit aBit) : IsBit ((genRow bs aBit s0 s1).getD 17 0) := by
  rw [genRow_getD17]
  exact ((isBit_mod_two _).xor (isBit_mod_two _)).xor ha

theorem genNext_length (bs : List (Option Block)) (row : List Byte) (aBit : Byte)
    (st : List Byte × Byte) : (genNext bs row aBit st).1.length = 16 := by
  simp [genNext]

theorem evalNext_length (bs : List (Option Block)) (row : List Byte) (xBit : Byte)
    (st : List Byte × Byte) : (evalNext bs row xBit st).1.length = 16 := by
  unfold evalNext; split <;> simp

/-- On the path (`xBit = aBit`) the evaluator's level is the generator's. -/
theorem evalNext_eq_genNext (bs : List (Option Block)) (row : List Byte) (aBit : Byte)
    (s : List Byte) (t : Byte) (ha : IsBit aBit) (ht : IsBit t)
    (h16 : IsBit (row.getD 16 0)) (h17 : IsBit (row.getD 17 0)) :
    evalNext bs row aBit (s, t) = genNext bs row aBit (s, t) := by
  have key : ∀ p c : Byte, IsBit c → (p ^^^ t * c) % 2 = p % 2 ^^^ c * t := by
    intro p c hc
    rw [xor_mod_two, (ht.mul hc).mod_two, mul_comm]
  unfold evalNext genNext corrByte
  rcases ha with ha | ha
  · subst ha
    simp only [if_true, Nat.zero_add]
    rw [Prod.mk.injEq]
    refine ⟨?_, ?_⟩
    · apply map_range_congr
      intro j hj
      have : cwIndex j = j := by unfold cwIndex; rw [if_pos (by omega)]
      rw [this]
    · show (mmoByte bs s 16 ^^^ t * row.getD (cwIndex 16) 0) % 2 = _
      have : cwIndex 16 = 16 := rfl
      rw [this, key _ _ h16]
  · subst ha
    have h10 : ¬ ((1 : Byte) = 0) := by decide
    simp only [h10, if_false]
    rw [Prod.mk.injEq]
    refine ⟨?_, ?_⟩
    · apply map_range_congr
      intro j hj
      have : cwIndex (17 + j) = j := by
        unfold cwIndex; rw [if_neg (by omega), if_pos (by omega)]; omega
      rw [this]
    · show (mmoByte bs s 33 ^^^ t * row.getD (cwIndex 33) 0) % 2 = _
      have : cwIndex 33 = 17 := rfl
      rw [this, key _ _ h17]

theorem genNext_isBit (bs : List (Option Block)) (aBit : Byte) (s0 s1 s : List Byte)
    (t : Byte) (ha : IsBit aBit) (ht : IsBit t) :
    IsBit (genNext bs (genRow bs aBit s0 s1) aBit (s, t)).2 := by
  unfold genNext
  refine (isBit_mod_two _).xor (IsBit.mul ?_ ht)
  split
  · exact genRow_isBit16 bs aBit s0 s1 ha
  · exact genRow_isBit17 bs aBit s0 s1 ha

/-- Key generation keeps the two control bits complementary. -/
theorem genNext_compl (bs : List (Option Block)) (aBit : Byte) (s0 s1 : List Byte)
    (t0 t1 : Byte) (ha : IsBit aBit) (h0 : IsBit t0) (h1 : IsBit t1)
    (h : t0 ^^^ t1 = 1) :
    (genNext bs (genRow bs aBit s0 s1) aBit (s0, t0)).2
      ^^^ (genNext bs (genRow bs aBit s0 s1) aBit (s1, t1)).2 = 1 := by
  unfold genNext
  rcases ha with ha | ha
  · subst ha
    simp only [if_true, Nat.zero_add, genRow_getD16, bxor_zero]
    exact ctrl_keep _ _ t0 t1 1 (isBit_mod_two _) (isBit_mod_two _) h0 h1 h rfl
  · subst ha
    have h10 : ¬ ((1 : Byte) = 0) := by decide
    simp only [h10, if_false, Nat.reduceAdd, genRow_getD17]
    exact ctrl_keep _ _ t0 t1 1 (isBit_mod_two _) (isBit_mod_two _) h0 h1 h rfl

/-- Off the path (`xBit ≠ aBit`) the two evaluators reach the same seed and
control bit. -/
theorem evalNext_collapse (bs : List (Option Block)) (aBit xBit : Byte)
    (s0 s1 : List Byte) (t0 t1 : Byte) (ha : IsBit aBit) (hx : IsBit xBit)
    (hne : xBit ≠ aBit) (h0 : IsBit t0) (h1 : IsBit t1) (h : t0 ^^^ t1 = 1) :
    evalNext bs (genRow bs aBit s0 s1) xBit (s0, t0)
      = evalNext bs (genRow bs aBit s0 s1) xBit (s1, t1) := by
  unfold evalNext corrByte
  have h10 : ¬ ((1 : Byte) = 0) := by decide
  rcases ha with ha | ha <;> rcases hx with hx | hx <;> subst ha <;> subst hx
  · exact absurd rfl hne
  · simp only [h10, if_false]
    rw [Prod.mk.injEq]
    refine ⟨map_range_congr 16 _ _ (fun j hj => ?_), ?_⟩
    · have : cwIndex (17 + j) = j := by
        unfold cwIndex; rw [if_neg (by omega), if_pos (by omega)]; omega
      simp only [this, genRow_getD_lt bs 0 s0 s1 j hj, if_true]
      exact seed_collapse _ _ t0 t1 h0 h1 h
    · have : cwIndex 33 = 17 := rfl
      have hc := genRow_isBit17 bs 0 s0 s1 isBit_zero
      rw [this, ctrl_step _ _ _ h0 hc, ctrl_step _ _ _ h1 hc, genRow_getD17]
      exact ctrl_collapse _ _ t0 t1 0 (isBit_mod_two _) (isBit_mod_two _) h0 h1 h rfl
  · simp only [if_true]
    rw [Prod.mk.injEq]
    refine ⟨map_range_congr 16 _ _ (fun j hj => ?_), ?_⟩
    · have : cwIndex j = j := by unfold cwIndex; rw [if_pos (by omega)]
      simp only [this, genRow_getD_lt bs 1 s0 s1 j hj, h10, if_false, Nat.zero_add]
      exact seed_collapse _ _ t0 t1 h0 h1 h
    · have : cwIndex 16 = 16 := rfl
      have hc := genRow_isBit16 bs 1 s0 s1 isBit_one
      rw [this, ctrl_step _ _ _ h0 hc, ctrl_step _ _ _ h1 hc, genRow_getD16]
      have e : ∀ a b : Byte, a ^^^ b ^^^ 1 ^^^ 1 = a ^^^ b ^^^ 0 := by
        intro a b; rw [bxor_assoc (a ^^^ b) 1 1, bxor_self]
      rw [e]
      exact ctrl_collapse _ _ t0 t1 0 (isBit_mod_two _) (isBit_mod_two _) h0 h1 h rfl
  · exact absurd rfl hne

/-! ## All levels -/

theorem genRun_length (bs : List (Option Block)) (bits : Nat → Byte) :
    ∀ n i st, (genRun bs bits n i st).1.length = n := by
  intro n
  induction n with
  | zero => intro i st; rfl
  | succ n ih => intro i st; simp only [genRun, List.length_cons, ih]

theorem genRun_snd_length (bs : List (Option Block)) (bits : Nat → Byte) :
    ∀ n i (st : (List Byte × Byte) × (List Byte × Byte)),
      st.1.1.length = 16 → st.2.1.length = 16 →
      (genRun bs bits n i st).2.1.1.length = 16 ∧ (genRun bs bits n i st).2.2.1.length = 16 := by
  intro n
  induction n with
  | zero => intro i st h0 h1; exact ⟨h0, h1⟩
  | succ n ih =>
    intro i st _ _
    simp only [genRun]
    exact ih _ _ (genNext_length _ _ _ _) (genNext_length _ _ _ _)

theorem genRun_rows (bs : List (Option Block)) (bits : Nat → Byte) :
    ∀ n i st p, p < n →
      ∃ r, (genRun bs bits n i st).1[p]? = some r ∧ r.length = 18 := by
  intro n
  induction n with
  | zero => intro i st p hp; omega
  | succ n ih =>
    intro i st p hp
    simp only [genRun]
    cases p with
    | zero => exact ⟨_, List.getElem?_cons_zero, genRow_length _ _ _ _⟩
    | succ p =>
      rw [List.getElem?_cons_succ]
      exact ih _ _ p (by omega)

theorem evalRun_length (bs : List (Option Block)) (bits : Nat → Byte) :
    ∀ (rows : List (List Byte)) (i : Nat) (st : List Byte × Byte), st.1.length = 16 →
      (evalRun bs bits rows i st).1.length = 16 := by
  intro rows
  induction rows with
  | nil => intro i st h; exact h
  | cons row rows ih =>
    intro i st _
    simp only [evalRun]
    exact ih _ _ (evalNext_length _ _ _ _)

/-- While the bits of `x` agree with those of `a`, each evaluator reproduces
the generator's state for its party, and the control bits stay complementary. -/
theorem run_on_path (bs : List (Option Block)) (abits xbits : Nat → Byte)
    (hab : ∀ j, IsBit (abits j)) :
    ∀ n i (st0 st1 : List Byte × Byte), IsBit st0.2 → IsBit st1.2 → st0.2 ^^^ st1.2 = 1 →
      (∀ j, i ≤ j → j < i + n → xbits j = abits j) →
      evalRun bs xbits (genRun bs abits n i (st0, st1)).1 i st0
          = (genRun bs abits n i (st0, st1)).2.1 ∧
        evalRun bs xbits (genRun bs abits n i (st0, st1)).1 i st1
          = (genRun bs abits n i (st0, st1)).2.2 ∧
        IsBit (genRun bs abits n i (st0, st1)).2.1.2 ∧
        IsBit (genRun bs abits n i (st0, st1)).2.2.2 ∧
        (genRun bs abits n i (st0, st1)).2.1.2 ^^^ (genRun bs abits n i (st0, st1)).2.2.2 = 1 := by
  intro n
  induction n with
  | zero => intro i st0 st1 h0 h1 h _; exact ⟨rfl, rfl, h0, h1, h⟩
  | succ n ih =>
    intro i st0 st1 h0 h1 h hx
    have hxi : xbits i = abits i := hx i (Nat.le_refl _) (by omega)
    have hb0 := genNext_isBit bs (abits i) st0.1 st1.1 st0.1 st0.2 (hab i) h0
    have hb1 := genNext_isBit bs (abits i) st0.1 st1.1 st1.1 st1.2 (hab i) h1
    have hc := genNext_compl bs (abits i) st0.1 st1.1 st0.2 st1.2 (hab i) h0 h1 h
    have e0 := evalNext_eq_genNext bs (genRow bs (abits i) st0.1 st1.1) (abits i) st0.1 st0.2
      (hab i) h0 (genRow_isBit16 bs _ _ _ (hab i)) (genRow_isBit17 bs _ _ _ (hab i))
    have e1 := evalNext_eq_genNext bs (genRow bs (abits i) st0.1 st1.1) (abits i) st1.1 st1.2
      (hab i) h1 (genRow_isBit16 bs _ _ _ (hab i)) (genRow_isBit17 bs _ _ _ (hab i))
    have key := ih (i + 1) _ _ hb0 hb1 hc (fun j hj hlt => hx j (by omega) (by omega))
    simp only [genRun, evalRun, hxi]
    rw [e0, e1]
    exact key

/-- Once the bit of `x` differs from the bit of `a` at some level, the two
evaluators hold the same seed and control bit from then on. -/
theorem run_off_path (bs : List (Option Block)) (abits xbits : Nat → Byte)
    (hab : ∀ j, IsBit (abits j)) (hxb : ∀ j, IsBit (xbits j)) :
    ∀ n i (st0 st1 : List Byte × Byte), IsBit st0.2 → IsBit st1.2 → st0.2 ^^^ st1.2 = 1 →
      (∃ j, i ≤ j ∧ j < i + n ∧ xbits j ≠ abits j) →
      evalRun bs xbits (genRun bs abits n i (st0, st1)).1 i st0
        = evalRun bs xbits (genRun bs abits n i (st0, st1)).1 i st1 := by
  intro n
  induction n with
  | zero => intro i st0 st1 _ _ _ ⟨j, h1, h2, _⟩; omega
  | succ n ih =>
    intro i st0 st1 h0 h1 h ⟨j, hj1, hj2, hj3⟩
    simp only [genRun, evalRun]
    by_cases hxi : xbits i = abits i
    · have hb0 := genNext_isBit bs (abits i) st0.1 st1.1 st0.1 st0.2 (hab i) h0
      have hb1 := genNext_isBit bs (abits i) st0.1 st1.1 st1.1 st1.2 (hab i) h1
      have hc := genNext_compl bs (abits i) st0.1 st1.1 st0.2 st1.2 (hab i) h0 h1 h
      have e0 := evalNext_eq_genNext bs (genRow bs (abits i) st0.1 st1.1) (abits i) st0.1
        st0.2 (hab i) h0 (genRow_isBit16 bs _ _ _ (hab i)) (genRow_isBit17 bs _ _ _ (hab i))
      have e1 := evalNext_eq_genNext bs (genRow bs (abits i) st0.1 st1.1) (abits i) st1.1
        st1.2 (hab i) h1 (genRow_isBit16 bs _ _ _ (hab i)) (genRow_isBit17 bs _ _ _ (hab i))
      have hji : j ≠ i := fun e => hj3 (e ▸ hxi)
      have key := ih (i + 1) _ _ hb0 hb1 hc ⟨j, by omega, by omega, hj3⟩
      rw [hxi, e0, e1]
      exact key
    · have := evalNext_collapse bs (abits i) (xbits i) st0.1 st1.1 st0.2 st1.2 (hab i)
        (hxb i) hxi h0 h1 h
      rw [this]

theorem genLoop_ok (W : Nat) (hW : 32 ≤ W) (f : Fss) (a : Nat)
    (hbs : ∀ i, i < 3 → ∃ b, f.FixedBlocks[i]? = some (some b)) :
    ∀ n i (st : GenState), st.sCurr0.length = 16 → st.sCurr1.length = 16 →
      st.Temp.length = 16 → 48 ≤ st.Out.length →
      (∀ p, i ≤ p → p < i + n → ∃ r, st.CW0[p]? = some r ∧ r.length = 18) →
      (∀ p, i ≤ p → p < i + n → ∃ r, st.CW1[p]? = some r ∧ r.length = 18) →
      ∃ st1, forLoop (genBody W f a) n i st = .ok st1 ∧
        (∀ p, st1.CW0[p]? = if i ≤ p ∧ p < i + n then
            (genRun f.FixedBlocks (bitsOf W f a) n i
              ((st.sCurr0, st.tCurr0), (st.sCurr1, st.tCurr1))).1[p - i]?
          else st.CW0[p]?) ∧
        (∀ p, st1.CW1[p]? = if i ≤ p ∧ p < i + n then
            (genRun f.FixedBlocks (bitsOf W f a) n i
              ((st.sCurr0, st.tCurr0), (st.sCurr1, st.tCurr1))).1[p - i]?
          else st.CW1[p]?) ∧
        ((st1.sCurr0, st1.tCurr0), (st1.sCurr1, st1.tCurr1)) =
          (genRun f.FixedBlocks (bitsOf W f a) n i
            ((st.sCurr0, st.tCurr0), (st.sCurr1, st.tCurr1))).2 ∧
        st1.Temp.length = 16 ∧ st1.Out.length = st.Out.length := by
  intro n
  induction n with
  | zero =>
    intro i st _ _ ht _ _ _
    refine ⟨st, rfl, ?_, ?_, rfl, ht, rfl⟩
    · intro p; rw [if_neg (by omega)]
    · intro p; rw [if_neg (by omega)]
  | succ n ih =>
    intro i st hs0 hs1 ht ho hc0 hc1
    obtain ⟨r0, hr0, hl0⟩ := hc0 i (Nat.le_refl _) (by omega)
    obtain ⟨r1, hr1, hl1⟩ := hc1 i (Nat.le_refl _) (by omega)
    obtain ⟨st1, hb, e0, e1, g0, g1, ht1, ho1⟩ :=
      genBody_ok W hW f a i st r0 r1 hr0 hr1 hl0 hl1 hs0 hs1 ht ho hbs
    have hi0 : i < st.CW0.length := (List.getElem?_eq_some.mp hr0).1
    have hi1 : i < st.CW1.length := (List.getElem?_eq_some.mp hr1).1
    have keep : ∀ (l : List (List Byte)) (row : List Byte),
        (∀ p, i ≤ p → p < i + (n + 1) → ∃ r, l[p]? = some r ∧ r.length = 18) →
        ∀ p, i + 1 ≤ p → p < i + 1 + n → ∃ r, (l.set i row)[p]? = some r ∧ r.length = 18 := by
      intro l row h p h1 h2
      rw [List.getElem?_set, if_neg (by omega)]
      exact h p (by omega) (by omega)
    have s0 : st1.sCurr0.length = 16 := by
      have := congrArg (fun q => q.1.length) g0
      simpa [genNext_length] using this
    have s1 : st1.sCurr1.length = 16 := by
      have := congrArg (fun q => q.1.length) g1
      simpa [genNext_length] using this
    obtain ⟨st2, hl, c0, c1, fin, ht2, ho2⟩ := ih (i + 1) st1 s0 s1 ht1 (by omega)
      (by rw [e0]; exact keep st.CW0 _ hc0) (by rw [e1]; exact keep st.CW1 _ hc1)
    have glue : ∀ (l l2 : List (List Byte)) (row : List Byte) (rows : List (List Byte)),
        i < l.length →
        (∀ p, l2[p]? = if i + 1 ≤ p ∧ p < i + 1 + n then rows[p - (i + 1)]?
          else (l.set i row)[p]?) →
        ∀ p, l2[p]? = if i ≤ p ∧ p < i + (n + 1) then (row :: rows)[p - i]? else l[p]? := by
      intro l l2 row rows hi h p
      rw [h p]
      by_cases hp : i + 1 ≤ p ∧ p < i + 1 + n
      · rw [if_pos hp, if_pos (by omega)]
        have : p - i = (p - (i + 1)) + 1 := by omega
        rw [this, List.getElem?_cons_succ]
      · rw [if_neg hp, List.getElem?_set]
        by_cases hpi : i = p
        · subst hpi
          rw [if_pos rfl, if_pos hi, if_pos (by omega), Nat.sub_self, List.getElem?_cons_zero]
        · rw [if_neg hpi, if_neg (by omega)]
    rw [g0, g1] at c0 c1 fin
    rw [e0] at c0
    rw [e1] at c1
    refine ⟨st2, ?_, ?_, ?_, ?_, ht2, by omega⟩
    · simp only [forLoop, hb, hl]
    · simp only [genRun]
      exact glue st.CW0 st2.CW0 _ _ hi0 c0
    · simp only [genRun]
      exact glue st.CW1 st2.CW1 _ _ hi1 c1
    · simp only [genRun]
      exact fin

theorem evalLoop_ok (W : Nat) (hW : 32 ≤ W) (f : Fss) (k : FssKeyEq2P) (x : Nat)
    (hbs : ∀ i, i < 3 → ∃ b, f.FixedBlocks[i]? = some (some b)) :
    ∀ n i (st : EvalState), st.sCurr.length = 16 → st.Temp.length = 16 →
      48 ≤ st.Out.length →
      (∀ p, i ≤ p → p < i + n → ∃ r, k.CW[p]? = some r ∧ 18 ≤ r.length) →
      ∃ st1 tr, forLoop (evalBody W f k x) n i st = .ok st1 ∧
        (st1.sCurr, st1.tCurr) = evalRun f.FixedBlocks (bitsOf W f x)
          ((k.CW.drop i).take n) i (st.sCurr, st.tCurr) ∧
        st1.Temp.length = 16 ∧ st1.Out.length = st.Out.length ∧
        st1.printed = st.printed ++ tr ∧ tr.length = 2 * n ∧
        ∀ j, j < n → tr[2 * j]? = some (Printed.xBit (bitsOf W f x (i + j))) ∧
          ∃ o, tr[2 * j + 1]? = some (Printed.fOut o) ∧ o.length = st.Out.length := by
  intro n
  induction n with
  | zero =>
    intro i st _ ht _ _
    exact ⟨st, [], rfl, by simp [evalRun], ht, rfl, by simp, rfl,
      fun j hj => absurd hj (Nat.not_lt_zero j)⟩
  | succ n ih =>
    intro i st hs ht ho hc
    obtain ⟨row, hrow, hrl⟩ := hc i (Nat.le_refl _) (by omega)
    obtain ⟨st1, hb, e, ht1, ho1, hp1⟩ := evalBody_ok W hW f k x i st row hrow hrl hs ht ho hbs
    have s1 : st1.sCurr.length = 16 := by
      have := congrArg (fun q => q.1.length) e
      simpa [evalNext_length] using this
    obtain ⟨st2, tr, hl, e2, ht2, ho2, hp2, hlen, htr⟩ := ih (i + 1) st1 s1 ht1 (by omega)
      (fun p h1 h2 => hc p (by omega) (by omega))
    have hi : i < k.CW.length := (List.getElem?_eq_some.mp hrow).1
    have hrow1 : k.CW[i] = row := (List.getElem?_eq_some.mp hrow).2
    refine ⟨st2, Printed.xBit (bitsOf W f x i) :: Printed.fOut st1.Out :: tr, ?_, ?_, ht2,
      by omega, ?_, by simp [hlen]; omega, ?_⟩
    · simp only [forLoop, hb, hl]
    · rw [List.drop_eq_getElem_cons hi, List.take_succ_cons, hrow1]
      simp only [evalRun]
      rw [e2, e]
      rfl
    · rw [hp2, hp1, List.append_assoc]
      rfl
    · intro j hj
      cases j with
      | zero => exact ⟨by simp, st1.Out, by simp, ho1⟩
      | succ j =>
        obtain ⟨a1, o, a2, a3⟩ := htr j (by omega)
        have e1 : 2 * (j + 1) = 2 * j + 1 + 1 := by omega
        have e2 : 2 * (j + 1) + 1 = 2 * j + 1 + 1 + 1 := by omega
        refine ⟨?_, o, ?_, by omega⟩
        · rw [e1, List.getElem?_cons_succ, List.getElem?_cons_succ, a1]
          have : i + 1 + j = i + (j + 1) := by omega
          rw [this]
        · rw [e2, List.getElem?_cons_succ, List.getElem?_cons_succ, a2]

theorem genInit_bits (rnd : Nat → Byte) :
    IsBit (genInit rnd).1.2 ∧ IsBit (genInit rnd).2.2 ∧
      (genInit rnd).1.2 ^^^ (genInit rnd).2.2 = 1 := by
  refine ⟨isBit_mod_two _, (isBit_mod_two _).xor isBit_one, ?_⟩
  show rnd 16 % 2 ^^^ (rnd 16 % 2 ^^^ 1) = 1
  exact bxor_cancel_left _ _

theorem genInit_lengths (rnd : Nat → Byte) :
    (genInit rnd).1.1.length = 16 ∧ (genInit rnd).2.1.length = 16 := by
  simp [genInit, randRead_length]

/-- Closed form of `GenerateTreePF` on a well-formed context. -/
theorem GenerateTreePF_ok (W : Nat) (f : Fss) (hf : f.WellFormed W) (hA : f.Allocatable W)
    (rnd : Nat → Byte) (a b : Nat) :
    ∃ g, GenerateTreePF W f rnd a b = .ok g ∧
      g.key0.SInit = (genInit rnd).1.1 ∧ g.key0.TInit = (genInit rnd).1.2 ∧
      g.key1.SInit = (genInit rnd).2.1 ∧ g.key1.TInit = (genInit rnd).2.2 ∧
      g.key0.CW = (genRun f.FixedBlocks (bitsOf W f a) f.NumBits 0 (genInit rnd)).1 ∧
      g.key1.CW = (genRun f.FixedBlocks (bitsOf W f a) f.NumBits 0 (genInit rnd)).1 ∧
      g.key0.FinalCW = genFinalCW W b
        (genRun f.FixedBlocks (bitsOf W f a) f.NumBits 0 (genInit rnd)).2 ∧
      g.key1.FinalCW = g.key0.FinalCW ∧
      g.Temp.length = 16 ∧ g.Out.length = f.Out.length := by
  have hbs := Fss.WellFormed.blocks hf
  obtain ⟨hW, ht, ho, _⟩ := hf
  have hs0 : (copy (makeBytes 16) ((randRead rnd 0 17).take 16)) = (randRead rnd 0 17).take 16 :=
    copy_full _ _ (by simp [makeBytes, randRead_length])
  have hs1 : (copy (makeBytes 16) (randRead rnd 17 16)) = randRead rnd 17 16 :=
    copy_full _ _ (by simp [makeBytes, randRead_length])
  have rows : ∀ p, 0 ≤ p → p < 0 + f.NumBits →
      ∃ r, (List.replicate f.NumBits (makeBytes 18))[p]? = some r ∧ r.length = 18 := by
    intro p _ hp
    refine ⟨makeBytes 18, ?_, by simp [makeBytes]⟩
    rw [List.getElem?_replicate, if_pos (by omega)]
  obtain ⟨st, hl, c0, c1, fin, ht1, ho1⟩ := genLoop_ok W hW f a hbs f.NumBits 0
    { sCurr0 := (randRead rnd 0 17).take 16, sCurr1 := randRead rnd 17 16,
      tCurr0 := rnd 16 % 2, tCurr1 := rnd 16 % 2 ^^^ 1,
      CW0 := List.replicate f.NumBits (makeBytes 18),
      CW1 := List.replicate f.NumBits (makeBytes 18), Temp := f.Temp, Out := f.Out }
    (by simp [randRead_length]) (by simp [randRead_length]) ht ho rows rows
  have hlen := genRun_length f.FixedBlocks (bitsOf W f a) f.NumBits 0 (genInit rnd)
  have fillCW : ∀ l : List (List Byte),
      (∀ p, l[p]? = if 0 ≤ p ∧ p < 0 + f.NumBits then
          (genRun f.FixedBlocks (bitsOf W f a) f.NumBits 0 (genInit rnd)).1[p - 0]?
        else (List.replicate f.NumBits (makeBytes 18))[p]?) →
      l = (genRun f.FixedBlocks (bitsOf W f a) f.NumBits 0 (genInit rnd)).1 := by
    intro l h
    apply List.ext_getElem?
    intro p
    rw [h p]
    by_cases hp : p < f.NumBits
    · rw [if_pos ⟨Nat.zero_le _, by omega⟩, Nat.sub_zero]
    · rw [if_neg (by omega), List.getElem?_replicate, if_neg hp,
        List.getElem?_eq_none (by omega)]
  have e0 := fillCW st.CW0 c0
  have e1 := fillCW st.CW1 c1
  have lens := genRun_snd_length f.FixedBlocks (bitsOf W f a) f.NumBits 0 (genInit rnd)
    (by simp [genInit, randRead_length]) (by simp [genInit, randRead_length])
  have fin0 : st.sCurr0 = (genRun f.FixedBlocks (bitsOf W f a) f.NumBits 0 (genInit rnd)).2.1.1 :=
    congrArg (fun q => q.1.1) fin
  have fin1 : st.sCurr1 = (genRun f.FixedBlocks (bitsOf W f a) f.NumBits 0 (genInit rnd)).2.2.1 :=
    congrArg (fun q => q.2.1) fin
  have fin2 : st.tCurr1 = (genRun f.FixedBlocks (bitsOf W f a) f.NumBits 0 (genInit rnd)).2.2.2 :=
    congrArg (fun q => q.2.2) fin
  have sl0 : sliceTo st.sCurr0 8 = .ok (st.sCurr0.take 8) := by
    unfold sliceTo; rw [if_pos (by rw [fin0, lens.1]; omega)]
  have sl1 : sliceTo st.sCurr1 8 = .ok (st.sCurr1.take 8) := by
    unfold sliceTo; rw [if_pos (by rw [fin1, lens.2]; omega)]
  have hsl : sliceTo (randRead rnd 0 17) 16 = .ok ((randRead rnd 0 17).take 16) := by
    unfold sliceTo; rw [if_pos (by rw [randRead_length]; omega)]
  unfold GenerateTreePF
  simp only [bind, Except.bind, pure, Except.pure, BlockSize, Nat.reduceAdd, hsl,
    index_eq_ok _ _ _ (randRead_getElem? rnd 0 17 16 (by omega)), Nat.zero_add,
    makeslice_ok _ _ _ _ hA, genAlloc_loop, hs0, hs1, hl, sl0, sl1]
  refine ⟨_, rfl, rfl, rfl, rfl, rfl, e0, e1, ?_, rfl, ht1, ho1⟩
  unfold genFinalCW
  simp only [← fin0, ← fin1, ← fin2]

/-- Closed form of `EvaluatePF` on a well-formed context and a key with a
correction word of at least 18 bytes for every level. -/
theorem EvaluatePF_ok (W : Nat) (f : Fss) (hf : f.WellFormed W) (serverNum : Byte)
    (k : FssKeyEq2P) (x : Nat)
    (hk : ∀ p, p < f.NumBits → ∃ r, k.CW[p]? = some r ∧ 18 ≤ r.length) :
    ∃ r, EvaluatePF W f serverNum k x = .ok r ∧
      r.value = shareOf W serverNum
        (evalRun f.FixedBlocks (bitsOf W f x) (k.CW.take f.NumBits) 0
          (copy (makeBytes 16) k.SInit, k.TInit)) k.FinalCW ∧
      r.Temp.length = 16 ∧ r.Out.length = f.Out.length ∧
      r.printed.length = 2 * f.NumBits ∧
      ∀ j, j < f.NumBits → r.printed[2 * j]? = some (Printed.xBit (bitsOf W f x j)) ∧
        ∃ o, r.printed[2 * j + 1]? = some (Printed.fOut o) ∧ o.length = f.Out.length := by
  have hbs := Fss.WellFormed.blocks hf
  obtain ⟨hW, ht, ho, _⟩ := hf
  obtain ⟨st, tr, hl, e, ht1, ho1, hp, hlen, htr⟩ := evalLoop_ok W hW f k x hbs f.NumBits 0
    { sCurr := copy (makeBytes 16) k.SInit, tCurr := k.TInit, Temp := f.Temp, Out := f.Out,
      printed := [] }
    (by simp [copy, makeBytes]; omega) ht ho (fun p _ h => hk p (by omega))
  have es : st.sCurr = (evalRun f.FixedBlocks (bitsOf W f x) (k.CW.take f.NumBits) 0
      (copy (makeBytes 16) k.SInit, k.TInit)).1 := by
    have := congrArg (fun q => q.1) e
    simpa using this
  have et : st.tCurr = (evalRun f.FixedBlocks (bitsOf W f x) (k.CW.take f.NumBits) 0
      (copy (makeBytes 16) k.SInit, k.TInit)).2 := by
    have := congrArg (fun q => q.2) e
    simpa using this
  have hlen16 : st.sCurr.length = 16 := by
    rw [es]
    exact evalRun_length _ _ _ _ _ (by simp [copy, makeBytes]; omega)
  have sl : sliceTo st.sCurr 8 = .ok (st.sCurr.take 8) := by
    unfold sliceTo; rw [if_pos (by omega)]
  unfold EvaluatePF
  simp only [bind, Except.bind, pure, Except.pure, BlockSize, hl, sl]
  refine ⟨_, rfl, ?_, ht1, ho1, ?_, ?_⟩
  · unfold shareOf
    simp only [← es, ← et]
  · simp only [hp, List.nil_append, hlen]
  · intro j hj
    simp only [hp, List.nil_append]
    have := htr j hj
    rw [Nat.zero_add] at this
    exact this

/-! ## Reconstruction of the shared value -/

/-- On the path: complementary control bits make the two shares add up to `b`. -/
theorem shares_on_path (W : Nat) (b : Nat) (fin : (List Byte × Byte) × (List Byte × Byte))
    (h0 : IsBit fin.1.2) (h1 : IsBit fin.2.2) (h : fin.1.2 ^^^ fin.2.2 = 1) :
    wrapInt W (shareOf W 0 fin.1 (genFinalCW W b fin) + shareOf W 1 fin.2 (genFinalCW W b fin))
      = wrapInt W (b : Int) := by
  apply wrapInt_eq_of_cast
  have h10 : ¬ ((1 : Byte) = 0) := by decide
  have h01 : ¬ ((0 : Byte) = 1) := by decide
  rcases compl_cases h0 h1 h with ⟨e0, e1⟩ | ⟨e0, e1⟩
  · unfold shareOf genFinalCW
    rw [e0, e1]
    simp only [if_true, h10, if_false]
    push_cast [wrapInt_cast]
    simp
  · unfold shareOf genFinalCW
    rw [e0, e1]
    simp only [if_true, h10, h01, if_false]
    push_cast [wrapInt_cast]
    simp
    ring

/-- Off the path: equal states give shares that cancel. -/
theorem shares_off_path (W : Nat) (st : List Byte × Byte) (c : Int) :
    wrapInt W (shareOf W 0 st c + shareOf W 1 st c) = 0 := by
  rw [← wrapInt_zero W]
  apply wrapInt_eq_of_cast
  have h10 : ¬ ((1 : Byte) = 0) := by decide
  unfold shareOf
  simp only [if_true, h10, if_false]
  push_cast [wrapInt_cast]
  ring

/-- Evaluating, under an equally configured context, party `p`'s key of a
generated pair: closed form of the value. -/
theorem eval_generated (W : Nat) (f f0 : Fss) (h0 : f0.WellFormed W) (c0 : f0.SameConfig f)
    (serverNum : Byte) (k : FssKeyEq2P) (x : Nat) (rnd : Nat → Byte) (a : Nat)
    (st : List Byte × Byte) (hst : st.1.length = 16) (hS : k.SInit = st.1) (hT : k.TInit = st.2)
    (hCW : k.CW = (genRun f.FixedBlocks (bitsOf W f a) f.NumBits 0 (genInit rnd)).1) :
    ∃ r, EvaluatePF W f0 serverNum k x = .ok r ∧
      r.value = shareOf W serverNum
        (evalRun f.FixedBlocks (bitsOf W f x)
          (genRun f.FixedBlocks (bitsOf W f a) f.NumBits 0 (genInit rnd)).1 0 st) k.FinalCW := by
  obtain ⟨cb, cn, cN⟩ := c0
  obtain ⟨r, hr, hv, _⟩ := EvaluatePF_ok W f0 h0 serverNum k x (by
    intro p hp
    rw [hCW]
    obtain ⟨row, e1, e2⟩ := genRun_rows f.FixedBlocks (bitsOf W f a) f.NumBits 0 (genInit rnd) p
      (by omega)
    exact ⟨row, e1, by omega⟩)
  refine ⟨r, hr, ?_⟩
  rw [hv, cb, bitsOf_congr W f f0 cn cN, cn, hCW,
    List.take_of_length_le (by rw [genRun_length]), hS, hT,
    copy_full _ _ (by simp [makeBytes, hst])]

/-- The two shares of a generated pair, evaluated at `x` under equally
configured contexts, add up to `int(b)` when `x` and `a` agree on their
`NumBits` low bits, and to 0 otherwise. -/
theorem shares_sum (W : Nat) (f f0 f1 : Fss) (hf : f.WellFormed W) (h0 : f0.WellFormed W)
    (h1 : f1.WellFormed W) (c0 : f0.SameConfig f) (c1 : f1.SameConfig f)
    (hN : f.NumBits ≤ f.N) (hNW : f.N ≤ W) (rnd : Nat → Byte) (a b x : Nat) :
    ∃ g r0 r1, GenerateTreePF W f rnd a b = .ok g ∧
      EvaluatePF W f0 0 g.key0 x = .ok r0 ∧ EvaluatePF W f1 1 g.key1 x = .ok r1 ∧
      wrapInt W (r0.value + r1.value) =
        if a % 2 ^ f.NumBits = x % 2 ^ f.NumBits then wrapInt W (b : Int) else 0 := by
  obtain ⟨g, hg, s0, t0, s1, t1, cw0, cw1, fcw, fcw1, _, _⟩ :=
    GenerateTreePF_ok W f hf (Fss.allocatable_of_le W f hf.1 (by omega)) rnd a b
  obtain ⟨r0, hr0, v0⟩ := eval_generated W f f0 h0 c0 0 g.key0 x rnd a (genInit rnd).1
    (genInit_lengths rnd).1 s0 t0 cw0
  obtain ⟨r1, hr1, v1⟩ := eval_generated W f f1 h1 c1 1 g.key1 x rnd a (genInit rnd).2
    (genInit_lengths rnd).2 s1 t1 cw1
  obtain ⟨b0, b1, bc⟩ := genInit_bits rnd
  refine ⟨g, r0, r1, hg, hr0, hr1, ?_⟩
  rw [v0, v1, fcw1, fcw]
  by_cases hax : a % 2 ^ f.NumBits = x % 2 ^ f.NumBits
  · rw [if_pos hax]
    have hb := (bits_agree_iff W f a x hN hNW).mp hax
    obtain ⟨e0, e1, i0, i1, ic⟩ := run_on_path f.FixedBlocks (bitsOf W f a) (bitsOf W f x)
      (isBit_bitsOf W f a) f.NumBits 0 (genInit rnd).1 (genInit rnd).2 b0 b1 bc
      (fun j _ hj => hb j (by omega))
    rw [e0, e1]
    exact shares_on_path W b _ i0 i1 ic
  · rw [if_neg hax]
    have hb : ∃ j, 0 ≤ j ∧ j < 0 + f.NumBits ∧ bitsOf W f x j ≠ bitsOf W f a j := by
      by_contra hcon
      apply hax
      apply (bits_agree_iff W f a x hN hNW).mpr
      intro j hj
      by_contra hne
      exact hcon ⟨j, Nat.zero_le _, by omega, hne⟩
    have e := run_off_path f.FixedBlocks (bitsOf W f a) (bitsOf W f x)
      (isBit_bitsOf W f a) (isBit_bitsOf W f x) f.NumBits 0 (genInit rnd).1 (genInit rnd).2
      b0 b1 bc hb
    rw [e]
    exact shares_off_path W _ _

/-! ## Independence of the scratch contents -/

theorem ExceptRel.bind {α β γ δ : Type} {R : α → β → Prop} {Q : γ → δ → Prop}
    {a : Except Panic α} {b : Except Panic β} {f : α → Except Panic γ}
    {g : β → Except Panic δ} (h : ExceptRel R a b)
    (hfg : ∀ x y, R x y → ExceptRel Q (f x) (g y)) :
    ExceptRel Q (a >>= f) (b >>= g) := by
  cases a with
  | error e =>
    cases b with
    | error e1 => exact h
    | ok y => exact absurd h (by simp [ExceptRel])
  | ok x =>
    cases b with
    | error e1 => exact absurd h (by simp [ExceptRel])
    | ok y => exact hfg x y h

theorem ExceptRel.of_eq {α : Type} {R : α → α → Prop} (a : Except Panic α)
    (h : ∀ x, R x x) : ExceptRel R a a := by
  cases a with
  | error e => rfl
  | ok x => exact h x

theorem forLoop_rel {σ τ : Type} (b1 : Nat → σ → Except Panic σ)
    (b2 : Nat → τ → Except Panic τ) (R : Nat → σ → τ → Prop) :
    ∀ (n lo : Nat) (s : σ) (t : τ), R lo s t →
      (∀ i s t, lo ≤ i → i < lo + n → R i s t → ExceptRel (R (i + 1)) (b1 i s) (b2 i t)) →
      ExceptRel (R (lo + n)) (forLoop b1 n lo s) (forLoop b2 n lo t) := by
  intro n
  induction n with
  | zero => intro lo s t h _; exact h
  | succ n ih =>
    intro lo s t h hstep
    have h1 := hstep lo s t (Nat.le_refl _) (by omega) h
    simp only [forLoop]
    cases hb1 : b1 lo s with
    | error e =>
      cases hb2 : b2 lo t with
      | error e1 => rw [hb1, hb2] at h1; exact h1
      | ok y => rw [hb1, hb2] at h1; exact absurd h1 (by simp [ExceptRel])
    | ok x =>
      cases hb2 : b2 lo t with
      | error e1 => rw [hb1, hb2] at h1; exact absurd h1 (by simp [ExceptRel])
      | ok y =>
        rw [hb1, hb2] at h1
        have := ih (lo + 1) x y h1 (fun i s t hi hlt => hstep i s t (by omega) (by omega))
        have e : lo + (n + 1) = lo + 1 + n := by omega
        rw [e]
        exact this

theorem prfInner_ge (W : Nat) (x temp out : List Byte) (i j : Nat) (hx : x.length = 16)
    (hj : 16 ≤ j) : prfInner W x temp i j out = .error .indexOutOfRange := by
  unfold prfInner
  have hxj : index x j = .error .indexOutOfRange := by
    unfold index; rw [List.getElem?_eq_none (by omega)]
  cases ht : index temp j with
  | error e => rw [index_error temp j e ht]
  | ok v => simp only [hxj]

theorem store_rel (o1 o2 : List Byte) (idx : Nat) (v : Byte) (K : Nat) (hK : idx = K)
    (hl : o1.length = o2.length) (hag : ∀ p, p < K → o1[p]? = o2[p]?) :
    ExceptRel (fun a b => a.length = b.length ∧ ∀ p, p < K + 1 → a[p]? = b[p]?)
      (store o1 idx v) (store o2 idx v) := by
  unfold store
  by_cases h : idx < o1.length
  · rw [if_pos h, if_pos (by omega)]
    refine ⟨by simp [hl], ?_⟩
    intro p hp
    rw [List.getElem?_set, List.getElem?_set]
    by_cases hip : idx = p
    · rw [if_pos hip, if_pos hip, if_pos h, if_pos (by omega)]
    · rw [if_neg hip, if_neg hip]
      exact hag p (by omega)
  · rw [if_neg h, if_neg (by omega)]
    rfl

theorem prfInner_rel (W : Nat) (hW : 32 ≤ W) (x t1 t2 : List Byte) (i : Nat) (hi : i < 3)
    (hx : x.length = 16) (ht : ∀ p, p < 16 → t1[p]? = t2[p]?) (j : Nat) (o1 o2 : List Byte)
    (hl : o1.length = o2.length) (hag : ∀ p, p < 16 * i + j → o1[p]? = o2[p]?) :
    ExceptRel (fun a b => a.length = b.length ∧ ∀ p, p < 16 * i + (j + 1) → a[p]? = b[p]?)
      (prfInner W x t1 i j o1) (prfInner W x t2 i j o2) := by
  by_cases hj : j < 16
  · have hP := two_pow_ge W hW
    have hidx : uadd W (umul W i BlockSize) j = 16 * i + j := by
      unfold uadd umul BlockSize
      have e1 : i * 16 % 2 ^ W = i * 16 := Nat.mod_eq_of_lt (by omega)
      rw [e1, Nat.mod_eq_of_lt (by omega)]
      omega
    unfold prfInner
    rw [index_congr t1 t2 j (ht j hj), hidx]
    cases index t2 j with
    | error e => rfl
    | ok v =>
      cases index x j with
      | error e => rfl
      | ok w => exact store_rel o1 o2 (16 * i + j) _ (16 * i + j) rfl hl hag
  · rw [prfInner_ge W x t1 o1 i j hx (by omega), prfInner_ge W x t2 o2 i j hx (by omega)]
    rfl

theorem encryptAt_rel (bs : List (Option Block)) (i : Nat) (x t1 t2 : List Byte)
    (hx : x.length = 16) (hl : t1.length = t2.length) :
    ExceptRel (fun a b => a.length = b.length ∧ 16 ≤ a.length ∧ ∀ p, p < 16 → a[p]? = b[p]?)
      (encryptAt bs i t1 x) (encryptAt bs i t2 x) := by
  unfold encryptAt
  cases index bs i with
  | error e => rfl
  | ok o =>
    cases o with
    | none => rfl
    | some blk =>
      simp only [Block.Encrypt, BlockSize, hx, Nat.lt_irrefl, if_false]
      by_cases h : t1.length < 16
      · rw [if_pos h, if_pos (by omega)]; rfl
      · rw [if_neg h, if_neg (by omega)]
        refine ⟨by simp [hl], by simp [blk.enc_length], ?_⟩
        intro p hp
        rw [List.getElem?_append_left (by rw [blk.enc_length]; exact hp),
          List.getElem?_append_left (by rw [blk.enc_length]; exact hp)]

/-- Two calls of `prf` on the same 16-byte input and ciphers, with scratch
buffers of the same lengths, agree: same panic, or outputs that coincide on
their first 48 bytes. -/
theorem prf_rel (W : Nat) (hW : 32 ≤ W) (bs : List (Option Block)) (x : List Byte)
    (hx : x.length = 16) (t1 t2 o1 o2 : List Byte) (ht : t1.length = t2.length)
    (ho : o1.length = o2.length) :
    ExceptRel (fun a b => a.1.length = b.1.length ∧ a.2.length = b.2.length ∧
        ∀ p, p < 48 → a.2[p]? = b.2[p]?)
      (prf W x bs 3 t1 o1) (prf W x bs 3 t2 o2) := by
  unfold prf
  rw [if_neg (by unfold initPRFLen; omega), if_neg (by unfold initPRFLen; omega)]
  have key := forLoop_rel (prfOuter W x bs) (prfOuter W x bs)
    (fun i a b => a.1.length = b.1.length ∧ a.2.length = b.2.length ∧
      ∀ p, p < 16 * i → a.2[p]? = b.2[p]?)
    3 0 (t1, o1) (t2, o2) ⟨ht, ho, fun p hp => absurd hp (by omega)⟩ ?_
  · exact key
  · intro i a b _ hi ⟨h1, h2, h3⟩
    unfold prfOuter
    have he := encryptAt_rel bs i x a.1 b.1 hx h1
    cases e1 : encryptAt bs i a.1 x with
    | error e =>
      cases e2 : encryptAt bs i b.1 x with
      | error e' => rw [e1, e2] at he; exact he
      | ok v => rw [e1, e2] at he; exact absurd he (by simp [ExceptRel])
    | ok u =>
      cases e2 : encryptAt bs i b.1 x with
      | error e' => rw [e1, e2] at he; exact absurd he (by simp [ExceptRel])
      | ok v =>
        rw [e1, e2] at he
        obtain ⟨g1, g2, g3⟩ := he
        simp only
        have inner := forLoop_rel (prfInner W x u i) (prfInner W x v i)
          (fun j q1 q2 => q1.length = q2.length ∧ ∀ p, p < 16 * i + j → q1[p]? = q2[p]?)
          u.length 0 a.2 b.2 ⟨h2, fun p hp => h3 p (by omega)⟩
          (fun j q1 q2 _ _ ⟨k1, k2⟩ => prfInner_rel W hW x u v i (by omega) hx g3 j q1 q2 k1 k2)
        rw [← g1]
        cases q1 : forLoop (prfInner W x u i) u.length 0 a.2 with
        | error e =>
          cases q2 : forLoop (prfInner W x v i) u.length 0 b.2 with
          | error e' => rw [q1, q2] at inner; exact inner
          | ok d => rw [q1, q2] at inner; exact absurd inner (by simp [ExceptRel])
        | ok w1 =>
          cases q2 : forLoop (prfInner W x v i) u.length 0 b.2 with
          | error e' => rw [q1, q2] at inner; exact absurd inner (by simp [ExceptRel])
          | ok w2 =>
            rw [q1, q2] at inner
            obtain ⟨k1, k2⟩ := inner
            exact ⟨g1, k1, fun p hp => k2 p (by omega)⟩

theorem store_agree (o1 o2 : List Byte) (j : Nat) (v : Byte) (K : Nat)
    (hl : o1.length = o2.length) (hag : ∀ p, p < K → o1[p]? = o2[p]?) :
    ExceptRel (fun a b => a.length = b.length ∧ ∀ p, p < K → a[p]? = b[p]?)
      (store o1 j v) (store o2 j v) := by
  unfold store
  by_cases h : j < o1.length
  · rw [if_pos h, if_pos (show j < o2.length by omega)]
    refine ⟨by simp [hl], ?_⟩
    intro p hp
    rw [List.getElem?_set, List.getElem?_set]
    by_cases hjp : j = p
    · rw [if_pos hjp, if_pos hjp, if_pos h, if_pos (show j < o2.length by omega)]
    · rw [if_neg hjp, if_neg hjp]; exact hag p hp
  · rw [if_neg h, if_neg (show ¬ j < o2.length by omega)]
    rfl

theorem evalInner_rel (t : Byte) (CW : List (List Byte)) (i j : Nat) (hj : j < 48)
    (s1 s2 : Nat × List Byte) (hc : s1.1 = s2.1) (hl : s1.2.length = s2.2.length)
    (hag : ∀ p, p < 48 → s1.2[p]? = s2.2[p]?) :
    ExceptRel (fun a b => a.1 = b.1 ∧ a.2.length = b.2.length ∧
        ∀ p, p < 48 → a.2[p]? = b.2[p]?)
      (evalInner t CW i j s1) (evalInner t CW i j s2) := by
  unfold evalInner
  rw [index_congr s1.2 s2.2 j (hag j hj), hc]
  apply ExceptRel.bind (ExceptRel.of_eq (R := Eq) _ (fun _ => rfl))
  intro o o1 e
  subst e
  apply ExceptRel.bind (ExceptRel.of_eq (R := Eq) _ (fun _ => rfl))
  intro row row1 e
  subst e
  apply ExceptRel.bind (ExceptRel.of_eq (R := Eq) _ (fun _ => rfl))
  intro w w1 e
  subst e
  apply ExceptRel.bind (store_agree s1.2 s2.2 j _ 48 hl hag)
  intro a b ⟨k1, k2⟩
  exact ⟨rfl, k1, k2⟩

/-- Relation between two states of the loop of `EvaluatePF` that differ only
in the contents of the scratch buffers (and in what was printed). -/
theorem evalBody_rel (W : Nat) (hW : 32 ≤ W) (f : Fss) (k : FssKeyEq2P) (x i : Nat)
    (st1 st2 : EvalState) (hs : st1.sCurr = st2.sCurr) (hlen : st1.sCurr.length = 16)
    (ht : st1.tCurr = st2.tCurr) (hT : st1.Temp.length = st2.Temp.length)
    (hO : st1.Out.length = st2.Out.length) :
    ExceptRel (fun a b => a.sCurr = b.sCurr ∧ a.sCurr.length = 16 ∧ a.tCurr = b.tCurr ∧
        a.Temp.length = b.Temp.length ∧ a.Out.length = b.Out.length)
      (evalBody W f k x i st1) (evalBody W f k x i st2) := by
  unfold evalBody
  rw [← hs, ← ht]
  apply ExceptRel.bind (prf_rel W hW f.FixedBlocks st1.sCurr hlen _ _ _ _ hT hO)
  intro r1 r2 ⟨a1, a2, a3⟩
  have inner := forLoop_rel (evalInner st1.tCurr k.CW i) (evalInner st1.tCurr k.CW i)
    (fun _ u v => u.1 = v.1 ∧ u.2.length = v.2.length ∧ ∀ p, p < 48 → u.2[p]? = v.2[p]?)
    (BlockSize * 2 + 2) 0 (0, r1.2) (0, r2.2) ⟨rfl, a2, a3⟩
    (fun j u v _ hj ⟨k1, k2, k3⟩ =>
      evalInner_rel st1.tCurr k.CW i j (by simp only [BlockSize] at hj; omega) u v k1 k2 k3)
  apply ExceptRel.bind inner
  intro u v ⟨_, b2, b3⟩
  have e16 : u.2.take 16 = v.2.take 16 := take_eq_of_agree u.2 v.2 16 48 (by omega) b3
  have e33 : u.2.take 33 = v.2.take 33 := take_eq_of_agree u.2 v.2 33 48 (by omega) b3
  simp only [BlockSize]
  split
  · have hsl : sliceTo u.2 16 = sliceTo v.2 16 := by
      unfold sliceTo; rw [b2, e16]
    rw [hsl, index_congr u.2 v.2 16 (b3 16 (by omega))]
    cases sliceTo v.2 16 with
    | error e => rfl
    | ok w =>
      cases index v.2 16 with
      | error e => rfl
      | ok z => exact ⟨rfl, by rw [copy_length]; exact hlen, rfl, a1, b2⟩
  · have hsl : slice u.2 (16 + 1) (16 * 2 + 1) = slice v.2 (16 + 1) (16 * 2 + 1) := by
      unfold slice; rw [b2, e33]
    rw [hsl, index_congr u.2 v.2 (16 * 2 + 1) (b3 _ (by omega))]
    cases slice v.2 (16 + 1) (16 * 2 + 1) with
    | error e => rfl
    | ok w =>
      cases index v.2 (16 * 2 + 1) with
      | error e => rfl
      | ok z => exact ⟨rfl, by rw [copy_length]; exact hlen, rfl, a1, b2⟩

/-- The value returned by `EvaluatePF` (or its panic) does not depend on what
`Temp` and `Out` hold before the call, only on their lengths. -/
theorem eval_scratch_free (W : Nat) (hW : 32 ≤ W) (f g : Fss) (serverNum : Byte)
    (k : FssKeyEq2P) (x : Nat) (hb : g.FixedBlocks = f.FixedBlocks)
    (hn : g.NumBits = f.NumBits) (hN : g.N = f.N) (hT : g.Temp.length = f.Temp.length)
    (hO : g.Out.length = f.Out.length) :
    valueOf (EvaluatePF W g serverNum k x) = valueOf (EvaluatePF W f serverNum k x) := by
  have key : ExceptRel (fun a b => a.value = b.value)
      (EvaluatePF W g serverNum k x) (EvaluatePF W f serverNum k x) := by
    unfold EvaluatePF
    have body1 : evalBody W g k x = evalBody W f k x := by
      funext i a
      unfold evalBody
      rw [hb, hn, hN]
    rw [body1, hn]
    have loop := forLoop_rel (evalBody W f k x) (evalBody W f k x)
      (fun _ a b => a.sCurr = b.sCurr ∧ a.sCurr.length = 16 ∧ a.tCurr = b.tCurr ∧
        a.Temp.length = b.Temp.length ∧ a.Out.length = b.Out.length)
      f.NumBits 0
      { sCurr := copy (makeBytes BlockSize) k.SInit, tCurr := k.TInit, Temp := g.Temp,
        Out := g.Out, printed := [] }
      { sCurr := copy (makeBytes BlockSize) k.SInit, tCurr := k.TInit, Temp := f.Temp,
        Out := f.Out, printed := [] }
      ⟨rfl, by rw [copy_length]; simp [makeBytes, BlockSize], rfl, hT, hO⟩
      (fun i a b _ _ ⟨k1, k2, k3, k4, k5⟩ => evalBody_rel W hW f k x i a b k1 k2 k3 k4 k5)
    apply ExceptRel.bind loop
    intro a b ⟨k1, _, k3, _, _⟩
    rw [k1, k3]
    cases sliceTo b.sCurr 8 with
    | error e => rfl
    | ok w => rfl
  unfold valueOf
  cases h1 : EvaluatePF W g serverNum k x with
  | error e =>
    cases h2 : EvaluatePF W f serverNum k x with
    | error e' => rw [h1, h2] at key; simp only; rw [show e = e' from key]
    | ok b => rw [h1, h2] at key; exact absurd key (by simp [ExceptRel])
  | ok a =>
    cases h2 : EvaluatePF W f serverNum k x with
    | error e' => rw [h1, h2] at key; exact absurd key (by simp [ExceptRel])
    | ok b => rw [h1, h2] at key; simp only; rw [show a.value = b.value from key]

theorem encryptAt_length (bs : List (Option Block)) (i : Nat) (t x u : List Byte)
    (h : encryptAt bs i t x = .ok u) : u.length = t.length := by
  unfold encryptAt at h
  cases hq : index bs i with
  | error e => rw [hq] at h; exact absurd h (by simp)
  | ok o =>
    rw [hq] at h
    cases o with
    | none => exact absurd h (by simp)
    | some blk =>
      simp only [Block.Encrypt, BlockSize] at h
      split at h
      · exact absurd h (by simp)
      · split at h
        · exact absurd h (by simp)
        · injection h with h
          rw [← h, List.length_append, blk.enc_length, List.length_drop]
          omega

theorem prf_lengths (W : Nat) (bs : List (Option Block)) (x t o : List Byte)
    (r : List Byte × List Byte) (h : prf W x bs 3 t o = .ok r) :
    r.1.length = t.length ∧ r.2.length = o.length := by
  unfold prf at h
  rw [if_neg (by unfold initPRFLen; omega)] at h
  refine forLoop_preserve (prfOuter W x bs)
    (fun s => s.1.length = t.length ∧ s.2.length = o.length) ?_ 3 0 (t, o) r ⟨rfl, rfl⟩ h
  intro i s s1 ⟨h1, h2⟩ hb
  unfold prfOuter at hb
  cases he : encryptAt bs i s.1 x with
  | error e => rw [he] at hb; exact absurd hb (by simp)
  | ok u =>
    rw [he] at hb
    simp only at hb
    cases hl : forLoop (prfInner W x u i) u.length 0 s.2 with
    | error e => rw [hl] at hb; exact absurd hb (by simp)
    | ok w =>
      rw [hl] at hb
      injection hb with hb
      rw [← hb]
      refine ⟨by rw [encryptAt_length bs i s.1 x u he, h1], ?_⟩
      refine forLoop_preserve (prfInner W x u i) (fun q => q.length = o.length) ?_
        u.length 0 s.2 w h2 hl
      intro j q q1 hq hs
      unfold prfInner at hs
      cases a1 : index u j with
      | error e => rw [a1] at hs; exact absurd hs (by simp)
      | ok tj =>
        rw [a1] at hs
        cases a2 : index x j with
        | error e => rw [a2] at hs; exact absurd hs (by simp)
        | ok xj =>
          rw [a2] at hs
          rw [store_length _ _ _ _ hs, hq]

theorem evalInner_length (t : Byte) (CW : List (List Byte)) (i j : Nat)
    (s s1 : Nat × List Byte) (h : evalInner t CW i j s = .ok s1) :
    s1.2.length = s.2.length := by
  unfold evalInner at h
  obtain ⟨o, _, h⟩ := bind_ok _ _ _ h
  obtain ⟨row, _, h⟩ := bind_ok _ _ _ h
  obtain ⟨w, _, h⟩ := bind_ok _ _ _ h
  obtain ⟨out, hs, h⟩ := bind_ok _ _ _ h
  injection h with h
  rw [← h]
  exact store_length _ _ _ _ hs

theorem evalBody_lengths (W : Nat) (f : Fss) (k : FssKeyEq2P) (x i : Nat)
    (st st1 : EvalState) (h : evalBody W f k x i st = .ok st1) :
    st1.Temp.length = st.Temp.length ∧ st1.Out.length = st.Out.length := by
  unfold evalBody at h
  obtain ⟨r, hr, h⟩ := bind_ok _ _ _ h
  obtain ⟨u, hu, h⟩ := bind_ok _ _ _ h
  obtain ⟨r1, r2⟩ := prf_lengths W f.FixedBlocks st.sCurr st.Temp st.Out r hr
  have hu2 : u.2.length = r.2.length :=
    forLoop_preserve (evalInner st.tCurr k.CW i) (fun q => q.2.length = r.2.length)
      (fun j q q1 hq hs => by
        show q1.2.length = r.2.length
        rw [evalInner_length _ _ _ _ _ _ hs]; exact hq)
      (BlockSize * 2 + 2) 0 (0, r.2) u rfl hu
  dsimp only at h
  split at h
  · obtain ⟨_, _, h⟩ := bind_ok _ _ _ h
    obtain ⟨_, _, h⟩ := bind_ok _ _ _ h
    injection h with h
    rw [← h]
    exact ⟨r1, by rw [hu2, r2]⟩
  · obtain ⟨_, _, h⟩ := bind_ok _ _ _ h
    obtain ⟨_, _, h⟩ := bind_ok _ _ _ h
    injection h with h
    rw [← h]
    exact ⟨r1, by rw [hu2, r2]⟩

/-- A call of `EvaluatePF` that returns leaves the scratch buffers with the
lengths they had. -/
theorem EvaluatePF_lengths (W : Nat) (f : Fss) (serverNum : Byte) (k : FssKeyEq2P) (x : Nat)
    (r : EvalResult) (h : EvaluatePF W f serverNum k x = .ok r) :
    r.Temp.length = f.Temp.length ∧ r.Out.length = f.Out.length := by
  unfold EvaluatePF at h
  obtain ⟨st, hst, h⟩ := bind_ok _ _ _ h
  obtain ⟨_, _, h⟩ := bind_ok _ _ _ h
  injection h with h
  rw [← h]
  exact forLoop_preserve (evalBody W f k x)
    (fun q => q.Temp.length = f.Temp.length ∧ q.Out.length = f.Out.length)
    (fun i q q1 ⟨h1, h2⟩ hs => by
      obtain ⟨e1, e2⟩ := evalBody_lengths W f k x i q q1 hs
      exact ⟨by rw [e1, h1], by rw [e2, h2]⟩)
    f.NumBits 0 _ st ⟨rfl, rfl⟩ hst

/-! ## The initialisers -/

theorem copy_make_eq_padKey (key : List Byte) : copy (makeBytes 16) key = padKey key := by
  unfold copy padKey makeBytes
  rw [List.length_replicate, List.drop_replicate]

theorem padKey_length (key : List Byte) : (padKey key).length = 16 := by
  unfold padKey
  simp only [List.length_append, List.length_take, List.length_replicate]
  omega

theorem padKey_of_length (key : List Byte) (h : key.length = 16) : padKey key = key := by
  unfold padKey
  rw [List.take_of_length_le (by omega), h]
  simp

theorem NewCipher_padKey (aes : List Byte → Block) (key : List Byte) :
    NewCipher aes (padKey key) = .ok (aes (padKey key)) := by
  unfold NewCipher
  rw [if_pos (Or.inl (padKey_length key))]

theorem NewCipher_randRead (aes : List Byte → Block) (rnd : Nat → Byte) (pos : Nat) :
    NewCipher aes (randRead rnd pos 16) = .ok (aes (randRead rnd pos 16)) := by
  unfold NewCipher
  rw [if_pos (Or.inl (randRead_length rnd pos 16))]

/-- Closed form of `ClientInitialize`: it always returns a context. -/
theorem ClientInitialize_ok (W : Nat) (aes : List Byte → Block) (rnd : Nat → Byte)
    (numBits : Nat) :
    ClientInitialize W aes rnd numBits = .ok
      { PrfKeys := [randRead rnd 0 16, randRead rnd 16 16, randRead rnd 32 16,
          randRead rnd 48 16],
        FixedBlocks := [some (aes (randRead rnd 0 16)), some (aes (randRead rnd 16 16)),
          some (aes (randRead rnd 32 16)), some (aes (randRead rnd 48 16))],
        M := 4, N := wordBits W, NumBits := numBits, Temp := makeBytes 16,
        Out := makeBytes 64 } := by
  unfold ClientInitialize
  simp [forLoop, clientInitBody, initPRFLen, BlockSize, store, index, bind, Except.bind,
    pure, Except.pure, NewCipher_randRead]

/-- Closed form of `ServerInitialize` on at most four keys of any lengths. -/
theorem ServerInitialize_ok (W : Nat) (aes : List Byte → Block) (prfKeys : List (List Byte))
    (numBits : Nat) (h : prfKeys.length ≤ 4) :
    ServerInitialize W aes prfKeys numBits = .ok
      { PrfKeys := prfKeys.map padKey ++ List.replicate (4 - prfKeys.length) [],
        FixedBlocks := prfKeys.map (fun key => some (aes (padKey key)))
          ++ List.replicate (4 - prfKeys.length) none,
        M := 4, N := wordBits W, NumBits := numBits, Temp := makeBytes 16,
        Out := makeBytes 64 } := by
  unfold ServerInitialize
  match prfKeys, h with
  | [], _ =>
    simp [forLoop, initPRFLen, BlockSize, bind, Except.bind, pure, Except.pure]
  | [k0], _ =>
    simp [forLoop, serverInitBody, initPRFLen, BlockSize, store, index, bind, Except.bind,
      pure, Except.pure, copy_make_eq_padKey, NewCipher_padKey]
  | [k0, k1], _ =>
    simp [forLoop, serverInitBody, initPRFLen, BlockSize, store, index, bind, Except.bind,
      pure, Except.pure, copy_make_eq_padKey, NewCipher_padKey]
  | [k0, k1, k2], _ =>
    simp [forLoop, serverInitBody, initPRFLen, BlockSize, store, index, bind, Except.bind,
      pure, Except.pure, copy_make_eq_padKey, NewCipher_padKey]
  | [k0, k1, k2, k3], _ =>
    simp [forLoop, serverInitBody, initPRFLen, BlockSize, store, index, bind, Except.bind,
      pure, Except.pure, copy_make_eq_padKey, NewCipher_padKey]
  | _ :: _ :: _ :: _ :: _ :: _, h => simp at h

/-- With more than four keys `ServerInitialize` fails on the fifth, with an
index out of range. -/
theorem ServerInitialize_many (W : Nat) (aes : List Byte → Block)
    (prfKeys : List (List Byte)) (numBits : Nat) (h : 4 < prfKeys.length) :
    ServerInitialize W aes prfKeys numBits = .error .indexOutOfRange := by
  unfold ServerInitialize
  match prfKeys, h with
  | [], h => simp at h
  | [_], h => simp at h
  | [_, _], h => simp at h
  | [_, _, _], h => simp at h
  | [_, _, _, _], h => simp at h
  | k0 :: k1 :: k2 :: k3 :: k4 :: rest, _ =>
    simp [forLoop, serverInitBody, initPRFLen, BlockSize, store, index, bind, Except.bind,
      pure, Except.pure, copy_make_eq_padKey, NewCipher_padKey]

/-! ## Claims C1 to C10 -/

/-- C1 (point-function correctness at the point). For a well-formed context `f`
with `NumBits ≤ N` (and `N` at most the width of the word), any cipher
functions, any random stream and any `a`, `b`:
`GenerateTreePF(a, b)` returns a key pair, both evaluations at `a` (under
contexts configured like `f`, whatever their scratch contents) return, and the
two shares add up to `int(b)` in wrapping `int` arithmetic.  The bound
`a < 2 ^ NumBits` of the domain is not needed at the point itself. -/
theorem pf_correct_at_point (W : Nat) (f f0 f1 : Fss) (hf : f.WellFormed W)
    (h0 : f0.WellFormed W) (h1 : f1.WellFormed W) (c0 : f0.SameConfig f)
    (c1 : f1.SameConfig f) (hN : f.NumBits ≤ f.N) (hNW : f.N ≤ W) (rnd : Nat → Byte)
    (a b : Nat) :
    ∃ g r0 r1, GenerateTreePF W f rnd a b = .ok g ∧
      EvaluatePF W f0 0 g.key0 a = .ok r0 ∧ EvaluatePF W f1 1 g.key1 a = .ok r1 ∧
      wrapInt W (r0.value + r1.value) = wrapInt W (b : Int) := by
  obtain ⟨g, r0, r1, hg, e0, e1, hs⟩ := shares_sum W f f0 f1 hf h0 h1 c0 c1 hN hNW rnd a b a
  rw [if_pos rfl] at hs
  exact ⟨g, r0, r1, hg, e0, e1, hs⟩

theorem pf_correct_at_point_witness :
    (sampleCtx 6).WellFormed 64 ∧ (sampleCtx 6).NumBits ≤ (sampleCtx 6).N ∧
      (sampleCtx 6).N ≤ 64 ∧
      ∃ g r0 r1, GenerateTreePF 64 (sampleCtx 6) sampleRnd 5 3 = .ok g ∧
        EvaluatePF 64 (sampleCtx 6) 0 g.key0 5 = .ok r0 ∧
        EvaluatePF 64 (sampleCtx 6) 1 g.key1 5 = .ok r1 ∧
        wrapInt 64 (r0.value + r1.value) = 3 :=
  ⟨by decide, by decide, by decide, by
    have h := pf_correct_at_point 64 (sampleCtx 6) (sampleCtx 6) (sampleCtx 6) (by decide)
      (by decide) (by decide) ⟨rfl, rfl, rfl⟩ ⟨rfl, rfl, rfl⟩ (by decide) (by decide)
      sampleRnd 5 3
    rw [wrapInt_three] at h
    exact h⟩

/-- C2 (point-function correctness off the point). For a well-formed context
`f` with `NumBits ≤ N` (and `N` at most the width of the word), any cipher
functions, any random stream, any `b` and any `a`, `x` in `[0, 2 ^ NumBits)`
with `x ≠ a`: `GenerateTreePF(a, b)` returns a key pair, both evaluations at
`x` (under contexts configured like `f`, whatever their scratch contents)
return, and the two shares add up to 0 in wrapping `int` arithmetic. -/
theorem pf_correct_off_point (W : Nat) (f f0 f1 : Fss) (hf : f.WellFormed W)
    (h0 : f0.WellFormed W) (h1 : f1.WellFormed W) (c0 : f0.SameConfig f)
    (c1 : f1.SameConfig f) (hN : f.NumBits ≤ f.N) (hNW : f.N ≤ W) (rnd : Nat → Byte)
    (a b x : Nat) (ha : a < 2 ^ f.NumBits) (hx : x < 2 ^ f.NumBits) (hne : x ≠ a) :
    ∃ g r0 r1, GenerateTreePF W f rnd a b = .ok g ∧
      EvaluatePF W f0 0 g.key0 x = .ok r0 ∧ EvaluatePF W f1 1 g.key1 x = .ok r1 ∧
      wrapInt W (r0.value + r1.value) = 0 := by
  obtain ⟨g, r0, r1, hg, e0, e1, hs⟩ := shares_sum W f f0 f1 hf h0 h1 c0 c1 hN hNW rnd a b x
  rw [Nat.mod_eq_of_lt ha, Nat.mod_eq_of_lt hx, if_neg (fun e => hne e.symm)] at hs
  exact ⟨g, r0, r1, hg, e0, e1, hs⟩

theorem pf_correct_off_point_witness :
    (sampleCtx 6).WellFormed 64 ∧ (sampleCtx 6).NumBits ≤ (sampleCtx 6).N ∧
      (sampleCtx 6).N ≤ 64 ∧ 5 < 2 ^ (sampleCtx 6).NumBits ∧
      37 < 2 ^ (sampleCtx 6).NumBits ∧ 37 ≠ 5 ∧
      ∃ g r0 r1, GenerateTreePF 64 (sampleCtx 6) sampleRnd 5 3 = .ok g ∧
        EvaluatePF 64 (sampleCtx 6) 0 g.key0 37 = .ok r0 ∧
        EvaluatePF 64 (sampleCtx 6) 1 g.key1 37 = .ok r1 ∧
        wrapInt 64 (r0.value + r1.value) = 0 :=
  ⟨by decide, by decide, by decide, by decide, by decide, by decide,
    pf_correct_off_point 64 (sampleCtx 6) (sampleCtx 6) (sampleCtx 6) (by decide)
      (by decide) (by decide) ⟨rfl, rfl, rfl⟩ ⟨rfl, rfl, rfl⟩ (by decide) (by decide)
      sampleRnd 5 3 37
      (by decide) (by decide) (by decide)⟩

/-- C3, refuted as stated: with `NumBits = 6`, `N = 64`, `a' = 5`, `x' = 3`
pre-shifted to the top six bits (`a = 5 * 2 ^ 58`, `x = 3 * 2 ^ 58`) and
`b = 3`, the two shares add up to 3, not to 0, although `x' ≠ a'`: the code
reads the six low bits, which are zero in both words. -/
theorem top_bits_counterexample :
    ∃ g r0 r1, GenerateTreePF 64 (sampleCtx 6) sampleRnd (5 * 2 ^ 58) 3 = .ok g ∧
      EvaluatePF 64 (sampleCtx 6) 0 g.key0 (3 * 2 ^ 58) = .ok r0 ∧
      EvaluatePF 64 (sampleCtx 6) 1 g.key1 (3 * 2 ^ 58) = .ok r1 ∧
      wrapInt 64 (r0.value + r1.value) = 3 ∧ wrapInt 64 (r0.value + r1.value) ≠ 0 := by
  obtain ⟨g, r0, r1, hg, e0, e1, hs⟩ := shares_sum 64 (sampleCtx 6) (sampleCtx 6) (sampleCtx 6)
    (by decide) (by decide) (by decide) ⟨rfl, rfl, rfl⟩ ⟨rfl, rfl, rfl⟩ (by decide) (by decide)
    sampleRnd (5 * 2 ^ 58) 3 (3 * 2 ^ 58)
  have hm : (5 * 2 ^ 58) % 2 ^ (sampleCtx 6).NumBits
      = (3 * 2 ^ 58) % 2 ^ (sampleCtx 6).NumBits := by
    decide
  rw [if_pos hm, wrapInt_three] at hs
  exact ⟨g, r0, r1, hg, e0, e1, hs, by rw [hs]; decide⟩

/-- C3, amended: `GenerateTreePF` and `EvaluatePF` compare `a` and `x` on the
`NumBits` least-significant bits of the word.  For a well-formed context with
`NumBits ≤ N` (and `N` at most the width of the word) and any words `a`, `x`,
the two shares of `GenerateTreePF(a, b)` evaluated at `x` add up to `int(b)`
when `a` and `x` agree modulo `2 ^ NumBits`, and to 0 when they do not; no
shift is applied to `a` or `x`. -/
theorem low_bits_window (W : Nat) (f f0 f1 : Fss) (hf : f.WellFormed W)
    (h0 : f0.WellFormed W) (h1 : f1.WellFormed W) (c0 : f0.SameConfig f)
    (c1 : f1.SameConfig f) (hN : f.NumBits ≤ f.N) (hNW : f.N ≤ W) (rnd : Nat → Byte)
    (a b x : Nat) :
    ∃ g r0 r1, GenerateTreePF W f rnd a b = .ok g ∧
      EvaluatePF W f0 0 g.key0 x = .ok r0 ∧ EvaluatePF W f1 1 g.key1 x = .ok r1 ∧
      (a % 2 ^ f.NumBits = x % 2 ^ f.NumBits →
        wrapInt W (r0.value + r1.value) = wrapInt W (b : Int)) ∧
      (a % 2 ^ f.NumBits ≠ x % 2 ^ f.NumBits → wrapInt W (r0.value + r1.value) = 0) := by
  obtain ⟨g, r0, r1, hg, e0, e1, hs⟩ := shares_sum W f f0 f1 hf h0 h1 c0 c1 hN hNW rnd a b x
  refine ⟨g, r0, r1, hg, e0, e1, ?_, ?_⟩
  · intro h; rw [hs, if_pos h]
  · intro h; rw [hs, if_neg h]

theorem low_bits_window_witness :
    (sampleCtx 6).WellFormed 64 ∧ (sampleCtx 6).NumBits ≤ (sampleCtx 6).N ∧
      (sampleCtx 6).N ≤ 64 ∧
      ∃ g r0 r1, GenerateTreePF 64 (sampleCtx 6) sampleRnd 5 3 = .ok g ∧
        EvaluatePF 64 (sampleCtx 6) 0 g.key0 69 = .ok r0 ∧
        EvaluatePF 64 (sampleCtx 6) 1 g.key1 69 = .ok r1 ∧
        (5 % 2 ^ (sampleCtx 6).NumBits = 69 % 2 ^ (sampleCtx 6).NumBits →
          wrapInt 64 (r0.value + r1.value) = wrapInt 64 ((3 : Nat) : Int)) ∧
        (5 % 2 ^ (sampleCtx 6).NumBits ≠ 69 % 2 ^ (sampleCtx 6).NumBits →
          wrapInt 64 (r0.value + r1.value) = 0) :=
  ⟨by decide, by decide, by decide,
    low_bits_window 64 (sampleCtx 6) (sampleCtx 6) (sampleCtx 6) (by decide)
      (by decide) (by decide) ⟨rfl, rfl, rfl⟩ ⟨rfl, rfl, rfl⟩ (by decide) (by decide)
      sampleRnd 5 3 69⟩

/-- C4: for words `value`, `N` of the platform (`uint`s) and `pos ≤ N`, in
particular for every position `1 ≤ pos ≤ N`, `getBit(value, pos, N)` equals
`(value >> (N - pos)) & 1`; it is 1 exactly when that bit of `value` is set,
position 1 being the most significant bit of an `N`-bit word and position `N`
the least significant; and the result is always 0 or 1. -/
theorem getBit_msb_first (W n pos N : Nat) (hn : n < 2 ^ W) (hN : N < 2 ^ W)
    (hle : pos ≤ N) :
    (getBit W n pos N).val = (n >>> (N - pos)) &&& 1 ∧
      (getBit W n pos N = 1 ↔ n.testBit (N - pos) = true) ∧
      (getBit W n pos N = 0 ∨ getBit W n pos N = 1) := by
  have hs : usub W N pos = N - pos := usub_eq W N pos hle hN
  have ht : n.testBit (N - pos) = decide (n / 2 ^ (N - pos) % 2 = 1) :=
    Nat.testBit_to_div_mod
  have e : getBit W n pos N = if n.testBit (N - pos) then 1 else 0 := by
    by_cases hw : N - pos < W
    · exact getBit_eq_testBit W n pos N (N - pos) hs hw
    · have hz : n.testBit (N - pos) = false :=
        Nat.testBit_lt_two_pow
          (Nat.lt_of_lt_of_le hn (Nat.pow_le_pow_right (by decide) (by omega)))
      rw [getBit_eq_zero_of_le W n pos N (by omega), hz]
      rfl
  refine ⟨?_, ?_, isBit_getBit W n pos N⟩
  · rw [e, Nat.and_one_is_mod, Nat.shiftRight_eq_div_pow]
    rcases Nat.mod_two_eq_zero_or_one (n / 2 ^ (N - pos)) with h | h
    · rw [h] at ht ⊢; rw [ht]; rfl
    · rw [h] at ht ⊢; rw [ht]; rfl
  · rw [e]
    cases n.testBit (N - pos) <;> simp

theorem getBit_msb_first_witness :
    (5 < 2 ^ 64 ∧ 64 < 2 ^ 64 ∧ 62 ≤ 64) ∧
      ((getBit 64 5 62 64).val = (5 >>> (64 - 62)) &&& 1 ∧
        (getBit 64 5 62 64 = 1 ↔ Nat.testBit 5 (64 - 62) = true) ∧
        (getBit 64 5 62 64 = 0 ∨ getBit 64 5 62 64 = 1)) ∧
      (getBit 64 5 59 64 = 0 ∧ getBit 64 5 60 64 = 0 ∧ getBit 64 5 61 64 = 0 ∧
        getBit 64 5 62 64 = 1 ∧ getBit 64 5 63 64 = 0 ∧ getBit 64 5 64 64 = 1) :=
  ⟨by decide, getBit_msb_first 64 5 62 64 (by decide) (by decide) (by decide), by decide⟩

/-- C5: `prf` is the Matyas-Meyer-Oseas expansion.  For a 16-byte input `x`,
`numBlocks ≤ 4`, a slice holding at least `numBlocks` non-nil ciphers, a
16-byte `temp` and an `out` of at least `16 * numBlocks` bytes (as the context
allocates them), whatever `temp` and `out` hold: the call returns, and
afterwards `out[16*i + j] = Encrypt_i(x)[j] XOR x[j]` for all `i < numBlocks`,
`j < 16`, while every byte of `out` from `16 * numBlocks` on is unchanged (so
`numBlocks = 3` fixes exactly the first 48 bytes). -/
theorem prf_is_mmo (W : Nat) (hW : 32 ≤ W) (x temp out : List Byte)
    (aesBlocks : List (Option Block)) (numBlocks : Nat) (hx : x.length = 16)
    (hn : numBlocks ≤ 4)
    (hbl : ∀ i, i < numBlocks → (aesBlocks.getD i none).isSome = true)
    (ht : temp.length = 16) (ho : 16 * numBlocks ≤ out.length) :
    ∃ r, prf W x aesBlocks numBlocks temp out = .ok r ∧ r.2.length = out.length ∧
      (∀ i j b, i < numBlocks → j < 16 → aesBlocks[i]? = some (some b) →
        r.2[16 * i + j]? = some ((b.enc x).getD j 0 ^^^ x.getD j 0)) ∧
      (∀ p, 16 * numBlocks ≤ p → r.2[p]? = out[p]?) := by
  obtain ⟨r, hr, _, h2, h3⟩ := prf_ok W hW aesBlocks x temp out numBlocks hn hx ht ho
    (blocks_of_isSome aesBlocks numBlocks hbl)
  refine ⟨r, hr, h2, ?_, ?_⟩
  · intro i j b hi hj hb
    rw [h3, if_pos (by omega)]
    unfold mmoByte
    have e1 : (16 * i + j) / 16 = i := by omega
    have e2 : (16 * i + j) % 16 = j := by omega
    rw [e1, e2, hb, List.take_of_length_le (by omega)]
  · intro p hp
    rw [h3, if_neg (by omega)]

theorem prf_is_mmo_witness :
    (32 ≤ 64 ∧ (makeBytes 16).length = 16 ∧ 3 ≤ 4 ∧
        (∀ i, i < 3 → ((sampleCtx 6).FixedBlocks.getD i none).isSome = true) ∧
        (sampleCtx 6).Temp.length = 16 ∧ 16 * 3 ≤ (sampleCtx 6).Out.length) ∧
      ∃ r, prf 64 (makeBytes 16) (sampleCtx 6).FixedBlocks 3 (sampleCtx 6).Temp
          (sampleCtx 6).Out = .ok r ∧
        r.2.length = (sampleCtx 6).Out.length ∧
        (∀ i j b, i < 3 → j < 16 → (sampleCtx 6).FixedBlocks[i]? = some (some b) →
          r.2[16 * i + j]? = some ((b.enc (makeBytes 16)).getD j 0 ^^^ (makeBytes 16).getD j 0)) ∧
        (∀ p, 16 * 3 ≤ p → r.2[p]? = (sampleCtx 6).Out[p]?) :=
  ⟨by decide,
    prf_is_mmo 64 (by decide) (makeBytes 16) (sampleCtx 6).Temp (sampleCtx 6).Out
      (sampleCtx 6).FixedBlocks 3 (by decide) (by decide) (by decide) (by decide) (by decide)⟩

/-- C6 (key-share invariants). For a well-formed context whose `NumBits`
correction words can be allocated and every `a`, `b`, random stream and
cipher functions, `GenerateTreePF` returns two keys that
both carry exactly `NumBits` correction words of 18 bytes each, equal byte
for byte at every level, with the same `FinalCW`, and with initial control
bits that are bits and complements of each other. -/
theorem key_share_invariants (W : Nat) (f : Fss) (hf : f.WellFormed W)
    (hA : f.Allocatable W) (rnd : Nat → Byte) (a b : Nat) :
    ∃ g, GenerateTreePF W f rnd a b = .ok g ∧
      g.key0.CW.length = f.NumBits ∧ g.key1.CW.length = f.NumBits ∧
      (∀ i, i < f.NumBits → ∃ r0 r1, g.key0.CW[i]? = some r0 ∧ g.key1.CW[i]? = some r1 ∧
        r0.length = 18 ∧ r1.length = 18 ∧ r0 = r1) ∧
      g.key0.FinalCW = g.key1.FinalCW ∧
      (g.key0.TInit = 0 ∨ g.key0.TInit = 1) ∧ g.key1.TInit = g.key0.TInit ^^^ 1 := by
  obtain ⟨g, hg, _, t0, _, t1, cw0, cw1, _, fcw1, _, _⟩ := GenerateTreePF_ok W f hf hA rnd a b
  refine ⟨g, hg, by rw [cw0, genRun_length], by rw [cw1, genRun_length], ?_, fcw1.symm, ?_, ?_⟩
  · intro i hi
    obtain ⟨r, e1, e2⟩ := genRun_rows f.FixedBlocks (bitsOf W f a) f.NumBits 0 (genInit rnd) i hi
    exact ⟨r, r, by rw [cw0, e1], by rw [cw1, e1], e2, e2, rfl⟩
  · rw [t0]; exact isBit_mod_two _
  · rw [t1, t0]; rfl

theorem key_share_invariants_witness :
    (sampleCtx 6).WellFormed 64 ∧ (sampleCtx 6).Allocatable 64 ∧
      ∃ g, GenerateTreePF 64 (sampleCtx 6) sampleRnd 5 3 = .ok g ∧
        g.key0.CW.length = (sampleCtx 6).NumBits ∧ g.key1.CW.length = (sampleCtx 6).NumBits ∧
        (∀ i, i < (sampleCtx 6).NumBits → ∃ r0 r1, g.key0.CW[i]? = some r0 ∧
          g.key1.CW[i]? = some r1 ∧ r0.length = 18 ∧ r1.length = 18 ∧ r0 = r1) ∧
        g.key0.FinalCW = g.key1.FinalCW ∧
        (g.key0.TInit = 0 ∨ g.key0.TInit = 1) ∧ g.key1.TInit = g.key0.TInit ^^^ 1 :=
  ⟨by decide, by decide,
    key_share_invariants 64 (sampleCtx 6) (by decide) (by decide) sampleRnd 5 3⟩

/-- C7 (idempotent evaluation). On a platform whose word has at least 32 bits,
for every context, party, key and `x`: replacing the contents of `Temp` and
`Out` by any other contents of the same lengths changes neither the integer
that `EvaluatePF` returns nor whether (and how) it panics; hence a call that
returns `r1`, repeated on the scratch buffers that it has overwritten, returns
the same integer. -/
theorem eval_scratch_independent (W : Nat) (hW : 32 ≤ W) (f : Fss) (serverNum : Byte)
    (k : FssKeyEq2P) (x : Nat) :
    (∀ temp out : List Byte, temp.length = f.Temp.length → out.length = f.Out.length →
      valueOf (EvaluatePF W { f with Temp := temp, Out := out } serverNum k x)
        = valueOf (EvaluatePF W f serverNum k x)) ∧
    (∀ r1, EvaluatePF W f serverNum k x = .ok r1 →
      ∃ r2, EvaluatePF W { f with Temp := r1.Temp, Out := r1.Out } serverNum k x = .ok r2 ∧
        r2.value = r1.value) := by
  constructor
  · intro temp out ht ho
    exact eval_scratch_free W hW f { f with Temp := temp, Out := out } serverNum k x
      rfl rfl rfl ht ho
  · intro r1 h1
    obtain ⟨e1, e2⟩ := EvaluatePF_lengths W f serverNum k x r1 h1
    have key := eval_scratch_free W hW f { f with Temp := r1.Temp, Out := r1.Out }
      serverNum k x rfl rfl rfl e1 e2
    rw [h1] at key
    cases h2 : EvaluatePF W { f with Temp := r1.Temp, Out := r1.Out } serverNum k x with
    | error e => rw [h2] at key; exact absurd key (by simp [valueOf])
    | ok r2 =>
      rw [h2] at key
      simp only [valueOf] at key
      injection key with key
      exact ⟨r2, rfl, key⟩

theorem eval_scratch_independent_witness :
    32 ≤ 64 ∧
      (∀ temp out : List Byte, temp.length = (sampleCtx 1).Temp.length →
        out.length = (sampleCtx 1).Out.length →
        valueOf (EvaluatePF 64 { sampleCtx 1 with Temp := temp, Out := out } 1 sampleKey 0)
          = valueOf (EvaluatePF 64 (sampleCtx 1) 1 sampleKey 0)) ∧
      (∀ r1, EvaluatePF 64 (sampleCtx 1) 1 sampleKey 0 = .ok r1 →
        ∃ r2, EvaluatePF 64 { sampleCtx 1 with Temp := r1.Temp, Out := r1.Out } 1 sampleKey 0
            = .ok r2 ∧ r2.value = r1.value) :=
  ⟨by decide, eval_scratch_independent 64 (by decide) (sampleCtx 1) 1 sampleKey 0⟩

/-- C8, refuted as stated: `ServerInitialize` given a single 5-byte key does
not abort; it returns a context whose first PRF key is the 5 bytes padded
with zeros to 16. -/
theorem server_init_short_key_accepted :
    ∃ c, ServerInitialize 64 sampleAes [[1, 2, 3, 4, 5]] 6 = .ok c ∧
      c.PrfKeys[0]? = some [1, 2, 3, 4, 5, 0, 0, 0, 0, 0, 0, 0, 0, 0, 0, 0] :=
  ⟨_, rfl, rfl⟩

/-- C8, amended: context construction never aborts with the cipher-construction
error, whatever the lengths of the supplied keys, because each key is first
copied into a fresh 16-byte buffer (truncated or padded with zeros); given at
most four keys of any lengths, `ServerInitialize` returns a context whose
`i`-th PRF key is that buffer and whose `i`-th cipher is derived from it. -/
theorem server_init_pads_keys (W : Nat) (aes : List Byte → Block)
    (prfKeys : List (List Byte)) (numBits : Nat) :
    (∀ n, ServerInitialize W aes prfKeys numBits ≠ .error (.keySizeError n)) ∧
    (prfKeys.length ≤ 4 →
      ∃ c, ServerInitialize W aes prfKeys numBits = .ok c ∧
        ∀ (i : Nat) (key : List Byte), prfKeys[i]? = some key →
          c.PrfKeys[i]? = some (padKey key) ∧
          c.FixedBlocks[i]? = some (some (aes (padKey key)))) := by
  constructor
  · intro n
    by_cases h : prfKeys.length ≤ 4
    · rw [ServerInitialize_ok W aes prfKeys numBits h]
      exact fun e => by injection e
    · rw [ServerInitialize_many W aes prfKeys numBits (by omega)]
      exact fun e => by injection e with e; injection e
  · intro h
    refine ⟨_, ServerInitialize_ok W aes prfKeys numBits h, ?_⟩
    intro i key hk
    have hi : i < prfKeys.length := (List.getElem?_eq_some.mp hk).1
    constructor
    · show (prfKeys.map padKey ++ _)[i]? = _
      rw [List.getElem?_append_left (by simpa using hi), List.getElem?_map, hk]
      rfl
    · show (prfKeys.map (fun key => some (aes (padKey key))) ++ _)[i]? = _
      rw [List.getElem?_append_left (by simpa using hi), List.getElem?_map, hk]
      rfl

theorem server_init_pads_keys_witness :
    (∀ n, ServerInitialize 64 sampleAes [[1, 2, 3, 4, 5]] 6 ≠ .error (.keySizeError n)) ∧
    ([[(1 : Byte), 2, 3, 4, 5]].length ≤ 4 →
      ∃ c, ServerInitialize 64 sampleAes [[1, 2, 3, 4, 5]] 6 = .ok c ∧
        ∀ (i : Nat) (key : List Byte), [[(1 : Byte), 2, 3, 4, 5]][i]? = some key →
          c.PrfKeys[i]? = some (padKey key) ∧
          c.FixedBlocks[i]? = some (some (sampleAes (padKey key)))) :=
  server_init_pads_keys 64 sampleAes [[1, 2, 3, 4, 5]] 6

/-- C9: for every outcome of the random key draws, `ClientInitialize(n)`
returns a context `c`, and `ServerInitialize(c.PrfKeys, n)` returns a context
`s` with the same `NumBits`, `N`, `M` and `PrfKeys`, whose cipher instances
are those of `c`, each derived from the corresponding key; so `EvaluatePF`
under `s` gives the same result as under `c` for every party, key and `x`,
also after the scratch buffers of `c` have been overwritten. -/
theorem server_context_equivalent (W : Nat) (hW : 32 ≤ W) (aes : List Byte → Block)
    (rnd : Nat → Byte) (n : Nat) :
    ∃ c s, ClientInitialize W aes rnd n = .ok c ∧
      ServerInitialize W aes c.PrfKeys n = .ok s ∧
      s.NumBits = c.NumBits ∧ s.N = c.N ∧ s.M = c.M ∧ s.PrfKeys = c.PrfKeys ∧
      s.FixedBlocks = c.FixedBlocks ∧
      (∀ (i : Nat) (key : List Byte), c.PrfKeys[i]? = some key → s.FixedBlocks[i]? = some (some (aes key))) ∧
      (∀ p k x, EvaluatePF W s p k x = EvaluatePF W c p k x) ∧
      (∀ p k x (temp out : List Byte), temp.length = c.Temp.length →
        out.length = c.Out.length →
        valueOf (EvaluatePF W s p k x)
          = valueOf (EvaluatePF W { c with Temp := temp, Out := out } p k x)) := by
  have hs := ServerInitialize_ok W aes
    [randRead rnd 0 16, randRead rnd 16 16, randRead rnd 32 16, randRead rnd 48 16] n
    (by simp)
  simp only [List.map, padKey_of_length _ (randRead_length rnd _ 16), List.length_cons,
    List.length_nil, Nat.reduceAdd, Nat.sub_self, List.replicate_zero, List.append_nil] at hs
  refine ⟨_, _, ClientInitialize_ok W aes rnd n, hs, rfl, rfl, rfl, rfl, rfl, ?_,
    fun _ _ _ => rfl, ?_⟩
  · intro i key hk
    match i, hk with
    | 0, hk => simp at hk; subst hk; rfl
    | 1, hk => simp at hk; subst hk; rfl
    | 2, hk => simp at hk; subst hk; rfl
    | 3, hk => simp at hk; subst hk; rfl
    | i + 4, hk => simp at hk
  · intro p k x temp out ht ho
    apply Eq.symm
    apply eval_scratch_free W hW
    exacts [rfl, rfl, rfl, ht, ho]

theorem server_context_equivalent_witness :
    32 ≤ 64 ∧
      ∃ c s, ClientInitialize 64 sampleAes sampleRnd 6 = .ok c ∧
        ServerInitialize 64 sampleAes c.PrfKeys 6 = .ok s ∧
        s.NumBits = c.NumBits ∧ s.N = c.N ∧ s.M = c.M ∧ s.PrfKeys = c.PrfKeys ∧
        s.FixedBlocks = c.FixedBlocks ∧
        (∀ (i : Nat) (key : List Byte), c.PrfKeys[i]? = some key → s.FixedBlocks[i]? = some (some (sampleAes key))) ∧
        (∀ p k x, EvaluatePF 64 s p k x = EvaluatePF 64 c p k x) ∧
        (∀ p k x (temp out : List Byte), temp.length = c.Temp.length →
          out.length = c.Out.length →
          valueOf (EvaluatePF 64 s p k x)
            = valueOf (EvaluatePF 64 { c with Temp := temp, Out := out } p k x)) :=
  ⟨by decide, server_context_equivalent 64 (by decide) sampleAes sampleRnd 6⟩

/-- C10, refuted as stated: evaluating a one-level key prints two records,
the query bit and the whole `Out` buffer (48 expansion bytes and the 16
untouched ones). -/
theorem eval_prints_example :
    ∃ r, EvaluatePF 64 (sampleCtx 1) 0 sampleKey 0 = .ok r ∧
      r.printed = [Printed.xBit 0,
        Printed.fOut (List.replicate 48 1 ++ List.replicate 16 0)] ∧
      r.printed ≠ [] :=
  ⟨_, rfl, by decide, by decide⟩

/-! ## States on entering a level -/

/-- The state in which `GenerateTreePF` leaves its main loop is the state on
entering level `NumBits`; the rest of the function decodes the final seeds. -/
theorem GenerateTreePF_eq_genEnter (W : Nat) (f : Fss) (rnd : Nat → Byte) (a b : Nat) :
    GenerateTreePF W f rnd a b = (genEnter W f rnd a f.NumBits >>= fun st => do
      let sFinal0 := (Varint (← sliceTo st.sCurr0 8)).1
      let sFinal1 := (Varint (← sliceTo st.sCurr1 8)).1
      let FinalCW := wrapInt W (wrapInt W (wrapInt W (b : Int) - wrapInt W sFinal0)
        + wrapInt W sFinal1)
      let FinalCW := if st.tCurr1 = 1 then wrapInt W (FinalCW * -1) else FinalCW
      pure { key0 := { SInit := (randRead rnd 0 (BlockSize + 1)).take BlockSize,
                       TInit := rnd 16 % 2, CW := st.CW0, FinalCW := FinalCW },
             key1 := { SInit := randRead rnd (BlockSize + 1) BlockSize,
                       TInit := rnd 16 % 2 ^^^ 1, CW := st.CW1, FinalCW := FinalCW },
             Temp := st.Temp, Out := st.Out }) := by
  have hsl : sliceTo (randRead rnd 0 (BlockSize + 1)) BlockSize
      = .ok ((randRead rnd 0 (BlockSize + 1)).take BlockSize) := by
    unfold sliceTo; rw [if_pos (by rw [randRead_length]; unfold BlockSize; omega)]
  have hix : index (randRead rnd 0 (BlockSize + 1)) BlockSize = .ok (rnd 16) :=
    index_eq_ok _ _ _ (by
      have := randRead_getElem? rnd 0 (BlockSize + 1) BlockSize (by omega)
      simpa [BlockSize] using this)
  unfold GenerateTreePF genEnter
  simp only [bind, Except.bind, pure, Except.pure, hsl, hix]
  cases makeslice W (sliceHeaderBytes W) f.NumBits ([] : List Byte) with
  | error e => rfl
  | ok cw =>
    simp only
    cases forLoop genAllocBody f.NumBits 0 (cw, cw) with
    | error e => rfl
    | ok cws => rfl

/-- The state in which `EvaluatePF` leaves its loop is the state on entering
level `NumBits`; the rest of the function computes the share from it. -/
theorem EvaluatePF_eq_evalEnter (W : Nat) (f : Fss) (serverNum : Byte) (k : FssKeyEq2P)
    (x : Nat) :
    EvaluatePF W f serverNum k x = (evalEnter W f k x f.NumBits >>= fun st => do
      let sFinal := (Varint (← sliceTo st.sCurr 8)).1
      let share := wrapInt W (wrapInt W sFinal
        + wrapInt W (wrapInt W ((st.tCurr.val : Nat) : Int) * k.FinalCW))
      let value := if serverNum = 0 then share else wrapInt W (-1 * share)
      pure { value := value, Temp := st.Temp, Out := st.Out, printed := st.printed }) := rfl

/-! ## The loops pass through the states on entering a level -/

/-- A loop of `n + m` iterations is its first `n` iterations followed by the
remaining `m`. -/
theorem forLoop_split {σ : Type} (body : Nat → σ → Except Panic σ) :
    ∀ n m lo s, forLoop body (n + m) lo s
      = (forLoop body n lo s >>= fun s1 => forLoop body m (lo + n) s1) := by
  intro n
  induction n with
  | zero => intro m lo s; rw [Nat.zero_add]; rfl
  | succ n ih =>
    intro m lo s
    rw [Nat.add_right_comm]
    simp only [forLoop]
    cases body lo s with
    | error e => rfl
    | ok s1 =>
      simp only
      rw [ih m (lo + 1) s1, Nat.add_assoc lo 1 n, Nat.add_comm 1 n]

/-- The main loop of `GenerateTreePF` passes through the state on entering
level `i`, for every `i ≤ NumBits`. -/
theorem genEnter_continue (W : Nat) (f : Fss) (rnd : Nat → Byte) (a i : Nat)
    (hi : i ≤ f.NumBits) :
    genEnter W f rnd a f.NumBits
      = (genEnter W f rnd a i >>= fun st => forLoop (genBody W f a) (f.NumBits - i) i st) := by
  have hn : f.NumBits = i + (f.NumBits - i) := by omega
  unfold genEnter
  simp only [bind, Except.bind]
  cases sliceTo (randRead rnd 0 (BlockSize + 1)) BlockSize with
  | error e => rfl
  | ok s0 =>
    simp only
    cases index (randRead rnd 0 (BlockSize + 1)) BlockSize with
    | error e => rfl
    | ok t0 =>
      simp only
      cases makeslice W (sliceHeaderBytes W) f.NumBits ([] : List Byte) with
      | error e => rfl
      | ok cw =>
        simp only
        cases forLoop genAllocBody f.NumBits 0 (cw, cw) with
        | error e => rfl
        | ok cws =>
          simp only
          conv => lhs; arg 2; rw [hn]
          rw [forLoop_split, Nat.zero_add]
          rfl

/-- The loop of `EvaluatePF` passes through the state on entering level `i`,
for every `i ≤ NumBits`. -/
theorem evalEnter_continue (W : Nat) (f : Fss) (k : FssKeyEq2P) (x i : Nat)
    (hi : i ≤ f.NumBits) :
    evalEnter W f k x f.NumBits
      = (evalEnter W f k x i >>= fun st => forLoop (evalBody W f k x) (f.NumBits - i) i st) := by
  have hn : f.NumBits = i + (f.NumBits - i) := by omega
  unfold evalEnter
  conv => lhs; arg 2; rw [hn]
  rw [forLoop_split, Nat.zero_add]

/-! ## Range of the machine integers -/

theorem two_pow_split (W : Nat) (hW : 1 ≤ W) : (2 : Int) ^ W = 2 * 2 ^ (W - 1) := by
  obtain ⟨n, rfl⟩ : ∃ n, W = n + 1 := ⟨W - 1, by omega⟩
  rw [pow_succ]; simp [Int.mul_comm]

/-- A wrapped value lies in the range of the `W`-bit signed integers. -/
theorem wrapInt_range (W : Nat) (hW : 1 ≤ W) (z : Int) :
    -2 ^ (W - 1) ≤ wrapInt W z ∧ wrapInt W z < 2 ^ (W - 1) := by
  have hs := two_pow_split W hW
  have hpos : (0 : Int) < 2 ^ (W - 1) := by positivity
  have hc : ((2 ^ W : Nat) : Int) = 2 ^ W := by push_cast; rfl
  have h1 := @Int.le_bmod z (2 ^ W) (by positivity)
  have h2 := @Int.bmod_lt z (2 ^ W) (by positivity)
  unfold wrapInt
  rw [hc, hs] at h1 h2
  constructor
  · omega
  · omega

/-- Wrapping leaves a value of the range unchanged. -/
theorem wrapInt_of_range (W : Nat) (hW : 1 ≤ W) (z : Int) (hlo : -2 ^ (W - 1) ≤ z)
    (hhi : z < 2 ^ (W - 1)) : wrapInt W z = z := by
  have hs := two_pow_split W hW
  have hpos : (0 : Int) < 2 ^ (W - 1) := by positivity
  have hc : ((2 ^ W : Nat) : Int) = 2 ^ W := by push_cast; rfl
  unfold wrapInt
  rw [Int.bmod_def, hc, hs]
  by_cases hz : 0 ≤ z
  · have e : z % (2 * 2 ^ (W - 1)) = z := Int.emod_eq_of_lt hz (by omega)
    rw [e, if_pos (by omega)]
  · have e : z % (2 * 2 ^ (W - 1)) = z + 2 * 2 ^ (W - 1) := by
      rw [← Int.add_mul_emod_self_left z (2 * 2 ^ (W - 1)) 1, Int.mul_one]
      exact Int.emod_eq_of_lt (by omega) (by omega)
    rw [e, if_neg (by omega)]
    omega

/-! ## Prefixes of the two runs -/

/-- Key generation over `n + m` levels is generation over `n` levels followed
by generation over `m` levels from the state reached. -/
theorem genRun_split (bs : List (Option Block)) (bits : Nat → Byte) :
    ∀ n m i st, genRun bs bits (n + m) i st =
      ((genRun bs bits n i st).1 ++ (genRun bs bits m (i + n) (genRun bs bits n i st).2).1,
        (genRun bs bits m (i + n) (genRun bs bits n i st).2).2) := by
  intro n
  induction n with
  | zero => intro m i st; simp [genRun]
  | succ n ih =>
    intro m i st
    rw [Nat.add_right_comm]
    simp only [genRun]
    rw [ih m (i + 1), Nat.add_assoc i 1 n, Nat.add_comm 1 n]
    rfl

/-- The correction words of the first `m` levels are those of a generation
stopped after `m` levels. -/
theorem genRun_take (bs : List (Option Block)) (bits : Nat → Byte) (n m i : Nat)
    (st : (List Byte × Byte) × (List Byte × Byte)) (hm : m ≤ n) :
    (genRun bs bits n i st).1.take m = (genRun bs bits m i st).1 := by
  obtain ⟨d, rfl⟩ : ∃ d, n = m + d := ⟨n - m, by omega⟩
  rw [genRun_split]
  exact List.take_left' (genRun_length bs bits m i st)

/-- The correction word of level `i + p` is computed from the seeds that the
parties hold after `p` levels. -/
theorem genRun_row (bs : List (Option Block)) (bits : Nat → Byte) (n p i : Nat)
    (st : (List Byte × Byte) × (List Byte × Byte)) (hp : p < n) :
    (genRun bs bits n i st).1[p]? =
      some (genRow bs (bits (i + p)) (genRun bs bits p i st).2.1.1
        (genRun bs bits p i st).2.2.1) := by
  obtain ⟨d, rfl⟩ : ∃ d, n = p + (d + 1) := ⟨n - p - 1, by omega⟩
  rw [genRun_split]
  simp only
  rw [List.getElem?_append_right (by rw [genRun_length]), genRun_length, Nat.sub_self]
  simp only [genRun, List.getElem?_cons_zero]

/-- Evaluation over a concatenation of correction words. -/
theorem evalRun_append (bs : List (Option Block)) (bits : Nat → Byte) :
    ∀ (r1 r2 : List (List Byte)) (i : Nat) (st : List Byte × Byte),
      evalRun bs bits (r1 ++ r2) i st
        = evalRun bs bits r2 (i + r1.length) (evalRun bs bits r1 i st) := by
  intro r1
  induction r1 with
  | nil => intro r2 i st; simp [evalRun]
  | cons r r1 ih =>
    intro r2 i st
    rw [List.cons_append]
    simp only [evalRun, List.length_cons]
    rw [ih, Nat.add_assoc i 1, Nat.add_comm 1]

/-! ## States on entering a level, in closed form -/

/-- On a well-formed context key generation reaches every level `i ≤ NumBits`,
in the state given by the closed form; the correction words of the earlier
levels are stored, and those of level `i` on are still the allocated zeros. -/
theorem genEnter_ok (W : Nat) (f : Fss) (hf : f.WellFormed W) (hA : f.Allocatable W)
    (rnd : Nat → Byte) (a i : Nat) (hi : i ≤ f.NumBits) :
    ∃ st, genEnter W f rnd a i = .ok st ∧
      ((st.sCurr0, st.tCurr0), (st.sCurr1, st.tCurr1)) =
        (genRun f.FixedBlocks (bitsOf W f a) i 0 (genInit rnd)).2 ∧
      st.sCurr0.length = 16 ∧ st.sCurr1.length = 16 ∧
      st.Temp.length = 16 ∧ st.Out.length = f.Out.length ∧
      (∀ p, p < i → st.CW0[p]? = (genRun f.FixedBlocks (bitsOf W f a) i 0 (genInit rnd)).1[p]?
        ∧ st.CW1[p]? = (genRun f.FixedBlocks (bitsOf W f a) i 0 (genInit rnd)).1[p]?) := by
  have hbs := Fss.WellFormed.blocks hf
  obtain ⟨hW, ht, ho, _⟩ := hf
  have hs0 : (copy (makeBytes 16) ((randRead rnd 0 17).take 16)) = (randRead rnd 0 17).take 16 :=
    copy_full _ _ (by simp [makeBytes, randRead_length])
  have hs1 : (copy (makeBytes 16) (randRead rnd 17 16)) = randRead rnd 17 16 :=
    copy_full _ _ (by simp [makeBytes, randRead_length])
  have rows : ∀ p, 0 ≤ p → p < 0 + i →
      ∃ r, (List.replicate f.NumBits (makeBytes 18))[p]? = some r ∧ r.length = 18 := by
    intro p _ hp
    refine ⟨makeBytes 18, ?_, by simp [makeBytes]⟩
    rw [List.getElem?_replicate, if_pos (by omega)]
  obtain ⟨st, hl, c0, c1, fin, ht1, ho1⟩ := genLoop_ok W hW f a hbs i 0
    { sCurr0 := (randRead rnd 0 17).take 16, sCurr1 := randRead rnd 17 16,
      tCurr0 := rnd 16 % 2, tCurr1 := rnd 16 % 2 ^^^ 1,
      CW0 := List.replicate f.NumBits (makeBytes 18),
      CW1 := List.replicate f.NumBits (makeBytes 18), Temp := f.Temp, Out := f.Out }
    (by simp [randRead_length]) (by simp [randRead_length]) ht ho rows rows
  have lens := genRun_snd_length f.FixedBlocks (bitsOf W f a) i 0 (genInit rnd)
    (by simp [genInit, randRead_length]) (by simp [genInit, randRead_length])
  have fin0 : st.sCurr0 = (genRun f.FixedBlocks (bitsOf W f a) i 0 (genInit rnd)).2.1.1 :=
    congrArg (fun q => q.1.1) fin
  have fin1 : st.sCurr1 = (genRun f.FixedBlocks (bitsOf W f a) i 0 (genInit rnd)).2.2.1 :=
    congrArg (fun q => q.2.1) fin
  have hsl : sliceTo (randRead rnd 0 17) 16 = .ok ((randRead rnd 0 17).take 16) := by
    unfold sliceTo; rw [if_pos (by rw [randRead_length]; omega)]
  refine ⟨st, ?_, fin, by rw [fin0]; exact lens.1, by rw [fin1]; exact lens.2, ht1, ho1, ?_⟩
  · unfold genEnter
    simp only [bind, Except.bind, pure, Except.pure, BlockSize, Nat.reduceAdd, hsl,
      index_eq_ok _ _ _ (randRead_getElem? rnd 0 17 16 (by omega)), Nat.zero_add,
      makeslice_ok _ _ _ _ hA, genAlloc_loop, hs0, hs1, hl]
  · intro p hp
    have e0 := c0 p
    have e1 := c1 p
    rw [if_pos ⟨Nat.zero_le _, by omega⟩, Nat.sub_zero] at e0 e1
    exact ⟨e0, e1⟩

/-- On a well-formed context, with a correction word of at least 18 bytes
for each of the first `i` levels, evaluation reaches level `i` in the state
given by the closed form. -/
theorem evalEnter_ok (W : Nat) (f : Fss) (hf : f.WellFormed W) (k : FssKeyEq2P) (x i : Nat)
    (hk : ∀ p, p < i → ∃ r, k.CW[p]? = some r ∧ 18 ≤ r.length) :
    ∃ st, evalEnter W f k x i = .ok st ∧
      (st.sCurr, st.tCurr) = evalRun f.FixedBlocks (bitsOf W f x) (k.CW.take i) 0
        (copy (makeBytes 16) k.SInit, k.TInit) ∧
      st.sCurr.length = 16 ∧ st.Temp.length = 16 ∧ st.Out.length = f.Out.length := by
  have hbs := Fss.WellFormed.blocks hf
  obtain ⟨hW, ht, ho, _⟩ := hf
  obtain ⟨st, tr, hl, e, ht1, ho1, _⟩ := evalLoop_ok W hW f k x hbs i 0
    { sCurr := copy (makeBytes 16) k.SInit, tCurr := k.TInit, Temp := f.Temp, Out := f.Out,
      printed := [] }
    (by simp [copy, makeBytes]; omega) ht ho (fun p _ h => hk p (by omega))
  have es : st.sCurr = (evalRun f.FixedBlocks (bitsOf W f x) (k.CW.take i) 0
      (copy (makeBytes 16) k.SInit, k.TInit)).1 := by
    have := congrArg (fun q => q.1) e
    simpa using this
  refine ⟨st, hl, by simpa using e, ?_, ht1, ho1⟩
  rw [es]
  exact evalRun_length _ _ _ _ _ (by simp [copy, makeBytes]; omega)

/-! ## Results from the final states -/

/-- The result of `EvaluatePF` from the state in which its loop ends. -/
theorem EvaluatePF_of_evalEnter (W : Nat) (f : Fss) (serverNum : Byte) (k : FssKeyEq2P)
    (x : Nat) (st : EvalState) (hst : evalEnter W f k x f.NumBits = .ok st)
    (hlen : 8 ≤ st.sCurr.length) :
    EvaluatePF W f serverNum k x = .ok
      { value :=
          if serverNum = 0 then
            wrapInt W (wrapInt W (Varint (st.sCurr.take 8)).1
              + wrapInt W (wrapInt W ((st.tCurr.val : Nat) : Int) * k.FinalCW))
          else
            wrapInt W (-1 * wrapInt W (wrapInt W (Varint (st.sCurr.take 8)).1
              + wrapInt W (wrapInt W ((st.tCurr.val : Nat) : Int) * k.FinalCW))),
        Temp := st.Temp, Out := st.Out, printed := st.printed } := by
  have sl : sliceTo st.sCurr 8 = .ok (st.sCurr.take 8) := by
    unfold sliceTo; rw [if_pos hlen]
  rw [EvaluatePF_eq_evalEnter, hst]
  simp only [bind, Except.bind, pure, Except.pure, sl]

/-- The keys of `GenerateTreePF` from the state in which its main loop ends. -/
theorem GenerateTreePF_of_genEnter (W : Nat) (f : Fss) (rnd : Nat → Byte) (a b : Nat)
    (st : GenState) (hst : genEnter W f rnd a f.NumBits = .ok st)
    (h0 : 8 ≤ st.sCurr0.length) (h1 : 8 ≤ st.sCurr1.length) :
    ∃ g, GenerateTreePF W f rnd a b = .ok g ∧
      g.key0.CW = st.CW0 ∧ g.key1.CW = st.CW1 ∧
      g.key0.FinalCW =
        (if st.tCurr1 = 1 then
          wrapInt W (wrapInt W (wrapInt W (wrapInt W (b : Int)
            - wrapInt W (Varint (st.sCurr0.take 8)).1)
            + wrapInt W (Varint (st.sCurr1.take 8)).1) * -1)
        else
          wrapInt W (wrapInt W (wrapInt W (b : Int) - wrapInt W (Varint (st.sCurr0.take 8)).1)
            + wrapInt W (Varint (st.sCurr1.take 8)).1)) ∧
      g.key1.FinalCW = g.key0.FinalCW := by
  have sl0 : sliceTo st.sCurr0 8 = .ok (st.sCurr0.take 8) := by
    unfold sliceTo; rw [if_pos h0]
  have sl1 : sliceTo st.sCurr1 8 = .ok (st.sCurr1.take 8) := by
    unfold sliceTo; rw [if_pos h1]
  rw [GenerateTreePF_eq_genEnter, hst]
  simp only [bind, Except.bind, pure, Except.pure, sl0, sl1]
  exact ⟨_, rfl, rfl, rfl, rfl, rfl⟩

/-! ## Position 0 of `getBit` -/

/-- At position 0 `getBit` returns 0 for every `N`-bit word, whatever its
most significant bit. -/
theorem getBit_zero_pos (W n N : Nat) (hN : N < 2 ^ W) (hn : n < 2 ^ N) :
    getBit W n 0 N = 0 := by
  have hs : usub W N 0 = N := usub_eq W N 0 (Nat.zero_le _) hN
  by_cases hw : N < W
  · rw [getBit_eq_testBit W n 0 N N hs hw, Nat.testBit_lt_two_pow hn]
    rfl
  · exact getBit_eq_zero_of_le W n 0 N (by omega)

/-! ## Claims C11, C13, C18 and C20 -/

/-- C11 (party 1 negates). In the `int` arithmetic of the platform, for every
context, key `k` and `x`, `EvaluatePF(1, k, x)` is the negation of
`EvaluatePF(0, k, x)` (both fail alike when one fails); and on a well-formed
context and key both calls return, `EvaluatePF(0, k, x)` being
`sFinal + tFinal * k.FinalCW` with `sFinal` the signed varint decoded from the
first 8 bytes of the seed and `tFinal` the control bit that the loop ends
with.  The negation is also the negation over the integers unless the share
of party 0 is the least `int`, which is its own negation. -/
theorem eval_party_one_negates (W : Nat) (f : Fss) (k : FssKeyEq2P) (x : Nat) :
    valueOf (EvaluatePF W f 1 k x)
        = (valueOf (EvaluatePF W f 0 k x)).map (fun v => wrapInt W (-v)) ∧
      (f.WellFormed W → k.WellFormed f.NumBits →
        ∃ st r0 r1, evalEnter W f k x f.NumBits = .ok st ∧
          EvaluatePF W f 0 k x = .ok r0 ∧ EvaluatePF W f 1 k x = .ok r1 ∧
          r0.value = wrapInt W ((Varint (st.sCurr.take 8)).1
            + ((st.tCurr.val : Nat) : Int) * k.FinalCW) ∧
          r1.value = wrapInt W (-r0.value) ∧
          (r0.value ≠ -2 ^ (W - 1) → r1.value = -r0.value)) := by
  have h10 : ¬ ((1 : Byte) = 0) := by decide
  constructor
  · rw [EvaluatePF_eq_evalEnter, EvaluatePF_eq_evalEnter]
    cases evalEnter W f k x f.NumBits with
    | error e => rfl
    | ok st =>
      simp only [bind, Except.bind, pure, Except.pure]
      cases sliceTo st.sCurr 8 with
      | error e => rfl
      | ok s8 =>
        simp only [valueOf, Except.map, if_true, h10, if_false, neg_one_mul]
  · intro hf hk
    obtain ⟨st, hst, _, hlen, _, _⟩ := evalEnter_ok W f hf k x f.NumBits
      (fun p hp => hk.rows p hp)
    have hW : 1 ≤ W := by have := hf.1; omega
    refine ⟨st, _, _, hst, EvaluatePF_of_evalEnter W f 0 k x st hst (by omega),
      EvaluatePF_of_evalEnter W f 1 k x st hst (by omega), ?_, ?_, ?_⟩
    · simp only [if_true]
      rw [← wrapInt_of_range W hW _ (wrapInt_range W hW _).1 (wrapInt_range W hW _).2]
      apply wrapInt_eq_of_cast
      push_cast [wrapInt_cast]
      rfl
    · simp only [if_true, h10, if_false, neg_one_mul]
    · intro hne
      simp only [if_true, h10, if_false, neg_one_mul] at hne ⊢
      have hr := wrapInt_range W hW (wrapInt W (Varint (List.take 8 st.sCurr)).1
        + wrapInt W (wrapInt W ((st.tCurr.val : Nat) : Int) * k.FinalCW))
      apply wrapInt_of_range W hW
      · omega
      · omega

theorem eval_party_one_negates_witness :
    (sampleCtx 1).WellFormed 64 ∧ sampleKey.WellFormed (sampleCtx 1).NumBits ∧
      ∃ st r0 r1, evalEnter 64 (sampleCtx 1) sampleKey 0 (sampleCtx 1).NumBits = .ok st ∧
        EvaluatePF 64 (sampleCtx 1) 0 sampleKey 0 = .ok r0 ∧
        EvaluatePF 64 (sampleCtx 1) 1 sampleKey 0 = .ok r1 ∧
        r0.value = wrapInt 64 ((Varint (st.sCurr.take 8)).1
          + ((st.tCurr.val : Nat) : Int) * sampleKey.FinalCW) ∧
        r1.value = wrapInt 64 (-r0.value) ∧
        (r0.value ≠ -2 ^ (64 - 1) → r1.value = -r0.value) :=
  ⟨by decide, by decide,
    (eval_party_one_negates 64 (sampleCtx 1) sampleKey 0).2 (by decide) (by decide)⟩

/-- C13 (private fields do not depend on the shared function). On a
well-formed context whose `NumBits` correction words can be allocated, for
every random stream and all `a`, `b`, `a'`, `b'`:
`GenerateTreePF(a, b)` and `GenerateTreePF(a', b')` return keys with the same
`SInit` and `TInit` for each party; `key0.SInit` is the first 16 bytes drawn,
`key0.TInit` the 17th byte modulo 2, `key1.SInit` the 16 bytes of the second
draw and `key1.TInit` the complement of `key0.TInit`.  The per-level updates
work on copies of the seeds and leave these fields as drawn. -/
theorem private_fields_independent (W : Nat) (f : Fss) (hf : f.WellFormed W)
    (hA : f.Allocatable W) (rnd : Nat → Byte) (a b a' b' : Nat) :
    ∃ g g', GenerateTreePF W f rnd a b = .ok g ∧ GenerateTreePF W f rnd a' b' = .ok g' ∧
      g.key0.SInit = g'.key0.SInit ∧ g.key0.TInit = g'.key0.TInit ∧
      g.key1.SInit = g'.key1.SInit ∧ g.key1.TInit = g'.key1.TInit ∧
      g.key0.SInit = (List.range 16).map rnd ∧ g.key0.TInit = rnd 16 % 2 ∧
      g.key1.SInit = (List.range 16).map (fun j => rnd (17 + j)) ∧
      g.key1.TInit = rnd 16 % 2 ^^^ 1 := by
  obtain ⟨g, hg, s0, t0, s1, t1, _⟩ := GenerateTreePF_ok W f hf hA rnd a b
  obtain ⟨g', hg', s0', t0', s1', t1', _⟩ := GenerateTreePF_ok W f hf hA rnd a' b'
  refine ⟨g, g', hg, hg', by rw [s0, s0'], by rw [t0, t0'], by rw [s1, s1'], by rw [t1, t1'],
    ?_, t0, s1, t1⟩
  rw [s0]
  simp [genInit, randRead, List.range_succ]

theorem private_fields_independent_witness :
    (sampleCtx 6).WellFormed 64 ∧ (sampleCtx 6).Allocatable 64 ∧
      ∃ g g', GenerateTreePF 64 (sampleCtx 6) sampleRnd 5 3 = .ok g ∧
        GenerateTreePF 64 (sampleCtx 6) sampleRnd 44 9 = .ok g' ∧
        g.key0.SInit = g'.key0.SInit ∧ g.key0.TInit = g'.key0.TInit ∧
        g.key1.SInit = g'.key1.SInit ∧ g.key1.TInit = g'.key1.TInit ∧
        g.key0.SInit = (List.range 16).map sampleRnd ∧ g.key0.TInit = sampleRnd 16 % 2 ∧
        g.key1.SInit = (List.range 16).map (fun j => sampleRnd (17 + j)) ∧
        g.key1.TInit = sampleRnd 16 % 2 ^^^ 1 :=
  ⟨by decide, by decide,
    private_fields_independent 64 (sampleCtx 6) (by decide) (by decide) sampleRnd 5 3 44 9⟩

/-- C18: `ServerInitialize(prfKeys, numBits)` fails exactly when more than
four keys are supplied, and then with an index out of range (on the fifth
key); given at most four keys of any lengths it returns a context with
`NumBits = numBits`, whose `i`-th PRF key is a 16-byte buffer holding the
supplied key truncated or padded with zeros, and whose `i`-th cipher is built
from that buffer, so the cipher-construction error cannot occur. -/
theorem server_init_fails_iff (W : Nat) (aes : List Byte → Block)
    (prfKeys : List (List Byte)) (numBits : Nat) :
    ((∃ e, ServerInitialize W aes prfKeys numBits = .error e) ↔ 4 < prfKeys.length) ∧
    (4 < prfKeys.length →
      ServerInitialize W aes prfKeys numBits = .error .indexOutOfRange) ∧
    (prfKeys.length ≤ 4 →
      ∃ s, ServerInitialize W aes prfKeys numBits = .ok s ∧ s.NumBits = numBits ∧
        s.PrfKeys.length = 4 ∧ s.FixedBlocks.length = 4 ∧
        ∀ (i : Nat) (key : List Byte), prfKeys[i]? = some key →
          ∃ buf, s.PrfKeys[i]? = some buf ∧ buf.length = 16 ∧
            buf = key.take 16 ++ List.replicate (16 - key.length) 0 ∧
            s.FixedBlocks[i]? = some (some (aes buf)) ∧
            NewCipher aes buf = .ok (aes buf)) := by
  refine ⟨⟨?_, ?_⟩, ServerInitialize_many W aes prfKeys numBits, ?_⟩
  · rintro ⟨e, he⟩
    by_contra hle
    rw [ServerInitialize_ok W aes prfKeys numBits (by omega)] at he
    injection he
  · intro h
    exact ⟨_, ServerInitialize_many W aes prfKeys numBits h⟩
  · intro h
    refine ⟨_, ServerInitialize_ok W aes prfKeys numBits h, rfl, ?_, ?_, ?_⟩
    · simp only [List.length_append, List.length_map, List.length_replicate]; omega
    · simp only [List.length_append, List.length_map, List.length_replicate]; omega
    · intro i key hk
      have hi : i < prfKeys.length := (List.getElem?_eq_some.mp hk).1
      refine ⟨padKey key, ?_, padKey_length key, rfl, ?_, NewCipher_padKey aes key⟩
      · show (prfKeys.map padKey ++ _)[i]? = _
        rw [List.getElem?_append_left (by simpa using hi), List.getElem?_map, hk]
        rfl
      · show (prfKeys.map (fun key => some (aes (padKey key))) ++ _)[i]? = _
        rw [List.getElem?_append_left (by simpa using hi), List.getElem?_map, hk]
        rfl

theorem server_init_fails_iff_witness :
    (4 < [[(1 : Byte)], [], [2, 3], [4], [5]].length →
      ServerInitialize 64 sampleAes [[1], [], [2, 3], [4], [5]] 6 = .error .indexOutOfRange) ∧
    ([[(1 : Byte), 2, 3, 4, 5], []].length ≤ 4 →
      ∃ s, ServerInitialize 64 sampleAes [[1, 2, 3, 4, 5], []] 6 = .ok s ∧ s.NumBits = 6 ∧
        s.PrfKeys.length = 4 ∧ s.FixedBlocks.length = 4 ∧
        ∀ (i : Nat) (key : List Byte), [[(1 : Byte), 2, 3, 4, 5], []][i]? = some key →
          ∃ buf, s.PrfKeys[i]? = some buf ∧ buf.length = 16 ∧
            buf = key.take 16 ++ List.replicate (16 - key.length) 0 ∧
            s.FixedBlocks[i]? = some (some (sampleAes buf)) ∧
            NewCipher sampleAes buf = .ok (sampleAes buf)) :=
  ⟨(server_init_fails_iff 64 sampleAes [[1], [], [2, 3], [4], [5]] 6).2.1,
    (server_init_fails_iff 64 sampleAes [[1, 2, 3, 4, 5], []] 6).2.2⟩

/-- C20, evaluated at the failing inputs: at position 0 `getBit` masks with
`1 << N`, a bit that no `N`-bit word has (and that is shifted out of the word
when `N` is the width of `uint`), so it returns 0 for words whose most
significant bit is 1: `1 << 63` with `N = 64`, `1 << 31` with `N = 32` on a
32-bit platform, and `0x80` with `N = 8`.  The most significant bit of the
word is read at position 1. -/
theorem getBit_position_zero :
    getBit 64 (2 ^ 63) 0 64 = 0 ∧ Nat.testBit (2 ^ 63) 63 = true ∧
      getBit 64 (2 ^ 63) 1 64 = 1 ∧
      getBit 32 (2 ^ 31) 0 32 = 0 ∧ getBit 32 (2 ^ 31) 1 32 = 1 ∧
      getBit 64 128 0 8 = 0 ∧ getBit 64 128 1 8 = 1 := by
  decide

/-! ## Totality after initialisation -/

/-- A context configured like the one returned by an initialiser given at
least three keys is well-formed whenever its scratch buffers have the
allocated sizes. -/
theorem wellFormed_of_sameConfig (W : Nat) (hW : 32 ≤ W) (f c : Fss) (hc : f.SameConfig c)
    (hb : ∀ i, i < 3 → (c.FixedBlocks.getD i none).isSome = true)
    (ht : f.Temp.length = 16) (ho : f.Out.length = 64) : f.WellFormed W :=
  ⟨hW, ht, by omega, by rw [hc.1]; exact hb⟩

/-- Without room for its correction words `GenerateTreePF` panics in
`make([][]byte, f.NumBits)`, whatever else the context holds. -/
theorem GenerateTreePF_unallocatable (W : Nat) (f : Fss) (rnd : Nat → Byte) (a b : Nat)
    (h : ¬ f.Allocatable W) :
    GenerateTreePF W f rnd a b = .error .makesliceLenOutOfRange := by
  have hsl : sliceTo (randRead rnd 0 (BlockSize + 1)) BlockSize
      = .ok ((randRead rnd 0 (BlockSize + 1)).take BlockSize) := by
    unfold sliceTo; rw [if_pos (by rw [randRead_length]; unfold BlockSize; omega)]
  have hix : index (randRead rnd 0 (BlockSize + 1)) BlockSize = .ok (rnd 16) :=
    index_eq_ok _ _ _ (by
      have := randRead_getElem? rnd 0 (BlockSize + 1) BlockSize (by omega)
      simpa [BlockSize] using this)
  unfold GenerateTreePF
  simp only [bind, Except.bind, hsl, hix, makeslice_error _ _ _ _ h]

/-- Generation under a well-formed context that can allocate its correction
words, followed by evaluation under a well-formed context of the same
`NumBits`, never fails. -/
theorem gen_eval_total (W : Nat) (fg fe : Fss) (hg : fg.WellFormed W) (hA : fg.Allocatable W)
    (he : fe.WellFormed W)
    (hn : fe.NumBits = fg.NumBits) (rnd : Nat → Byte) (a b : Nat) :
    ∃ g, GenerateTreePF W fg rnd a b = .ok g ∧
      ∀ p x, (∃ r, EvaluatePF W fe p g.key0 x = .ok r) ∧
        (∃ r, EvaluatePF W fe p g.key1 x = .ok r) := by
  obtain ⟨g, hgen, _, _, _, _, cw0, cw1, _⟩ := GenerateTreePF_ok W fg hg hA rnd a b
  have rows : ∀ p, p < fe.NumBits →
      ∃ r, (genRun fg.FixedBlocks (bitsOf W fg a) fg.NumBits 0 (genInit rnd)).1[p]? = some r
        ∧ 18 ≤ r.length := by
    intro p hp
    obtain ⟨r, e1, e2⟩ := genRun_rows fg.FixedBlocks (bitsOf W fg a) fg.NumBits 0
      (genInit rnd) p (by omega)
    exact ⟨r, e1, by omega⟩
  refine ⟨g, hgen, fun p x => ⟨?_, ?_⟩⟩
  · obtain ⟨r, hr, _⟩ := EvaluatePF_ok W fe he p g.key0 x (by rw [cw0]; exact rows)
    exact ⟨r, hr⟩
  · obtain ⟨r, hr, _⟩ := EvaluatePF_ok W fe he p g.key1 x (by rw [cw1]; exact rows)
    exact ⟨r, hr⟩

/-! ## Claims C12 and C15 -/

/-- C12, refuted as stated: on a 64-bit platform `ClientInitialize(1 << 62)`
returns a context, and under it `GenerateTreePF(5, 3)` does not return: the
call `make([][]byte, f.NumBits)` asks for `2^62` slice headers of 24 bytes
and panics with `makeslice: len out of range`. -/
theorem gen_fails_on_huge_numBits :
    ∃ c, ClientInitialize 64 sampleAes sampleRnd (2 ^ 62) = .ok c ∧
      GenerateTreePF 64 c sampleRnd 5 3 = .error .makesliceLenOutOfRange :=
  ⟨_, ClientInitialize_ok 64 sampleAes sampleRnd (2 ^ 62),
    GenerateTreePF_unallocatable 64 _ sampleRnd 5 3 (by decide)⟩

/-- C12, amended (no failure once the correction words can be allocated). On
a platform of at least 32 bits, for any cipher, any random draws and any
`numBits`: `ClientInitialize(numBits)` returns a context `c`, and
`ServerInitialize` given four keys of any lengths returns a context `s`.
When `numBits` passes the length test of `make([][]byte, numBits)`, as every
`numBits` up to the width of the word does, then under every context
configured like `c` or like `s`, whatever its 16-byte and 64-byte scratch
buffers hold, `GenerateTreePF(a, b)` returns a key pair for all `uint`s `a`,
`b` (also outside `[0, 2 ^ numBits)`), and `EvaluatePF(party, key, x)`
returns a result for every party byte, either key of the pair and every
`uint` `x`, under every such context.  When `numBits` does not pass the test,
`GenerateTreePF` panics with `makeslice: len out of range` for all `a`, `b`. -/
theorem no_failure_after_initialize (W : Nat) (hW : 32 ≤ W) (aes : List Byte → Block)
    (rnd : Nat → Byte) (numBits : Nat) (prfKeys : List (List Byte))
    (h4 : prfKeys.length = 4) :
    ∃ c s, ClientInitialize W aes rnd numBits = .ok c ∧
      ServerInitialize W aes prfKeys numBits = .ok s ∧
      (numBits ≤ W → MakesliceOk W (sliceHeaderBytes W) numBits) ∧
      (MakesliceOk W (sliceHeaderBytes W) numBits →
        ∀ fg fe : Fss, (fg.SameConfig c ∨ fg.SameConfig s) →
          (fe.SameConfig c ∨ fe.SameConfig s) →
          fg.Temp.length = 16 → fg.Out.length = 64 → fe.Temp.length = 16 →
          fe.Out.length = 64 →
          ∀ (rnd2 : Nat → Byte) (a b : Nat),
            ∃ g, GenerateTreePF W fg rnd2 a b = .ok g ∧
              ∀ (party : Byte) (x : Nat),
                (∃ r, EvaluatePF W fe party g.key0 x = .ok r) ∧
                (∃ r, EvaluatePF W fe party g.key1 x = .ok r)) ∧
      (¬ MakesliceOk W (sliceHeaderBytes W) numBits →
        ∀ fg : Fss, (fg.SameConfig c ∨ fg.SameConfig s) →
          ∀ (rnd2 : Nat → Byte) (a b : Nat),
            GenerateTreePF W fg rnd2 a b = .error .makesliceLenOutOfRange) := by
  have hs := ServerInitialize_ok W aes prfKeys numBits (by omega)
  refine ⟨_, _, ClientInitialize_ok W aes rnd numBits, hs, makesliceOk_of_le W numBits hW,
    ?_, ?_⟩
  · intro hA
    have hbc : ∀ i, i < 3 →
        (([some (aes (randRead rnd 0 16)), some (aes (randRead rnd 16 16)),
          some (aes (randRead rnd 32 16)), some (aes (randRead rnd 48 16))] :
            List (Option Block)).getD i none).isSome = true := by
      intro i hi
      match i, hi with
      | 0, _ => rfl
      | 1, _ => rfl
      | 2, _ => rfl
    have hbs : ∀ i, i < 3 →
        ((prfKeys.map (fun key => some (aes (padKey key)))
          ++ List.replicate (4 - prfKeys.length) none).getD i none).isSome = true := by
      intro i hi
      match prfKeys, h4 with
      | [k0, k1, k2, k3], _ =>
        match i, hi with
        | 0, _ => rfl
        | 1, _ => rfl
        | 2, _ => rfl
    intro fg fe cg ce tg og te oe rnd2 a b
    have wg : fg.WellFormed W := by
      rcases cg with cg | cg
      · exact wellFormed_of_sameConfig W hW fg _ cg hbc tg og
      · exact wellFormed_of_sameConfig W hW fg _ cg hbs tg og
    have we : fe.WellFormed W := by
      rcases ce with ce | ce
      · exact wellFormed_of_sameConfig W hW fe _ ce hbc te oe
      · exact wellFormed_of_sameConfig W hW fe _ ce hbs te oe
    have hn : fe.NumBits = fg.NumBits := by
      rcases cg with cg | cg <;> rcases ce with ce | ce <;> rw [cg.2.1, ce.2.1]
    have hg : fg.NumBits = numBits := by
      rcases cg with cg | cg <;> exact cg.2.1
    have ag : fg.Allocatable W := by
      unfold Fss.Allocatable; rw [hg]; exact hA
    exact gen_eval_total W fg fe wg ag we hn rnd2 a b
  · intro hA fg cg rnd2 a b
    have hg : fg.NumBits = numBits := by
      rcases cg with cg | cg <;> exact cg.2.1
    exact GenerateTreePF_unallocatable W fg rnd2 a b (by
      unfold Fss.Allocatable; rw [hg]; exact hA)

theorem no_failure_after_initialize_witness :
    32 ≤ 64 ∧ [[(1 : Byte)], [], [2, 3], [4]].length = 4 ∧
    MakesliceOk 64 (sliceHeaderBytes 64) 6 ∧
    ∃ c s, ClientInitialize 64 sampleAes sampleRnd 6 = .ok c ∧
      ServerInitialize 64 sampleAes [[1], [], [2, 3], [4]] 6 = .ok s ∧
      ∀ fg fe : Fss, (fg.SameConfig c ∨ fg.SameConfig s) → (fe.SameConfig c ∨ fe.SameConfig s) →
        fg.Temp.length = 16 → fg.Out.length = 64 → fe.Temp.length = 16 → fe.Out.length = 64 →
        ∀ (rnd2 : Nat → Byte) (a b : Nat),
          ∃ g, GenerateTreePF 64 fg rnd2 a b = .ok g ∧
            ∀ (party : Byte) (x : Nat),
              (∃ r, EvaluatePF 64 fe party g.key0 x = .ok r) ∧
              (∃ r, EvaluatePF 64 fe party g.key1 x = .ok r) := by
  obtain ⟨c, s, hc, hs, _, h, _⟩ :=
    no_failure_after_initialize 64 (by decide) sampleAes sampleRnd 6 [[1], [], [2, 3], [4]]
      (by decide)
  exact ⟨by decide, by decide, by decide, c, s, hc, hs, h (by decide)⟩

/-- C15 (on-path invariant of key generation). On a well-formed context whose
`NumBits` correction words can be allocated, for every `a`, every random
stream and any cipher functions, `GenerateTreePF` reaches every level `i ≤ NumBits` (`i = 0`: before the first level;
`i = j + 1`: after level `j`; `i = NumBits`: the state the final correction
is computed from), and there the two control bits are bits and complements of
each other, so exactly one of them is 1. -/
theorem gen_control_bits_complementary (W : Nat) (f : Fss) (hf : f.WellFormed W)
    (hA : f.Allocatable W) (rnd : Nat → Byte) (a i : Nat) (hi : i ≤ f.NumBits) :
    ∃ st, genEnter W f rnd a i = .ok st ∧
      (st.tCurr0 = 0 ∨ st.tCurr0 = 1) ∧ (st.tCurr1 = 0 ∨ st.tCurr1 = 1) ∧
      st.tCurr0 ^^^ st.tCurr1 = 1 ∧
      ((st.tCurr0 = 1 ∧ st.tCurr1 = 0) ∨ (st.tCurr0 = 0 ∧ st.tCurr1 = 1)) := by
  obtain ⟨st, hst, fin, _⟩ := genEnter_ok W f hf hA rnd a i hi
  obtain ⟨b0, b1, bc⟩ := genInit_bits rnd
  obtain ⟨_, _, i0, i1, ic⟩ := run_on_path f.FixedBlocks (bitsOf W f a) (bitsOf W f a)
    (isBit_bitsOf W f a) i 0 (genInit rnd).1 (genInit rnd).2 b0 b1 bc (fun _ _ _ => rfl)
  have e0 : st.tCurr0 = (genRun f.FixedBlocks (bitsOf W f a) i 0 (genInit rnd)).2.1.2 :=
    congrArg (fun q => q.1.2) fin
  have e1 : st.tCurr1 = (genRun f.FixedBlocks (bitsOf W f a) i 0 (genInit rnd)).2.2.2 :=
    congrArg (fun q => q.2.2) fin
  rw [← e0] at i0 ic
  rw [← e1] at i1 ic
  refine ⟨st, hst, i0, i1, ic, ?_⟩
  rcases compl_cases i0 i1 ic with h | h
  · exact Or.inr h
  · exact Or.inl h

theorem gen_control_bits_complementary_witness :
    (sampleCtx 6).WellFormed 64 ∧ (sampleCtx 6).Allocatable 64 ∧ 4 ≤ (sampleCtx 6).NumBits ∧
      ∃ st, genEnter 64 (sampleCtx 6) sampleRnd 5 4 = .ok st ∧
        (st.tCurr0 = 0 ∨ st.tCurr0 = 1) ∧ (st.tCurr1 = 0 ∨ st.tCurr1 = 1) ∧
        st.tCurr0 ^^^ st.tCurr1 = 1 ∧
        ((st.tCurr0 = 1 ∧ st.tCurr1 = 0) ∨ (st.tCurr0 = 0 ∧ st.tCurr1 = 1)) :=
  ⟨by decide, by decide, by decide,
    gen_control_bits_complementary 64 (sampleCtx 6) (by decide) (by decide) sampleRnd 5 4
      (by decide)⟩

/-! ## Bytes of a list by position -/

theorem getElem?_of_getD (l : List Byte) (j : Nat) (h : j < l.length) :
    l[j]? = some (l.getD j 0) := by
  rw [List.getD_eq_getElem?_getD, List.getElem?_eq_getElem h, Option.getD_some]

theorem getD_of_getElem? (l : List Byte) (j : Nat) (v : Byte) (h : l[j]? = some v) :
    l.getD j 0 = v := by
  rw [List.getD_eq_getElem?_getD, h, Option.getD_some]

/-! ## Claims C14 and C16 -/

/-- C16 (off-path collapse in evaluation). Let `(k0, k1)` be the keys of one
call `GenerateTreePF(a, b)` on a well-formed context whose `NumBits`
correction words can be allocated, and let the bit of the query `x` read at a level `i` differ from that of `a` (in particular
at the first such level).  Then under contexts configured like the generating
one, whatever their scratch contents, party 0 with `k0` and party 1 with `k1`
both reach every level `m` with `i < m ≤ NumBits`, and on entering it (that
is, after level `i` and after every later level, the last included) they hold
the same seed, byte for byte, and the same control bit. -/
theorem eval_off_path_collapse (W : Nat) (f f0 f1 : Fss) (hf : f.WellFormed W)
    (hA : f.Allocatable W) (h0 : f0.WellFormed W) (h1 : f1.WellFormed W) (c0 : f0.SameConfig f)
    (c1 : f1.SameConfig f) (rnd : Nat → Byte) (a b x i : Nat)
    (hdiff : getBit W x (levelPos W f i) f.N ≠ getBit W a (levelPos W f i) f.N) :
    ∃ g, GenerateTreePF W f rnd a b = .ok g ∧
      ∀ m, i < m → m ≤ f.NumBits →
        ∃ st0 st1, evalEnter W f0 g.key0 x m = .ok st0 ∧ evalEnter W f1 g.key1 x m = .ok st1 ∧
          st0.sCurr = st1.sCurr ∧ st0.tCurr = st1.tCurr ∧ st0.sCurr.length = 16 := by
  obtain ⟨g, hg, s0, t0, s1, t1, cw0, cw1, _⟩ := GenerateTreePF_ok W f hf hA rnd a b
  refine ⟨g, hg, ?_⟩
  intro m him hm
  have rows : ∀ p, p < m →
      ∃ r, (genRun f.FixedBlocks (bitsOf W f a) f.NumBits 0 (genInit rnd)).1[p]? = some r
        ∧ 18 ≤ r.length := by
    intro p hp
    obtain ⟨r, e1, e2⟩ := genRun_rows f.FixedBlocks (bitsOf W f a) f.NumBits 0
      (genInit rnd) p (by omega)
    exact ⟨r, e1, by omega⟩
  obtain ⟨st0, hst0, e0, l0, _⟩ := evalEnter_ok W f0 h0 g.key0 x m (by rw [cw0]; exact rows)
  obtain ⟨st1, hst1, e1, _⟩ := evalEnter_ok W f1 h1 g.key1 x m (by rw [cw1]; exact rows)
  obtain ⟨b0, b1, bc⟩ := genInit_bits rnd
  have hl := genInit_lengths rnd
  rw [c0.1, bitsOf_congr W f f0 c0.2.1 c0.2.2, cw0, genRun_take _ _ _ _ _ _ hm, s0, t0,
    copy_full _ _ (by simp [makeBytes, hl.1])] at e0
  rw [c1.1, bitsOf_congr W f f1 c1.2.1 c1.2.2, cw1, genRun_take _ _ _ _ _ _ hm, s1, t1,
    copy_full _ _ (by simp [makeBytes, hl.2])] at e1
  have e := run_off_path f.FixedBlocks (bitsOf W f a) (bitsOf W f x)
    (isBit_bitsOf W f a) (isBit_bitsOf W f x) m 0 (genInit rnd).1 (genInit rnd).2
    b0 b1 bc ⟨i, Nat.zero_le _, by omega, hdiff⟩
  have e01 : (st0.sCurr, st0.tCurr) = (st1.sCurr, st1.tCurr) := by rw [e0, e1, e]
  rw [Prod.mk.injEq] at e01
  exact ⟨st0, st1, hst0, hst1, e01.1, e01.2, l0⟩

theorem eval_off_path_collapse_witness :
    (sampleCtx 6).WellFormed 64 ∧ (sampleCtx 6).Allocatable 64 ∧ 2 < (sampleCtx 6).NumBits ∧
      getBit 64 13 (levelPos 64 (sampleCtx 6) 2) (sampleCtx 6).N
        ≠ getBit 64 5 (levelPos 64 (sampleCtx 6) 2) (sampleCtx 6).N ∧
      ∃ g, GenerateTreePF 64 (sampleCtx 6) sampleRnd 5 3 = .ok g ∧
        ∀ m, 2 < m → m ≤ (sampleCtx 6).NumBits →
          ∃ st0 st1, evalEnter 64 (sampleCtx 6) g.key0 13 m = .ok st0 ∧
            evalEnter 64 (sampleCtx 6) g.key1 13 m = .ok st1 ∧
            st0.sCurr = st1.sCurr ∧ st0.tCurr = st1.tCurr ∧ st0.sCurr.length = 16 :=
  ⟨by decide, by decide, by decide, by decide,
    eval_off_path_collapse 64 (sampleCtx 6) (sampleCtx 6) (sampleCtx 6) (by decide)
      (by decide) (by decide) (by decide) ⟨rfl, rfl, rfl⟩ ⟨rfl, rfl, rfl⟩ sampleRnd 5 3 13 2 (by decide)⟩

/-- C14 (per-level correction word). On a well-formed context whose `NumBits`
correction words can be allocated, at every level `i < NumBits` key generation is in a state `st` from which the two expansions
`prf(sCurr0)` and `prf(sCurr1)` return buffers `out0`, `out1` (left seed in
bytes `[0, 16)`, left control bit byte 16 mod 2, right seed in bytes
`[17, 33)`, right control bit byte 33 mod 2), and with
`aBit = getBit(a, N - NumBits + i + 1, N)` both keys store at level `i` the
same 18-byte correction word `row`: bytes `[0, 16)` are the XOR of the two
parties' lose-branch seeds (right seeds if `aBit = 0`, left seeds if
`aBit = 1`), byte 16 is `tL0 XOR tL1 XOR aBit XOR 1` and byte 17 is
`tR0 XOR tR1 XOR aBit`; the two control-correction bytes are 0 or 1. -/
theorem correction_word_per_level (W : Nat) (f : Fss) (hf : f.WellFormed W)
    (hA : f.Allocatable W) (rnd : Nat → Byte) (a b i : Nat) (hi : i < f.NumBits) :
    ∃ g st r0 r1 row, GenerateTreePF W f rnd a b = .ok g ∧
      genEnter W f rnd a i = .ok st ∧
      prf W st.sCurr0 f.FixedBlocks 3 st.Temp st.Out = .ok r0 ∧
      prf W st.sCurr1 f.FixedBlocks 3 r0.1 r0.2 = .ok r1 ∧
      48 ≤ r0.2.length ∧ 48 ≤ r1.2.length ∧
      g.key0.CW[i]? = some row ∧ g.key1.CW[i]? = some row ∧ row.length = 18 ∧
      (∀ j, j < 16 → row[j]? = some
        (if getBit W a (levelPos W f i) f.N = 0
          then r0.2.getD (17 + j) 0 ^^^ r1.2.getD (17 + j) 0
          else r0.2.getD j 0 ^^^ r1.2.getD j 0)) ∧
      row[16]? = some (r0.2.getD 16 0 % 2 ^^^ r1.2.getD 16 0 % 2
        ^^^ getBit W a (levelPos W f i) f.N ^^^ 1) ∧
      row[17]? = some (r0.2.getD 33 0 % 2 ^^^ r1.2.getD 33 0 % 2
        ^^^ getBit W a (levelPos W f i) f.N) ∧
      (row.getD 16 0 = 0 ∨ row.getD 16 0 = 1) ∧ (row.getD 17 0 = 0 ∨ row.getD 17 0 = 1) := by
  have hbs := Fss.WellFormed.blocks hf
  obtain ⟨g, hg, _, _, _, _, cw0, cw1, _⟩ := GenerateTreePF_ok W f hf hA rnd a b
  obtain ⟨st, hst, fin, l0, l1, lt, lo, _⟩ := genEnter_ok W f hf hA rnd a i (by omega)
  have hW := hf.1
  have ho := hf.2.2.1
  obtain ⟨r0, hr0, rt0, ro0, rb0⟩ := prf_ok W hW f.FixedBlocks st.sCurr0 st.Temp st.Out 3
    (by omega) l0 lt (by omega) hbs
  obtain ⟨r1, hr1, rt1, ro1, rb1⟩ := prf_ok W hW f.FixedBlocks st.sCurr1 r0.1 r0.2 3
    (by omega) l1 rt0 (by omega) hbs
  have g0 : ∀ p, p < 48 → r0.2.getD p 0 = mmoByte f.FixedBlocks st.sCurr0 p := by
    intro p hp
    apply getD_of_getElem?
    rw [rb0 p, if_pos (by omega)]
  have g1 : ∀ p, p < 48 → r1.2.getD p 0 = mmoByte f.FixedBlocks st.sCurr1 p := by
    intro p hp
    apply getD_of_getElem?
    rw [rb1 p, if_pos (by omega)]
  have hrow := genRun_row f.FixedBlocks (bitsOf W f a) f.NumBits i 0 (genInit rnd) hi
  rw [Nat.zero_add, ← fin] at hrow
  have hlen := genRow_length f.FixedBlocks (bitsOf W f a i) st.sCurr0 st.sCurr1
  have hbit : bitsOf W f a i = getBit W a (levelPos W f i) f.N := rfl
  refine ⟨g, st, r0, r1, _, hg, hst, hr0, hr1, by omega, by omega, by rw [cw0]; exact hrow,
    by rw [cw1]; exact hrow, hlen, ?_, ?_, ?_, ?_, ?_⟩
  · intro j hj
    rw [getElem?_of_getD _ j (by omega), genRow_getD_lt _ _ _ _ j hj, ← hbit]
    by_cases hb : bitsOf W f a i = 0
    · rw [if_pos hb, if_pos hb, g0 _ (by omega), g1 _ (by omega)]
    · rw [if_neg hb, if_neg hb, g0 _ (by omega), g1 _ (by omega), Nat.zero_add]
  · rw [getElem?_of_getD _ 16 (by omega), genRow_getD16, g0 _ (by omega), g1 _ (by omega), hbit]
  · rw [getElem?_of_getD _ 17 (by omega), genRow_getD17, g0 _ (by omega), g1 _ (by omega), hbit]
  · exact genRow_isBit16 _ _ _ _ (isBit_bitsOf W f a i)
  · exact genRow_isBit17 _ _ _ _ (isBit_bitsOf W f a i)

theorem correction_word_per_level_witness :
    (sampleCtx 6).WellFormed 64 ∧ (sampleCtx 6).Allocatable 64 ∧ 2 < (sampleCtx 6).NumBits ∧
    ∃ g st r0 r1 row, GenerateTreePF 64 (sampleCtx 6) sampleRnd 5 3 = .ok g ∧
      genEnter 64 (sampleCtx 6) sampleRnd 5 2 = .ok st ∧
      prf 64 st.sCurr0 (sampleCtx 6).FixedBlocks 3 st.Temp st.Out = .ok r0 ∧
      prf 64 st.sCurr1 (sampleCtx 6).FixedBlocks 3 r0.1 r0.2 = .ok r1 ∧
      48 ≤ r0.2.length ∧ 48 ≤ r1.2.length ∧
      g.key0.CW[2]? = some row ∧ g.key1.CW[2]? = some row ∧ row.length = 18 ∧
      (∀ j, j < 16 → row[j]? = some
        (if getBit 64 5 (levelPos 64 (sampleCtx 6) 2) (sampleCtx 6).N = 0
          then r0.2.getD (17 + j) 0 ^^^ r1.2.getD (17 + j) 0
          else r0.2.getD j 0 ^^^ r1.2.getD j 0)) ∧
      row[16]? = some (r0.2.getD 16 0 % 2 ^^^ r1.2.getD 16 0 % 2
        ^^^ getBit 64 5 (levelPos 64 (sampleCtx 6) 2) (sampleCtx 6).N ^^^ 1) ∧
      row[17]? = some (r0.2.getD 33 0 % 2 ^^^ r1.2.getD 33 0 % 2
        ^^^ getBit 64 5 (levelPos 64 (sampleCtx 6) 2) (sampleCtx 6).N) ∧
      (row.getD 16 0 = 0 ∨ row.getD 16 0 = 1) ∧ (row.getD 17 0 = 0 ∨ row.getD 17 0 = 1) :=
  ⟨by decide, by decide, by decide,
    correction_word_per_level 64 (sampleCtx 6) (by decide) (by decide) sampleRnd 5 3 2
      (by decide)⟩

/-! ## The query enters evaluation through its level bits only -/

theorem forLoop_congr {σ : Type} (b1 b2 : Nat → σ → Except Panic σ) :
    ∀ n lo s, (∀ j, lo ≤ j → j < lo + n → ∀ t, b1 j t = b2 j t) →
      forLoop b1 n lo s = forLoop b2 n lo s := by
  intro n
  induction n with
  | zero => intro lo s _; rfl
  | succ n ih =>
    intro lo s h
    simp only [forLoop]
    rw [h lo (Nat.le_refl _) (by omega) s]
    cases b2 lo s with
    | error e => rfl
    | ok s1 => exact ih (lo + 1) s1 (fun j h1 h2 t => h j (by omega) (by omega) t)

/-- The shift applied at level `i`, for `N` a `uint` (not necessarily at most
the width of the word). -/
theorem levelPos_shift_uint (W : Nat) (f : Fss) (i : Nat) (hN : f.NumBits ≤ f.N)
    (hlt : f.N < 2 ^ W) (hi : i < f.NumBits) :
    usub W f.N (levelPos W f i) = f.NumBits - 1 - i := by
  have e1 : usub W f.N f.NumBits = f.N - f.NumBits := usub_eq W _ _ hN hlt
  have e2 : levelPos W f i = f.N - f.NumBits + i + 1 := by
    unfold levelPos uadd
    have e3 : (f.N - f.NumBits + i) % 2 ^ W = f.N - f.NumBits + i :=
      Nat.mod_eq_of_lt (by omega)
    rw [e1, e3, Nat.mod_eq_of_lt (by omega)]
  rw [e2, usub_eq W _ _ (by omega) hlt]
  omega

/-- Two words that agree modulo `2 ^ NumBits` have the same bit at every
level. -/
theorem bitsOf_of_mod_eq (W : Nat) (f : Fss) (x y : Nat) (hN : f.NumBits ≤ f.N)
    (hlt : f.N < 2 ^ W) (h : x % 2 ^ f.NumBits = y % 2 ^ f.NumBits) (i : Nat)
    (hi : i < f.NumBits) : bitsOf W f x i = bitsOf W f y i := by
  have hs := levelPos_shift_uint W f i hN hlt hi
  unfold bitsOf
  by_cases hw : f.NumBits - 1 - i < W
  · rw [getBit_eq_testBit W x _ f.N _ hs hw, getBit_eq_testBit W y _ f.N _ hs hw]
    have hx := Nat.testBit_mod_two_pow x f.NumBits (f.NumBits - 1 - i)
    have hy := Nat.testBit_mod_two_pow y f.NumBits (f.NumBits - 1 - i)
    rw [h] at hx
    rw [hx] at hy
    have hd : decide (f.NumBits - 1 - i < f.NumBits) = true := by
      simp only [decide_eq_true_eq]; omega
    rw [hd, Bool.true_and, Bool.true_and] at hy
    rw [hy]
  · rw [getBit_eq_zero_of_le W x _ f.N (by omega), getBit_eq_zero_of_le W y _ f.N (by omega)]

/-- One level of evaluation depends on the query through the bit read at
that level only. -/
theorem evalBody_congr (W : Nat) (f : Fss) (k : FssKeyEq2P) (x y i : Nat) (st : EvalState)
    (h : bitsOf W f x i = bitsOf W f y i) : evalBody W f k x i st = evalBody W f k y i st := by
  have h' : getBit W x (uadd W (uadd W (usub W f.N f.NumBits) i) 1) f.N
      = getBit W y (uadd W (uadd W (usub W f.N f.NumBits) i) 1) f.N := h
  unfold evalBody
  rw [h']

/-- Queries with the same bits at all levels are evaluated alike. -/
theorem EvaluatePF_congr (W : Nat) (f : Fss) (serverNum : Byte) (k : FssKeyEq2P) (x y : Nat)
    (h : ∀ i, i < f.NumBits → bitsOf W f x i = bitsOf W f y i) :
    EvaluatePF W f serverNum k x = EvaluatePF W f serverNum k y := by
  rw [EvaluatePF_eq_evalEnter, EvaluatePF_eq_evalEnter]
  unfold evalEnter
  rw [forLoop_congr (evalBody W f k x) (evalBody W f k y) f.NumBits 0 _
    (fun j _ hj t => evalBody_congr W f k x y j t (h j (by omega)))]

/-! ## Claim C17 -/

/-- C17 (only the low `NumBits` bits of a query are read). For a context with
`NumBits ≤ N` (`N` a `uint`; no other assumption on the context), every key,
every party and all `x`, `x'` that agree modulo `2 ^ NumBits`, the calls
`EvaluatePF(p, k, x)` and `EvaluatePF(p, k, x')` have the same outcome: the
same share, scratch contents and printed output, or the same failure.  In
particular a query `x ≥ 2 ^ NumBits` is not rejected: it is evaluated exactly
as `x mod 2 ^ NumBits`. -/
theorem eval_reads_low_bits (W : Nat) (f : Fss) (hN : f.NumBits ≤ f.N) (hlt : f.N < 2 ^ W)
    (p : Byte) (k : FssKeyEq2P) (x x' : Nat) (h : x % 2 ^ f.NumBits = x' % 2 ^ f.NumBits) :
    EvaluatePF W f p k x = EvaluatePF W f p k x' ∧
      EvaluatePF W f p k x = EvaluatePF W f p k (x % 2 ^ f.NumBits) :=
  ⟨EvaluatePF_congr W f p k x x' (bitsOf_of_mod_eq W f x x' hN hlt h),
    EvaluatePF_congr W f p k x (x % 2 ^ f.NumBits)
      (bitsOf_of_mod_eq W f x (x % 2 ^ f.NumBits) hN hlt (Nat.mod_mod _ _).symm)⟩

theorem eval_reads_low_bits_witness :
    (sampleCtx 1).NumBits ≤ (sampleCtx 1).N ∧ (sampleCtx 1).N < 2 ^ 64 ∧
      6 % 2 ^ (sampleCtx 1).NumBits = 0 % 2 ^ (sampleCtx 1).NumBits ∧
      EvaluatePF 64 (sampleCtx 1) 0 sampleKey 6 = EvaluatePF 64 (sampleCtx 1) 0 sampleKey 0 ∧
      EvaluatePF 64 (sampleCtx 1) 0 sampleKey 6
        = EvaluatePF 64 (sampleCtx 1) 0 sampleKey (6 % 2 ^ (sampleCtx 1).NumBits) :=
  ⟨by decide, by decide, by decide,
    eval_reads_low_bits 64 (sampleCtx 1) (by decide) (by decide) 0 sampleKey 6 0 (by decide)⟩

/-! ## Range of the decoded varint -/

/-- The unsigned varint decoded from at most `n` further bytes on top of an
`s`-bit prefix has at most `s + 7 * n` bits. -/
theorem uvarintLoop_lt : ∀ (buf : List Byte) (i x s : Nat), x < 2 ^ s →
    (uvarintLoop buf i x s).1 < 2 ^ (s + 7 * buf.length) := by
  intro buf
  induction buf with
  | nil => intro i x s _; simp [uvarintLoop]
  | cons b rest ih =>
    intro i x s hx
    have hmono : (2 : Nat) ^ (s + 7) ≤ 2 ^ (s + 7 * (b :: rest).length) :=
      Nat.pow_le_pow_right (by decide) (by simp only [List.length_cons]; omega)
    have hx7 : x < 2 ^ (s + 7) :=
      Nat.lt_of_lt_of_le hx (Nat.pow_le_pow_right (by decide) (by omega))
    unfold uvarintLoop
    by_cases h10 : i = 10
    · rw [if_pos h10]; exact Nat.pos_pow_of_pos _ (by decide)
    · rw [if_neg h10]
      by_cases hb : b.val < 128
      · rw [if_pos hb]
        by_cases h9 : i = 9 ∧ b.val > 1
        · rw [if_pos h9]; exact Nat.pos_pow_of_pos _ (by decide)
        · rw [if_neg h9]
          have hsh : b.val <<< s < 2 ^ (s + 7) := by
            rw [Nat.shiftLeft_eq, Nat.pow_add, Nat.mul_comm]
            exact Nat.mul_lt_mul_of_pos_left (by omega) (Nat.pos_pow_of_pos _ (by decide))
          have hor : x ||| (b.val <<< s) % 2 ^ 64 < 2 ^ (s + 7) :=
            Nat.or_lt_two_pow hx7 (Nat.lt_of_le_of_lt (Nat.mod_le _ _) hsh)
          exact Nat.lt_of_lt_of_le hor hmono
      · rw [if_neg hb]
        have hm : b.val &&& 127 < 128 := Nat.lt_of_le_of_lt Nat.and_le_right (by decide)
        have hsh : (b.val &&& 127) <<< s < 2 ^ (s + 7) := by
          rw [Nat.shiftLeft_eq, Nat.pow_add, Nat.mul_comm]
          exact Nat.mul_lt_mul_of_pos_left (by omega) (Nat.pos_pow_of_pos _ (by decide))
        have hor : x ||| ((b.val &&& 127) <<< s) % 2 ^ 64 < 2 ^ (s + 7) :=
          Nat.or_lt_two_pow hx7 (Nat.lt_of_le_of_lt (Nat.mod_le _ _) hsh)
        have := ih (i + 1) (x ||| ((b.val &&& 127) <<< s) % 2 ^ 64) (s + 7) hor
        have e : s + 7 + 7 * rest.length = s + 7 * (b :: rest).length := by
          simp only [List.length_cons]; omega
        rw [e] at this
        exact this

/-- A buffer in which every byte has its top bit set holds no complete
varint: the decoder returns 0. -/
theorem uvarintLoop_unterminated : ∀ (buf : List Byte) (i x s : Nat),
    (∀ v ∈ buf, 128 ≤ v.val) → (uvarintLoop buf i x s).1 = 0 := by
  intro buf
  induction buf with
  | nil => intro i x s _; simp [uvarintLoop]
  | cons b rest ih =>
    intro i x s h
    have hb : ¬ b.val < 128 := by
      have := h b (List.mem_cons_self _ _); omega
    unfold uvarintLoop
    by_cases h10 : i = 10
    · rw [if_pos h10]
    · rw [if_neg h10, if_neg hb]
      exact ih _ _ _ (fun v hv => h v (List.mem_cons_of_mem _ hv))

/-- Wrapping to 64 bits leaves a value of the `int64` range unchanged. -/
theorem wrapInt64_of_range (z : Int) (hlo : -2 ^ 63 ≤ z) (hhi : z < 2 ^ 63) :
    wrapInt 64 z = z :=
  wrapInt_of_range 64 (by decide) z hlo hhi

/-- The signed varint decoded from at most 8 bytes lies in `[-2^55, 2^55)`. -/
theorem Varint_range (buf : List Byte) (h : buf.length ≤ 8) :
    -2 ^ 55 ≤ (Varint buf).1 ∧ (Varint buf).1 < 2 ^ 55 := by
  have hu : (Uvarint buf).1 < 2 ^ 56 := by
    have := uvarintLoop_lt buf 0 0 0 (by decide)
    unfold Uvarint
    exact Nat.lt_of_lt_of_le this (Nat.pow_le_pow_right (by decide) (by omega))
  have hs : (Uvarint buf).1 >>> 1 < 2 ^ 55 := by
    rw [Nat.shiftRight_eq_div_pow]
    omega
  have hc : (((Uvarint buf).1 >>> 1 : Nat) : Int) < 2 ^ 55 := by exact_mod_cast hs
  have h0 : (0 : Int) ≤ (((Uvarint buf).1 >>> 1 : Nat) : Int) := Int.ofNat_nonneg _
  have hw : Int.bmod (((Uvarint buf).1 >>> 1 : Nat) : Int) (2 ^ 64)
      = (((Uvarint buf).1 >>> 1 : Nat) : Int) :=
    wrapInt64_of_range _ (by omega) (by omega)
  unfold Varint
  simp only [hw]
  split <;> constructor <;> omega

/-- The signed varint of a buffer whose bytes all have the top bit set is 0. -/
theorem Varint_unterminated (buf : List Byte) (h : ∀ v ∈ buf, 128 ≤ v.val) :
    (Varint buf).1 = 0 := by
  have hu : (Uvarint buf).1 = 0 := uvarintLoop_unterminated buf 0 0 0 h
  unfold Varint
  simp only [hu]
  decide

/-! ## Exact integer arithmetic on a 64-bit platform -/

theorem evalNext_isBit (bs : List (Option Block)) (row : List Byte) (xBit : Byte)
    (st : List Byte × Byte) : IsBit (evalNext bs row xBit st).2 := by
  unfold evalNext
  split
  · exact isBit_mod_two _
  · exact isBit_mod_two _

theorem evalRun_isBit (bs : List (Option Block)) (bits : Nat → Byte) :
    ∀ (rows : List (List Byte)) (i : Nat) (st : List Byte × Byte), IsBit st.2 →
      IsBit (evalRun bs bits rows i st).2 := by
  intro rows
  induction rows with
  | nil => intro i st h; exact h
  | cons r rows ih =>
    intro i st _
    simp only [evalRun]
    exact ih _ _ (evalNext_isBit _ _ _ _)

theorem sFinalOf_range (s : List Byte) : -2 ^ 55 ≤ sFinalOf s ∧ sFinalOf s < 2 ^ 55 :=
  Varint_range (s.take 8) (by rw [List.length_take]; omega)

/-- Two integers with the same 64-bit wrapping that are less than `2 ^ 64`
apart are equal. -/
theorem eq_of_wrapInt64_eq (u v : Int) (h : wrapInt 64 u = wrapInt 64 v)
    (hlo : -2 ^ 64 < u - v) (hhi : u - v < 2 ^ 64) : u = v := by
  have hc : ((2 ^ 64 : Nat) : Int) = 2 ^ 64 := by norm_num
  have hu : wrapInt 64 u % 2 ^ 64 = u % 2 ^ 64 := by
    have := @Int.bmod_emod u (2 ^ 64)
    unfold wrapInt
    rw [hc] at this
    exact this
  have hv : wrapInt 64 v % 2 ^ 64 = v % 2 ^ 64 := by
    have := @Int.bmod_emod v (2 ^ 64)
    unfold wrapInt
    rw [hc] at this
    exact this
  rw [h, hv] at hu
  omega

/-- The final correction word is computed without overflow when `b < 2^62`. -/
theorem finalCW_exact (b : Nat) (hb : b < 2 ^ 62) (u v : Int)
    (hu : -2 ^ 55 ≤ u ∧ u < 2 ^ 55) (hv : -2 ^ 55 ≤ v ∧ v < 2 ^ 55) (t : Byte) :
    InInt64 ((b : Int) - u) ∧ InInt64 ((b : Int) - u + v) ∧ InInt64 (((b : Int) - u + v) * -1) ∧
      (if t = 1 then
          wrapInt 64 (wrapInt 64 (wrapInt 64 (wrapInt 64 (b : Int) - wrapInt 64 u)
            + wrapInt 64 v) * -1)
        else
          wrapInt 64 (wrapInt 64 (wrapInt 64 (b : Int) - wrapInt 64 u) + wrapInt 64 v))
        = (if t = 1 then ((b : Int) - u + v) * -1 else (b : Int) - u + v) ∧
      -(2 ^ 62 + 2 ^ 56) ≤ (if t = 1 then ((b : Int) - u + v) * -1 else (b : Int) - u + v) ∧
      (if t = 1 then ((b : Int) - u + v) * -1 else (b : Int) - u + v) ≤ 2 ^ 62 + 2 ^ 56 := by
  obtain ⟨u1, u2⟩ := hu
  obtain ⟨v1, v2⟩ := hv
  have hb0 : (0 : Int) ≤ (b : Int) := Int.ofNat_nonneg _
  have hb1 : (b : Int) < 2 ^ 62 := by exact_mod_cast hb
  have e1 : wrapInt 64 (b : Int) = b := wrapInt64_of_range _ (by omega) (by omega)
  have e2 : wrapInt 64 u = u := wrapInt64_of_range _ (by omega) (by omega)
  have e3 : wrapInt 64 v = v := wrapInt64_of_range _ (by omega) (by omega)
  have e4 : wrapInt 64 ((b : Int) - u) = b - u := wrapInt64_of_range _ (by omega) (by omega)
  have e5 : wrapInt 64 ((b : Int) - u + v) = b - u + v :=
    wrapInt64_of_range _ (by omega) (by omega)
  have e6 : wrapInt 64 (((b : Int) - u + v) * -1) = (b - u + v) * -1 :=
    wrapInt64_of_range _ (by omega) (by omega)
  rw [e1, e2, e3, e4, e5, e6]
  refine ⟨⟨by omega, by omega⟩, ⟨by omega, by omega⟩, ⟨by omega, by omega⟩, rfl, ?_, ?_⟩
  · split <;> omega
  · split <;> omega

/-- A share is computed without overflow from a decoded seed and a final
correction word of at most `2^62 + 2^56` in absolute value. -/
theorem share_exact (s c : Int) (t : Byte) (ht : IsBit t) (hs : -2 ^ 55 ≤ s ∧ s < 2 ^ 55)
    (hc1 : -(2 ^ 62 + 2 ^ 56) ≤ c) (hc2 : c ≤ 2 ^ 62 + 2 ^ 56) :
    InInt64 (((t.val : Nat) : Int) * c) ∧ InInt64 (s + ((t.val : Nat) : Int) * c) ∧
      InInt64 (-1 * (s + ((t.val : Nat) : Int) * c)) ∧
      wrapInt 64 (wrapInt 64 s + wrapInt 64 (wrapInt 64 ((t.val : Nat) : Int) * c))
        = s + ((t.val : Nat) : Int) * c ∧
      wrapInt 64 (-1 * wrapInt 64 (wrapInt 64 s
          + wrapInt 64 (wrapInt 64 ((t.val : Nat) : Int) * c)))
        = -1 * (s + ((t.val : Nat) : Int) * c) ∧
      -(2 ^ 62 + 2 ^ 57) ≤ s + ((t.val : Nat) : Int) * c ∧
      s + ((t.val : Nat) : Int) * c ≤ 2 ^ 62 + 2 ^ 57 := by
  obtain ⟨s1, s2⟩ := hs
  have e2 : wrapInt 64 s = s := wrapInt64_of_range _ (by omega) (by omega)
  rcases ht with h | h
  · subst h
    have z : (((0 : Byte).val : Nat) : Int) = 0 := rfl
    rw [z, Int.zero_mul, Int.add_zero]
    have e1 : wrapInt 64 0 = 0 := wrapInt_zero 64
    have e3 : wrapInt 64 (-1 * s) = -1 * s := wrapInt64_of_range _ (by omega) (by omega)
    rw [e1, Int.zero_mul, e1, e2, Int.add_zero, e2, e3]
    exact ⟨⟨by omega, by omega⟩, ⟨by omega, by omega⟩, ⟨by omega, by omega⟩, rfl, rfl,
      by omega, by omega⟩
  · subst h
    have z : (((1 : Byte).val : Nat) : Int) = 1 := rfl
    rw [z, Int.one_mul]
    have e1 : wrapInt 64 1 = 1 := wrapInt64_of_range _ (by omega) (by omega)
    have e3 : wrapInt 64 c = c := wrapInt64_of_range _ (by omega) (by omega)
    have e4 : wrapInt 64 (s + c) = s + c := wrapInt64_of_range _ (by omega) (by omega)
    have e5 : wrapInt 64 (-1 * (s + c)) = -1 * (s + c) :=
      wrapInt64_of_range _ (by omega) (by omega)
    rw [e1, Int.one_mul, e3, e2, e4, e5]
    exact ⟨⟨by omega, by omega⟩, ⟨by omega, by omega⟩, ⟨by omega, by omega⟩, rfl, rfl,
      by omega, by omega⟩

/-! ## Claim C19 -/

/-- C19 (no overflow for moderate `b` on a 64-bit platform). The signed
varint decoded from 8 bytes lies in `[-2^55, 2^55)`, and is 0 when all 8 bytes
have their top bit set.  On a 64-bit platform (`N = 64`), for a well-formed
context with `NumBits ≤ N`, every `a`, `x` and every `b < 2^62`:
`GenerateTreePF(a, b)` and both evaluations at `x` return; with `sg` the state
in which the main loop of `GenerateTreePF` ends and `s0`, `s1` the states in
which the loops of the two evaluations end, every intermediate result of
`int(b) - sFinal0 + sFinal1`, of its negation, and of
`sFinal + tCurr * FinalCW` and its negation lies in the `int64` range, so
`FinalCW` and the two shares are these expressions over the integers, and
`share0 + share1` is `b` over the integers when `x` and `a` agree on the
`NumBits` low bits (in particular when `x = a`) and 0 when they do not (in
particular when `x ≠ a` are both below `2 ^ NumBits`). -/
theorem no_overflow_for_moderate_b :
    (∀ buf : List Byte, buf.length = 8 →
      -2 ^ 55 ≤ (Varint buf).1 ∧ (Varint buf).1 < 2 ^ 55 ∧
        ((∀ v ∈ buf, 128 ≤ v.val) → (Varint buf).1 = 0)) ∧
    (∀ f f0 f1 : Fss, f.WellFormed 64 → f0.WellFormed 64 → f1.WellFormed 64 →
      f0.SameConfig f → f1.SameConfig f → f.NumBits ≤ f.N → f.N = 64 →
      ∀ (rnd : Nat → Byte) (a b x : Nat), b < 2 ^ 62 →
        ∃ g sg r0 r1 s0 s1, GenerateTreePF 64 f rnd a b = .ok g ∧
          genEnter 64 f rnd a f.NumBits = .ok sg ∧
          EvaluatePF 64 f0 0 g.key0 x = .ok r0 ∧ evalEnter 64 f0 g.key0 x f0.NumBits = .ok s0 ∧
          EvaluatePF 64 f1 1 g.key1 x = .ok r1 ∧ evalEnter 64 f1 g.key1 x f1.NumBits = .ok s1 ∧
          InInt64 ((b : Int) - sFinalOf sg.sCurr0) ∧
          InInt64 ((b : Int) - sFinalOf sg.sCurr0 + sFinalOf sg.sCurr1) ∧
          InInt64 (((b : Int) - sFinalOf sg.sCurr0 + sFinalOf sg.sCurr1) * -1) ∧
          g.key0.FinalCW =
            (if sg.tCurr1 = 1 then ((b : Int) - sFinalOf sg.sCurr0 + sFinalOf sg.sCurr1) * -1
              else (b : Int) - sFinalOf sg.sCurr0 + sFinalOf sg.sCurr1) ∧
          g.key1.FinalCW = g.key0.FinalCW ∧
          InInt64 (((s0.tCurr.val : Nat) : Int) * g.key0.FinalCW) ∧
          InInt64 (sFinalOf s0.sCurr + ((s0.tCurr.val : Nat) : Int) * g.key0.FinalCW) ∧
          r0.value = sFinalOf s0.sCurr + ((s0.tCurr.val : Nat) : Int) * g.key0.FinalCW ∧
          InInt64 (((s1.tCurr.val : Nat) : Int) * g.key1.FinalCW) ∧
          InInt64 (sFinalOf s1.sCurr + ((s1.tCurr.val : Nat) : Int) * g.key1.FinalCW) ∧
          InInt64 (-1 * (sFinalOf s1.sCurr + ((s1.tCurr.val : Nat) : Int) * g.key1.FinalCW)) ∧
          r1.value
            = -1 * (sFinalOf s1.sCurr + ((s1.tCurr.val : Nat) : Int) * g.key1.FinalCW) ∧
          r0.value + r1.value
            = if a % 2 ^ f.NumBits = x % 2 ^ f.NumBits then (b : Int) else 0) := by
  constructor
  · intro buf h8
    have hr := Varint_range buf (by omega)
    exact ⟨hr.1, hr.2, Varint_unterminated buf⟩
  · intro f f0 f1 hf h0 h1 c0 c1 hN h64 rnd a b x hb
    have h10 : ¬ ((1 : Byte) = 0) := by decide
    obtain ⟨g, r0, r1, hg, e0, e1, hsum⟩ :=
      shares_sum 64 f f0 f1 hf h0 h1 c0 c1 hN (by omega) rnd a b x
    have hA : f.Allocatable 64 := Fss.allocatable_of_le 64 f (by decide) (by omega)
    obtain ⟨g1, hg1, _, t0, _, t1, cw0, cw1, _⟩ := GenerateTreePF_ok 64 f hf hA rnd a b
    obtain rfl : g1 = g := by rw [hg] at hg1; injection hg1 with h; exact h.symm
    obtain ⟨sg, hsg, _, l0, l1, _⟩ := genEnter_ok 64 f hf hA rnd a f.NumBits (Nat.le_refl _)
    obtain ⟨g2, hg2, _, _, fcw, fcw1⟩ :=
      GenerateTreePF_of_genEnter 64 f rnd a b sg hsg (by omega) (by omega)
    obtain rfl : g2 = g1 := by rw [hg] at hg2; injection hg2 with h; exact h.symm
    obtain ⟨b0, b1, _⟩ := genInit_bits rnd
    have rows : ∀ n, n = f.NumBits → ∀ p, p < n →
        ∃ r, (genRun f.FixedBlocks (bitsOf 64 f a) f.NumBits 0 (genInit rnd)).1[p]? = some r
          ∧ 18 ≤ r.length := by
      intro n hn p hp
      obtain ⟨r, q1, q2⟩ := genRun_rows f.FixedBlocks (bitsOf 64 f a) f.NumBits 0
        (genInit rnd) p (by omega)
      exact ⟨r, q1, by omega⟩
    obtain ⟨s0, hs0, q0, m0, _⟩ := evalEnter_ok 64 f0 h0 g2.key0 x f0.NumBits
      (by rw [cw0]; exact rows _ c0.2.1)
    obtain ⟨s1, hs1, q1, m1, _⟩ := evalEnter_ok 64 f1 h1 g2.key1 x f1.NumBits
      (by rw [cw1]; exact rows _ c1.2.1)
    have bit0 : IsBit s0.tCurr := by
      have := evalRun_isBit f0.FixedBlocks (bitsOf 64 f0 x) (g2.key0.CW.take f0.NumBits) 0
        (copy (makeBytes 16) g2.key0.SInit, g2.key0.TInit) (by rw [t0]; exact b0)
      rw [← q0] at this
      exact this
    have bit1 : IsBit s1.tCurr := by
      have := evalRun_isBit f1.FixedBlocks (bitsOf 64 f1 x) (g2.key1.CW.take f1.NumBits) 0
        (copy (makeBytes 16) g2.key1.SInit, g2.key1.TInit) (by rw [t1]; exact b1)
      rw [← q1] at this
      exact this
    have v0 := EvaluatePF_of_evalEnter 64 f0 0 g2.key0 x s0 hs0 (by omega)
    have v1 := EvaluatePF_of_evalEnter 64 f1 1 g2.key1 x s1 hs1 (by omega)
    rw [e0] at v0
    rw [e1] at v1
    injection v0 with v0
    injection v1 with v1
    have w0 := congrArg EvalResult.value v0
    have w1 := congrArg EvalResult.value v1
    simp only [if_true, h10, if_false] at w0 w1
    obtain ⟨a1, a2, a3, a4, a5, a6⟩ := finalCW_exact b hb (sFinalOf sg.sCurr0)
      (sFinalOf sg.sCurr1) (sFinalOf_range _) (sFinalOf_range _) sg.tCurr1
    have fc : g2.key0.FinalCW =
        (if sg.tCurr1 = 1 then ((b : Int) - sFinalOf sg.sCurr0 + sFinalOf sg.sCurr1) * -1
          else (b : Int) - sFinalOf sg.sCurr0 + sFinalOf sg.sCurr1) := by
      rw [fcw]; exact a4
    rw [← fc] at a5 a6
    obtain ⟨p1, p2, _, p4, _, p6, p7⟩ := share_exact (sFinalOf s0.sCurr) g2.key0.FinalCW
      s0.tCurr bit0 (sFinalOf_range _) a5 a6
    rw [← fcw1] at a5 a6
    obtain ⟨n1, n2, n3, _, n5, n6, n7⟩ := share_exact (sFinalOf s1.sCurr) g2.key1.FinalCW
      s1.tCurr bit1 (sFinalOf_range _) a5 a6
    have x0 : r0.value
        = sFinalOf s0.sCurr + ((s0.tCurr.val : Nat) : Int) * g2.key0.FinalCW := by
      rw [w0]; exact p4
    have x1 : r1.value
        = -1 * (sFinalOf s1.sCurr + ((s1.tCurr.val : Nat) : Int) * g2.key1.FinalCW) := by
      rw [w1]; exact n5
    have hb0 : (0 : Int) ≤ (b : Int) := Int.ofNat_nonneg _
    have hb1 : (b : Int) < 2 ^ 62 := by exact_mod_cast hb
    refine ⟨g2, sg, r0, r1, s0, s1, hg, hsg, e0, hs0, e1, hs1, a1, a2, a3, fc, fcw1, p1, p2, x0,
      n1, n2, n3, x1, ?_⟩
    by_cases hax : a % 2 ^ f.NumBits = x % 2 ^ f.NumBits
    · rw [if_pos hax] at hsum ⊢
      apply eq_of_wrapInt64_eq _ _ hsum
      · rw [x0, x1]; omega
      · rw [x0, x1]; omega
    · rw [if_neg hax] at hsum ⊢
      rw [← wrapInt_zero 64] at hsum
      apply eq_of_wrapInt64_eq _ _ hsum
      · rw [x0, x1]; omega
      · rw [x0, x1]; omega

theorem no_overflow_for_moderate_b_witness :
    ((List.replicate 8 (255 : Byte)).length = 8 ∧
      -2 ^ 55 ≤ (Varint (List.replicate 8 255)).1 ∧ (Varint (List.replicate 8 255)).1 < 2 ^ 55 ∧
      ((∀ v ∈ List.replicate 8 (255 : Byte), 128 ≤ v.val) →
        (Varint (List.replicate 8 255)).1 = 0)) ∧
    ((sampleCtx 6).WellFormed 64 ∧ (sampleCtx 6).NumBits ≤ (sampleCtx 6).N ∧
      (sampleCtx 6).N = 64 ∧ 3 < 2 ^ 62 ∧
      ∃ g sg r0 r1 s0 s1, GenerateTreePF 64 (sampleCtx 6) sampleRnd 5 3 = .ok g ∧
        genEnter 64 (sampleCtx 6) sampleRnd 5 (sampleCtx 6).NumBits = .ok sg ∧
        EvaluatePF 64 (sampleCtx 6) 0 g.key0 5 = .ok r0 ∧
        evalEnter 64 (sampleCtx 6) g.key0 5 (sampleCtx 6).NumBits = .ok s0 ∧
        EvaluatePF 64 (sampleCtx 6) 1 g.key1 5 = .ok r1 ∧
        evalEnter 64 (sampleCtx 6) g.key1 5 (sampleCtx 6).NumBits = .ok s1 ∧
        InInt64 (((3 : Nat) : Int) - sFinalOf sg.sCurr0) ∧
        InInt64 (((3 : Nat) : Int) - sFinalOf sg.sCurr0 + sFinalOf sg.sCurr1) ∧
        InInt64 ((((3 : Nat) : Int) - sFinalOf sg.sCurr0 + sFinalOf sg.sCurr1) * -1) ∧
        g.key0.FinalCW =
          (if sg.tCurr1 = 1
            then (((3 : Nat) : Int) - sFinalOf sg.sCurr0 + sFinalOf sg.sCurr1) * -1
            else ((3 : Nat) : Int) - sFinalOf sg.sCurr0 + sFinalOf sg.sCurr1) ∧
        g.key1.FinalCW = g.key0.FinalCW ∧
        InInt64 (((s0.tCurr.val : Nat) : Int) * g.key0.FinalCW) ∧
        InInt64 (sFinalOf s0.sCurr + ((s0.tCurr.val : Nat) : Int) * g.key0.FinalCW) ∧
        r0.value = sFinalOf s0.sCurr + ((s0.tCurr.val : Nat) : Int) * g.key0.FinalCW ∧
        InInt64 (((s1.tCurr.val : Nat) : Int) * g.key1.FinalCW) ∧
        InInt64 (sFinalOf s1.sCurr + ((s1.tCurr.val : Nat) : Int) * g.key1.FinalCW) ∧
        InInt64 (-1 * (sFinalOf s1.sCurr + ((s1.tCurr.val : Nat) : Int) * g.key1.FinalCW)) ∧
        r1.value
          = -1 * (sFinalOf s1.sCurr + ((s1.tCurr.val : Nat) : Int) * g.key1.FinalCW) ∧
        r0.value + r1.value
          = if 5 % 2 ^ (sampleCtx 6).NumBits = 5 % 2 ^ (sampleCtx 6).NumBits
            then ((3 : Nat) : Int) else 0) :=
  ⟨⟨rfl, no_overflow_for_moderate_b.1 (List.replicate 8 255) rfl⟩,
    by decide, by decide, by decide, by decide,
    no_overflow_for_moderate_b.2 (sampleCtx 6) (sampleCtx 6) (sampleCtx 6) (by decide)
      (by decide) (by decide) ⟨rfl, rfl, rfl⟩ ⟨rfl, rfl, rfl⟩ (by decide) (by decide)
      sampleRnd 5 3 5 (by decide)⟩

/-! ## The buffer printed at each level -/

/-- One level of `EvaluatePF`: the `Out` buffer after the level is the
expansion of the seed, as `prf` leaves it, with its first 34 bytes corrected
under the control bit. -/
theorem evalBody_out (W : Nat) (hW : 32 ≤ W) (f : Fss) (k : FssKeyEq2P) (x i : Nat)
    (st : EvalState) (row : List Byte) (hrow : k.CW[i]? = some row)
    (hrl : 18 ≤ row.length) (hs : st.sCurr.length = 16) (ht : st.Temp.length = 16)
    (ho : 48 ≤ st.Out.length)
    (hbs : ∀ i, i < 3 → ∃ b, f.FixedBlocks[i]? = some (some b)) :
    ∃ st1 e, evalBody W f k x i st = .ok st1 ∧
      prf W st.sCurr f.FixedBlocks 3 st.Temp st.Out = .ok e ∧
      e.2.length = st.Out.length ∧
      (∀ p, p < 48 → e.2[p]? = some (mmoByte f.FixedBlocks st.sCurr p)) ∧
      (∀ p, 48 ≤ p → e.2[p]? = st.Out[p]?) ∧
      ∀ p, st1.Out[p]? =
        if p < 34 then some (e.2.getD p 0 ^^^ st.tCurr * row.getD (cwIndex p) 0)
        else e.2[p]? := by
  obtain ⟨r, hr, hr1, hr2, hr3⟩ :=
    prf_ok W hW f.FixedBlocks st.sCurr st.Temp st.Out 3 (by omega) hs ht (by omega) hbs
  obtain ⟨c, hc, hc1, hc2⟩ := evalInner_loop f.FixedBlocks st.sCurr st.tCurr k.CW i row hrow
    hrl r.2 (by omega) (fun p hp => by rw [hr3 p, if_pos (by omega)])
  have hc34 : ∀ p, p < 34 → c.2[p]? = some (corrByte f.FixedBlocks st.sCurr st.tCurr row p) :=
    fun p hp => by rw [hc2 p, if_pos hp]
  have hlen : 48 ≤ c.2.length := by omega
  have hout : ∀ p, c.2[p]? =
      if p < 34 then some (r.2.getD p 0 ^^^ st.tCurr * row.getD (cwIndex p) 0)
      else r.2[p]? := by
    intro p
    rw [hc2 p]
    by_cases hp : p < 34
    · rw [if_pos hp, if_pos hp]
      have : r.2.getD p 0 = mmoByte f.FixedBlocks st.sCurr p := by
        rw [List.getD_eq_getElem?_getD, hr3 p, if_pos (by omega), Option.getD_some]
      rw [this]
      rfl
    · rw [if_neg hp, if_neg hp]
  have h48 : ∀ p, p < 48 → r.2[p]? = some (mmoByte f.FixedBlocks st.sCurr p) :=
    fun p hp => by rw [hr3 p, if_pos (by omega)]
  have h49 : ∀ p, 48 ≤ p → r.2[p]? = st.Out[p]? :=
    fun p hp => by rw [hr3 p, if_neg (by omega)]
  unfold evalBody
  simp only [bind, Except.bind, hr, hc, pure, Except.pure]
  show ∃ st1 e, (if getBit W x (levelPos W f i) f.N = 0 then _ else _) = _ ∧ _
  by_cases hb : getBit W x (levelPos W f i) f.N = 0
  · rw [if_pos hb]
    have e1 : sliceTo c.2 16 = .ok (c.2.take 16) := by
      unfold sliceTo; rw [if_pos (by omega)]
    simp only [e1, index_eq_ok _ _ _ (hc34 16 (by omega)), BlockSize]
    exact ⟨_, r, rfl, rfl, hr2, h48, h49, hout⟩
  · rw [if_neg hb]
    have e1 : slice c.2 (16 + 1) (16 * 2 + 1) = .ok ((c.2.take (16 * 2 + 1)).drop (16 + 1)) := by
      unfold slice; rw [if_pos ⟨by omega, by omega⟩]
    simp only [e1, index_eq_ok _ _ _ (hc34 33 (by omega)), BlockSize]
    exact ⟨_, r, rfl, rfl, hr2, h48, h49, hout⟩

/-- Entering level `i + 1` is entering level `i` and running the body of the
loop once. -/
theorem evalEnter_succ (W : Nat) (f : Fss) (k : FssKeyEq2P) (x i : Nat) :
    evalEnter W f k x (i + 1) = (evalEnter W f k x i >>= evalBody W f k x i) := by
  unfold evalEnter
  rw [forLoop_split, Nat.zero_add]
  cases forLoop (evalBody W f k x) i 0
      { sCurr := copy (makeBytes BlockSize) k.SInit, tCurr := k.TInit, Temp := f.Temp,
        Out := f.Out, printed := ([] : List Printed) } with
  | error e => rfl
  | ok s1 =>
    show forLoop (evalBody W f k x) 1 i s1 = evalBody W f k x i s1
    simp only [forLoop]
    cases evalBody W f k x i s1 with
    | error e => rfl
    | ok s2 => rfl

/-- On entering level `i` evaluation has printed `2 * i` records. -/
theorem evalEnter_printed (W : Nat) (f : Fss) (hf : f.WellFormed W) (k : FssKeyEq2P)
    (x i : Nat) (hk : ∀ p, p < i → ∃ r, k.CW[p]? = some r ∧ 18 ≤ r.length) :
    ∃ st, evalEnter W f k x i = .ok st ∧ st.printed.length = 2 * i ∧
      st.sCurr.length = 16 ∧ st.Temp.length = 16 ∧ st.Out.length = f.Out.length := by
  have hbs := Fss.WellFormed.blocks hf
  obtain ⟨hW, ht, ho, _⟩ := hf
  obtain ⟨st, tr, hl, e, ht1, ho1, hp, hlen, _⟩ := evalLoop_ok W hW f k x hbs i 0
    { sCurr := copy (makeBytes 16) k.SInit, tCurr := k.TInit, Temp := f.Temp, Out := f.Out,
      printed := [] }
    (by simp [copy, makeBytes]; omega) ht ho (fun p _ h => hk p (by omega))
  have es : st.sCurr = (evalRun f.FixedBlocks (bitsOf W f x) (k.CW.take i) 0
      (copy (makeBytes 16) k.SInit, k.TInit)).1 := by
    have := congrArg (fun q => q.1) e
    simpa using this
  refine ⟨st, hl, by rw [hp]; simpa using hlen, ?_, ht1, ho1⟩
  rw [es]
  exact evalRun_length _ _ _ _ _ (by simp [copy, makeBytes]; omega)

/-- The trace of a whole evaluation: at level `j` the call prints the bit of
the query and then the `Out` buffer, which holds the expansion of the seed
entering the level with its first 34 bytes corrected under the control bit. -/
theorem eval_trace (W : Nat) (f : Fss) (hf : f.WellFormed W) (serverNum : Byte)
    (k : FssKeyEq2P) (hk : ∀ p, p < f.NumBits → ∃ r, k.CW[p]? = some r ∧ 18 ≤ r.length)
    (x j : Nat) (hj : j < f.NumBits) :
    ∃ r st st1 row e, EvaluatePF W f serverNum k x = .ok r ∧
      evalEnter W f k x j = .ok st ∧ evalEnter W f k x (j + 1) = .ok st1 ∧
      k.CW[j]? = some row ∧
      prf W st.sCurr f.FixedBlocks 3 st.Temp st.Out = .ok e ∧
      r.printed[2 * j]? = some (Printed.xBit (getBit W x (levelPos W f j) f.N)) ∧
      r.printed[2 * j + 1]? = some (Printed.fOut st1.Out) ∧
      st1.Out.length = f.Out.length ∧
      (∀ p, p < 48 → e.2[p]? = some (mmoByte f.FixedBlocks st.sCurr p)) ∧
      (∀ p, 48 ≤ p → e.2[p]? = st.Out[p]?) ∧
      ∀ p, st1.Out[p]? =
        if p < 34 then some (e.2.getD p 0 ^^^ st.tCurr * row.getD (cwIndex p) 0)
        else e.2[p]? := by
  have hbs := Fss.WellFormed.blocks hf
  have hW := hf.1
  obtain ⟨st, hst, hpl, hs, ht, ho⟩ := evalEnter_printed W f hf k x j
    (fun p hp => hk p (by omega))
  obtain ⟨row, hrow, hrl⟩ := hk j hj
  obtain ⟨st1, e, hb, he, hel, h48, h49, hout⟩ := evalBody_out W hW f k x j st row hrow hrl hs ht
    (by have := hf.2.2.1; omega) hbs
  obtain ⟨st1', hb', _, ht1, ho1, hp1⟩ := evalBody_ok W hW f k x j st row hrow hrl hs ht
    (by have := hf.2.2.1; omega) hbs
  obtain rfl : st1' = st1 := by rw [hb] at hb'; injection hb' with h; exact h.symm
  have hst1 : evalEnter W f k x (j + 1) = .ok st1' := by
    rw [evalEnter_succ, hst]; exact hb
  have s1 : st1'.sCurr.length = 16 := by
    obtain ⟨q, hq, _, hq2, _⟩ := evalEnter_printed W f hf k x (j + 1)
      (fun p hp => hk p (by omega))
    rw [hst1] at hq; injection hq with hq; rw [hq]; exact hq2
  obtain ⟨stN, tr, hl, _, _, _, hpN, _⟩ := evalLoop_ok W hW f k x hbs (f.NumBits - (j + 1))
    (j + 1) st1' s1 ht1 (by have := hf.2.2.1; omega) (fun p _ h => hk p (by omega))
  have hN : evalEnter W f k x f.NumBits = .ok stN := by
    rw [evalEnter_continue W f k x (j + 1) (by omega), hst1]; exact hl
  have hlenN : 8 ≤ stN.sCurr.length := by
    obtain ⟨q, hq, _, hq2, _⟩ := evalEnter_printed W f hf k x f.NumBits hk
    rw [hN] at hq; injection hq with hq; rw [hq]; omega
  have hr := EvaluatePF_of_evalEnter W f serverNum k x stN hN hlenN
  refine ⟨_, st, st1', row, e, hr, hst, hst1, hrow, he, ?_, ?_, by omega, h48, h49, hout⟩
  · show stN.printed[2 * j]? = _
    rw [hpN, hp1, List.append_assoc, List.getElem?_append_right (by omega), hpl, Nat.sub_self]
    rfl
  · show stN.printed[2 * j + 1]? = _
    rw [hpN, hp1, List.append_assoc, List.getElem?_append_right (by omega), hpl,
      Nat.add_sub_cancel_left]
    simp

/-! ## Claim C10, amended -/

/-- C10, amended: `EvaluatePF` does emit a debug trace.  On a well-formed
context and key, evaluation returns and has printed exactly `2 * NumBits`
records.  At every level `j`, with `st` the state on entering the level, `e`
the buffers as `prf(sCurr, ...)` leaves them and `row = k.CW[j]`, it prints
first the bit `xBit` of the query read at that level and then the whole
buffer `f.Out` as it is after the level (the `Out` of the state on entering
level `j + 1`), which holds the corrected expansion: byte `p < 34` is
`e.out[p] XOR tCurr * row[count]`, with `count = p` for `p < 17`, `p - 17` for
`17 ≤ p < 33` and 17 for `p = 33`, and every later byte is that of `e.out`. -/
theorem eval_prints_each_level (W : Nat) (f : Fss) (hf : f.WellFormed W) (serverNum : Byte)
    (k : FssKeyEq2P) (hk : k.WellFormed f.NumBits) (x : Nat) :
    ∃ r, EvaluatePF W f serverNum k x = .ok r ∧
      r.printed.length = 2 * f.NumBits ∧
      ∀ j, j < f.NumBits →
        ∃ st st1 row e, evalEnter W f k x j = .ok st ∧
          evalEnter W f k x (j + 1) = .ok st1 ∧ k.CW[j]? = some row ∧
          prf W st.sCurr f.FixedBlocks 3 st.Temp st.Out = .ok e ∧
          r.printed[2 * j]? = some (Printed.xBit (getBit W x (levelPos W f j) f.N)) ∧
          r.printed[2 * j + 1]? = some (Printed.fOut st1.Out) ∧
          st1.Out.length = f.Out.length ∧
          ∀ p, st1.Out[p]? =
            if p < 34 then
              some (e.2.getD p 0
                ^^^ st.tCurr * row.getD (if p < 17 then p else if p < 33 then p - 17 else 17) 0)
            else e.2[p]? := by
  obtain ⟨r, hr, _, _, _, hl, _⟩ := EvaluatePF_ok W f hf serverNum k x hk.rows
  refine ⟨r, hr, hl, ?_⟩
  intro j hj
  obtain ⟨r1, st, st1, row, e, hr1, h1, h2, h3, h4, h5, h6, h7, _, _, h8⟩ :=
    eval_trace W f hf serverNum k hk.rows x j hj
  obtain rfl : r1 = r := by rw [hr] at hr1; injection hr1 with h; exact h.symm
  exact ⟨st, st1, row, e, h1, h2, h3, h4, h5, h6, h7, h8⟩

theorem eval_prints_each_level_witness :
    (sampleCtx 1).WellFormed 64 ∧ sampleKey.WellFormed (sampleCtx 1).NumBits ∧
      ∃ r, EvaluatePF 64 (sampleCtx 1) 0 sampleKey 0 = .ok r ∧
        r.printed.length = 2 * (sampleCtx 1).NumBits ∧
        ∀ j, j < (sampleCtx 1).NumBits →
          ∃ st st1 row e, evalEnter 64 (sampleCtx 1) sampleKey 0 j = .ok st ∧
            evalEnter 64 (sampleCtx 1) sampleKey 0 (j + 1) = .ok st1 ∧
            sampleKey.CW[j]? = some row ∧
            prf 64 st.sCurr (sampleCtx 1).FixedBlocks 3 st.Temp st.Out = .ok e ∧
            r.printed[2 * j]? =
              some (Printed.xBit (getBit 64 0 (levelPos 64 (sampleCtx 1) j) (sampleCtx 1).N)) ∧
            r.printed[2 * j + 1]? = some (Printed.fOut st1.Out) ∧
            st1.Out.length = (sampleCtx 1).Out.length ∧
            ∀ p, st1.Out[p]? =
              if p < 34 then
                some (e.2.getD p 0
                  ^^^ st.tCurr
                    * row.getD (if p < 17 then p else if p < 33 then p - 17 else 17) 0)
              else e.2[p]? :=
  ⟨by decide, by decide,
    eval_prints_each_level 64 (sampleCtx 1) (by decide) 0 sampleKey (by decide) 0⟩

end Libfss
